import Mathlib

/-!
Shallow embedding of the in-memory scorch segment builder
(`index/scorch/segment/mem/build.go`).

Modelling conventions:
* Go maps are modelled as association lists; the list order stands for the
  map's iteration order (the embedding fixes one iteration order; Go leaves
  it unspecified).
* Machine integers (`int`, `uint16`, `uint64`) are modelled as `Nat`.  The
  builds considered stay far below the 2^16 / 2^63 bounds where Go's
  arithmetic would wrap; the single semantically relevant wraparound, the
  `uint64` underflow `0 - 1` on a dictionary miss (which would make the
  subsequent slice index out of range and panic), is proved unreachable, so
  `Nat` subtraction agrees with the Go subtraction at every executed point.
* `roaring.Bitmap` (an external collaborator) is modelled from the spec as a
  strictly increasing list of document numbers: a set that always enumerates
  its members in increasing numeric order, whatever the insertion order.
* `float32` norm weights are a pure function of the accumulated token length
  `l` (Go computes `float32(1.0/math.Sqrt(float64(l)))`); the embedding
  represents the weight symbolically by `l` itself (structure `Norm`).
-/

/-- Association-list lookup; stands for a Go map read with `ok` flag. -/
def lookupA {α β : Type} [DecidableEq α] : List (α × β) → α → Option β
  | [], _ => none
  | (k, v) :: rest, a => if k = a then some v else lookupA rest a

/-- Replace the value bound to a present key, keeping its position. -/
def updateA {α β : Type} [DecidableEq α] : List (α × β) → α → β → List (α × β)
  | [], _, _ => []
  | (k, v) :: rest, a, b => if k = a then (k, b) :: rest else (k, v) :: updateA rest a b

/-- Go map write `m[a] = b`: update in place when present, append when absent. -/
def setA {α β : Type} [DecidableEq α] (m : List (α × β)) (a : α) (b : β) : List (α × β) :=
  match lookupA m a with
  | some _ => updateA m a b
  | none => m ++ [(a, b)]

/-- Apply `f` to the element at index `i`, when in range (Go slice write). -/
def modifyAt {β : Type} : List β → Nat → (β → β) → List β
  | [], _, _ => []
  | x :: rest, 0, f => f x :: rest
  | x :: rest, n + 1, f => x :: modifyAt rest n f

/-- Membership insertion on a roaring bitmap, modelled on a strictly
increasing list: the result again enumerates members in increasing order. -/
def bmAdd : List Nat → Nat → List Nat
  | [], d => [d]
  | x :: xs, d => if d < x then d :: x :: xs else if d = x then x :: xs else x :: bmAdd xs d

/-- Index of the first occurrence of `a`, if any. -/
def idxOfA {α : Type} [DecidableEq α] : List α → α → Option Nat
  | [], _ => none
  | x :: xs, a => if x = a then some 0 else (idxOfA xs a).map (· + 1)

/-- One token location record (`analysis.TokenLocation`): an occurrence's
field-of-occurrence override (empty string when absent), byte offsets, token
position and array-position path. -/
structure Location where
  field : String
  start : Nat
  end_ : Nat
  position : Nat
  arrayPositions : List Nat
deriving DecidableEq, Repr

/-- Per-term data in a token-frequency map (`analysis.TokenFreq`):
occurrence count and the ordered location records. -/
structure TokenFreq where
  frequency : Nat
  locations : List Location
deriving DecidableEq, Repr

/-- `analysis.TokenFrequencies`: term → TokenFreq.  The association list
order models the Go map's iteration order; the analyzer produces a map, so
well-formed inputs have pairwise distinct term keys. -/
abbrev TokenFrequencies := List (String × TokenFreq)

/-- The closed set of document field kinds distinguished by
`encodeFieldType`'s type switch. -/
inductive FieldKind
  | text
  | numeric
  | dateTime
  | boolean
  | geoPoint
  | composite
  | unknown
deriving DecidableEq, Repr

/-- A regular document field as consumed by the builder: name, declared
kind, option flags, raw value bytes and array-position path. -/
structure RegularField where
  name : String
  kind : FieldKind
  isStored : Bool
  includeDocValues : Bool
  value : List Nat
  arrayPositions : List Nat
deriving DecidableEq, Repr

/-- Modelled from the spec: a composite field (`document.CompositeField`,
outside the embedded file) reports its name and, on demand via `Analyze`,
its token length and term-frequency map; `Analyze` is a pure function of the
field, so both passes observe the same result. -/
structure CompositeField where
  name : String
  analyzeLen : Nat
  analyzeTf : TokenFrequencies
deriving DecidableEq, Repr

/-- The document part of an analysis result: composite fields and the
ordered regular fields. -/
structure Document where
  compositeFields : List CompositeField
  fields : List RegularField
deriving DecidableEq, Repr

/-- `index.AnalysisResult`: the document plus, aligned 1:1 with its regular
fields, the analyzed token-frequency maps and token lengths. -/
structure AnalysisResult where
  document : Document
  analyzed : List TokenFrequencies
  length : List Nat
deriving DecidableEq, Repr

/-- A norm weight.  Go stores `float32(1.0/math.Sqrt(float64(ofLen)))`, a
pure function of the accumulated token length `ofLen`; the embedding keeps
`ofLen` itself as the symbolic value of that function application. -/
structure NormVal where
  ofLen : Nat
deriving DecidableEq, Repr

/-- The in-memory segment under construction (struct `mem.Segment`; the
struct declaration lives in `segment.go`, its shape is fully determined by
the uses in `build.go` and spec §3).  `FieldsMap` stores external field id
plus one, exactly as the Go code does. -/
structure Segment where
  FieldsMap : List (String × Nat)
  FieldsInv : List String
  Dicts : List (List (String × Nat))
  DictKeys : List (List String)
  Postings : List (List Nat)
  PostingsLocs : List (List Nat)
  Freqs : List (List Nat)
  Norms : List (List NormVal)
  Locfields : List (List Nat)
  Locstarts : List (List Nat)
  Locends : List (List Nat)
  Locpos : List (List Nat)
  Locarraypos : List (List (Option (List Nat)))
  Stored : List (List (Nat × List (List Nat)))
  StoredTypes : List (List (Nat × List Nat))
  StoredPos : List (List (Nat × List (List Nat)))
  DocValueFields : List Nat
deriving DecidableEq, Repr

/-- Modelled from the spec: `mem.New` (in `segment.go`) returns an empty
segment with all structures empty. -/
def New : Segment :=
  { FieldsMap := [], FieldsInv := [], Dicts := [], DictKeys := []
    Postings := [], PostingsLocs := [], Freqs := [], Norms := []
    Locfields := [], Locstarts := [], Locends := [], Locpos := [], Locarraypos := []
    Stored := [], StoredTypes := [], StoredPos := [], DocValueFields := [] }

/-- `encodeFieldType`: total mapping from the field's kind to its one-byte
wire tag (byte values of 't','n','d','b','g','c','x'). -/
def encodeFieldType (f : RegularField) : Nat :=
  match f.kind with
  | .text => 116
  | .numeric => 110
  | .dateTime => 100
  | .boolean => 98
  | .geoPoint => 103
  | .composite => 99
  | .unknown => 120

/-- `getOrDefineField`: resolve a field name to its external id, assigning
the next id on first sight and growing the four parallel registry
structures together.  Returns the external id and the updated segment. -/
def Segment.getOrDefineField (s : Segment) (name : String) : Nat × Segment :=
  match lookupA s.FieldsMap name with
  | some fieldID => (fieldID - 1, s)
  | none =>
    let fieldID := s.FieldsInv.length + 1
    (fieldID - 1,
      { s with
        FieldsMap := s.FieldsMap ++ [(name, fieldID)]
        FieldsInv := s.FieldsInv ++ [name]
        Dicts := s.Dicts ++ [[]]
        DictKeys := s.DictKeys ++ [([] : List String)] })

/-- One step of `initializeDict`'s `processField` closure: a term not yet in
the field's dictionary gets the next (1-based) posting ordinal and is
appended to the field's key list. -/
def dictAddTerm (s : Segment) (n : Nat) (fieldID : Nat) (term : String) : Nat × Segment :=
  match lookupA (s.Dicts.getD fieldID []) term with
  | some _ => (n, s)
  | none =>
    let n := n + 1
    (n, { s with
          Dicts := modifyAt s.Dicts fieldID (fun d => d ++ [(term, n)])
          DictKeys := modifyAt s.DictKeys fieldID (fun ks => ks ++ [term]) })

/-- `initializeDict`'s `processField` closure: walk a token-frequency map's
terms. -/
def dictProcessField : Segment → Nat → Nat → TokenFrequencies → Nat × Segment
  | s, n, _, [] => (n, s)
  | s, n, fieldID, (term, _) :: rest =>
    let p := dictAddTerm s n fieldID term
    dictProcessField p.2 p.1 fieldID rest

/-- First pass, composite-field walk of one document. -/
def dictComposites : Segment → Nat → List CompositeField → Nat × Segment
  | s, n, [] => (n, s)
  | s, n, field :: rest =>
    let p := s.getOrDefineField field.name
    let q := dictProcessField p.2 n p.1 field.analyzeTf
    dictComposites q.2 q.1 rest

/-- First pass, regular-field walk of one document; the i-th field is paired
with the i-th analyzed token-frequency map. -/
def dictRegulars : Segment → Nat → List RegularField → List TokenFrequencies → Nat × Segment
  | s, n, [], _ => (n, s)
  | s, n, field :: rest, tfs =>
    let p := s.getOrDefineField field.name
    let q := dictProcessField p.2 n p.1 (tfs.headD [])
    dictRegulars q.2 q.1 rest tfs.tail

/-- First pass over the whole batch, threading the running posting count. -/
def dictResults : Segment → Nat → List AnalysisResult → Nat × Segment
  | s, n, [] => (n, s)
  | s, n, result :: rest =>
    let p := dictComposites s n result.document.compositeFields
    let q := dictRegulars p.2 p.1 result.document.fields result.analyzed
    dictResults q.2 q.1 rest

/-- `initializeDict`: fill `Dicts`/`DictKeys` over the whole batch, then
allocate one empty slot per assigned ordinal in each of the nine
postings-parallel arrays. -/
def Segment.initializeDict (s : Segment) (results : List AnalysisResult) : Segment :=
  let p := dictResults s 0 results
  let numPostings := p.1
  { p.2 with
    Postings := List.replicate numPostings []
    PostingsLocs := List.replicate numPostings []
    Freqs := List.replicate numPostings []
    Norms := List.replicate numPostings []
    Locfields := List.replicate numPostings []
    Locstarts := List.replicate numPostings []
    Locends := List.replicate numPostings []
    Locpos := List.replicate numPostings []
    Locarraypos := List.replicate numPostings [] }

/-- Modelled from the spec: `analysis.TokenFrequencies.MergeAll` (analysis
package, outside the embedded file) combines a second token-frequency map
into the first additively: occurrence counts add, location lists
concatenate, terms new to the first map are inserted.  (The Go original
additionally rewrites each merged-in location's override field name to the
collating field's name; resolving that name yields the collating field id
again, so the rewrite is observationally irrelevant here and is omitted.) -/
def mergeAll : TokenFrequencies → TokenFrequencies → TokenFrequencies
  | tfs, [] => tfs
  | tfs, (term, tf) :: rest =>
    mergeAll
      (match lookupA tfs term with
       | some e =>
         updateA tfs term
           { frequency := e.frequency + tf.frequency, locations := e.locations ++ tf.locations }
       | none => tfs ++ [(term, tf)])
      rest

/-- The transient per-document state of `processDocument`: the segment plus
the local `docMap` and `fieldLens` collation maps. -/
structure DocState where
  seg : Segment
  docMap : List (Nat × TokenFrequencies)
  fieldLens : List (Nat × Nat)

/-- `processDocument`'s `processField` closure: accumulate the field's token
length and merge its token-frequency map into the per-field collation. -/
def docProcessField (st : DocState) (field : Nat) (l : Nat) (tf : TokenFrequencies) : DocState :=
  { st with
    fieldLens := setA st.fieldLens field ((lookupA st.fieldLens field).getD 0 + l)
    docMap :=
      match lookupA st.docMap field with
      | some existingFreqs => setA st.docMap field (mergeAll existingFreqs tf)
      | none => setA st.docMap field tf }

/-- `processDocument`'s `storeField` closure: record a stored field's value,
type tag and array-position path under (document number, field id),
appending on repeats. -/
def Segment.storeField (s : Segment) (docNum : Nat) (field : Nat) (typ : Nat)
    (val : List Nat) (pos : List Nat) : Segment :=
  { s with
    Stored := modifyAt s.Stored docNum (fun m => setA m field ((lookupA m field).getD [] ++ [val]))
    StoredTypes := modifyAt s.StoredTypes docNum (fun m => setA m field ((lookupA m field).getD [] ++ [typ]))
    StoredPos := modifyAt s.StoredPos docNum (fun m => setA m field ((lookupA m field).getD [] ++ [pos])) }

/-- `addDocument`: allocate the next document number (the current stored
count) and append fresh empty stored-value maps for it. -/
def Segment.addDocument (s : Segment) : Nat × Segment :=
  (s.Stored.length,
   { s with
     Stored := s.Stored ++ [[]]
     StoredTypes := s.StoredTypes ++ [[]]
     StoredPos := s.StoredPos ++ [[]] })

/-- Idempotent insertion into the doc-values field set
(`s.DocValueFields[fieldID] = true`). -/
def dvAdd (l : List Nat) (f : Nat) : List Nat := if f ∈ l then l else l ++ [f]

/-- Second pass, composite-field walk of one document: analyze and collate. -/
def docComposites : DocState → List CompositeField → DocState
  | st, [] => st
  | st, field :: rest =>
    let p := st.seg.getOrDefineField field.name
    docComposites (docProcessField { st with seg := p.2 } p.1 field.analyzeLen field.analyzeTf) rest

/-- Second pass, regular-field walk of one document: collate, record stored
values, and mark doc-values fields. -/
def docRegulars : DocState → Nat → List RegularField → List Nat → List TokenFrequencies → DocState
  | st, _, [], _, _ => st
  | st, docNum, field :: rest, lens, tfs =>
    let p := st.seg.getOrDefineField field.name
    let st1 := docProcessField { st with seg := p.2 } p.1 (lens.headD 0) (tfs.headD [])
    let st2 := if field.isStored then
        { st1 with
          seg := st1.seg.storeField docNum p.1 (encodeFieldType field) field.value field.arrayPositions }
      else st1
    let st3 := if field.includeDocValues then
        { st2 with seg := { st2.seg with DocValueFields := dvAdd st2.seg.DocValueFields p.1 } }
      else st2
    docRegulars st3 docNum rest lens.tail tfs.tail

/-- Append one location record's five components (field-of-occurrence,
start, end, position, array-position path or absent marker) at posting
`pid`. -/
def locAppend (s : Segment) (pid : Nat) (locf : Nat) (loc : Location) : Segment :=
  { s with
    Locfields := modifyAt s.Locfields pid (fun l => l ++ [locf])
    Locstarts := modifyAt s.Locstarts pid (fun l => l ++ [loc.start])
    Locends := modifyAt s.Locends pid (fun l => l ++ [loc.end_])
    Locpos := modifyAt s.Locpos pid (fun l => l ++ [loc.position])
    Locarraypos := modifyAt s.Locarraypos pid
      (fun l => l ++ [if loc.arrayPositions ≠ [] then some loc.arrayPositions else none]) }

/-- Append one location record to the five location-parallel sequences of
posting `pid`, resolving the occurrence field through the registry when the
location carries an override name. -/
def applyLocation (s : Segment) (fieldID : Nat) (pid : Nat) (loc : Location) : Segment :=
  let p := if loc.field ≠ "" then s.getOrDefineField loc.field else (fieldID, s)
  locAppend p.2 pid p.1 loc

/-- Walk a token frequency's location records in original order. -/
def applyLocations : Segment → Nat → Nat → List Location → Segment
  | s, _, _, [] => s
  | s, fieldID, pid, loc :: rest => applyLocations (applyLocation s fieldID pid loc) fieldID pid rest

/-- One (field, term) step of the assembly walk: resolve the posting ordinal
through the dictionary (a miss reads Go's zero value 0, whose `uint64`
decrement would index out of range — proved unreachable), insert the
document into the membership bitmap, append frequency and norm, and record
location data when present. -/
def applyTokenFreq (s : Segment) (docNum : Nat) (fieldID : Nat) (fieldLen : Nat)
    (tokenFreq : TokenFreq) (term : String) : Segment :=
  let fieldTermPostings := (lookupA (s.Dicts.getD fieldID []) term).getD 0
  let pid := fieldTermPostings - 1
  let s1 := { s with
    Postings := modifyAt s.Postings pid (fun b => bmAdd b docNum)
    Freqs := modifyAt s.Freqs pid (fun l => l ++ [tokenFreq.frequency])
    Norms := modifyAt s.Norms pid (fun l => l ++ [NormVal.mk fieldLen]) }
  if tokenFreq.locations.isEmpty then s1
  else
    let s2 := { s1 with PostingsLocs := modifyAt s1.PostingsLocs pid (fun b => bmAdd b docNum) }
    applyLocations s2 fieldID pid tokenFreq.locations

/-- Assembly walk over one collated field's term map. -/
def applyTerms : Segment → Nat → Nat → Nat → TokenFrequencies → Segment
  | s, _, _, _, [] => s
  | s, docNum, fieldID, fieldLen, (term, tokenFreq) :: rest =>
    applyTerms (applyTokenFreq s docNum fieldID fieldLen tokenFreq term) docNum fieldID fieldLen rest

/-- Assembly walk over the whole collated `docMap`; each field's norm uses
that field's accumulated token length. -/
def applyDocMap : Segment → Nat → List (Nat × TokenFrequencies) → List (Nat × Nat) → Segment
  | s, _, [], _ => s
  | s, docNum, (fieldID, tokenFrequencies) :: rest, fieldLens =>
    applyDocMap (applyTerms s docNum fieldID ((lookupA fieldLens fieldID).getD 0) tokenFrequencies)
      docNum rest fieldLens

/-- `processDocument`: allocate the document number, collate composite and
regular fields into `docMap`/`fieldLens`, record stored values and
doc-values flags, then update the postings arrays from the collation. -/
def Segment.processDocument (s : Segment) (result : AnalysisResult) : Segment :=
  let p := s.addDocument
  let docNum := p.1
  let st0 : DocState := { seg := p.2, docMap := [], fieldLens := [] }
  let st1 := docComposites st0 result.document.compositeFields
  let st2 := docRegulars st1 docNum result.document.fields result.length result.analyzed
  applyDocMap st2.seg docNum st2.docMap st2.fieldLens

/-- The orchestrator's final sort step: each field's enumerable term list is
sorted lexicographically (`sort.Strings`); posting ordinals live in `Dicts`
and are untouched. -/
def Segment.sortDictKeys (s : Segment) : Segment :=
  { s with DictKeys := s.DictKeys.map (List.insertionSort (· ≤ ·)) }

/-- Modelled from the spec: `updateSizeInBytes` (in `segment.go`) computes
the segment's memory footprint, metadata only, altering none of the
structures in §3; modelled as the identity on the modelled structures. -/
def Segment.updateSizeInBytes (s : Segment) : Segment := s

/-- `NewFromAnalyzedDocs`: register the identity field, run the dictionary
pass, assemble every document in batch order, sort the term lists, record
the size metadata. -/
def NewFromAnalyzedDocs (results : List AnalysisResult) : Segment :=
  let s := New
  let s := (s.getOrDefineField "_id").2
  let s := s.initializeDict results
  let s := results.foldl Segment.processDocument s
  let s := s.sortDictKeys
  s.updateSizeInBytes

/-! ### Specification-side definitions used by the claims -/

/-- The canonical registry shape: name `k` of the inverse list is bound to
internal value `k + i + 1`.  `getOrDefineField` keeps `FieldsMap` equal to
`regOf FieldsInv 0`. -/
def regOf : List String → Nat → List (String × Nat)
  | [], _ => []
  | x :: xs, i => (x, i + 1) :: regOf xs (i + 1)

/-- Registry well-formedness: the field-name list is duplicate-free, the
name map is exactly the canonical indexing of the inverse list, and the four
parallel registry structures have equal size. -/
structure RegOK (s : Segment) : Prop where
  nodup : s.FieldsInv.Nodup
  map_eq : s.FieldsMap = regOf s.FieldsInv 0
  dicts_len : s.Dicts.length = s.FieldsInv.length
  keys_len : s.DictKeys.length = s.FieldsInv.length

/-- Segment states the build can reach: the identity field is registered on
the fresh segment first, then any sequence of the build's operations runs. -/
inductive Reachable : Segment → Prop
  | base : Reachable (New.getOrDefineField "_id").2
  | defineField {s : Segment} (name : String) :
      Reachable s → Reachable (s.getOrDefineField name).2
  | initDict {s : Segment} (results : List AnalysisResult) :
      Reachable s → Reachable (s.initializeDict results)
  | processDoc {s : Segment} (result : AnalysisResult) :
      Reachable s → Reachable (s.processDocument result)
  | sortKeys {s : Segment} : Reachable s → Reachable s.sortDictKeys
  | sizeUpdate {s : Segment} : Reachable s → Reachable s.updateSizeInBytes

/-- Record one (field name, term) pair the first time it is seen. -/
def scan1 (seen : List (String × String)) (name term : String) : List (String × String) :=
  if (name, term) ∈ seen then seen else seen ++ [(name, term)]

/-- First-appearance scan of one token-frequency map's (field name, term)
pairs, in iteration order. -/
def scanTerms : List (String × String) → String → TokenFrequencies → List (String × String)
  | seen, _, [] => seen
  | seen, name, (term, _) :: rest => scanTerms (scan1 seen name term) name rest

/-- First-appearance scan over a document's composite fields. -/
def scanComposites : List (String × String) → List CompositeField → List (String × String)
  | seen, [] => seen
  | seen, f :: rest => scanComposites (scanTerms seen f.name f.analyzeTf) rest

/-- First-appearance scan over a document's regular fields, the i-th field
paired with the i-th analyzed token-frequency map. -/
def scanRegulars : List (String × String) → List RegularField → List TokenFrequencies → List (String × String)
  | seen, [], _ => seen
  | seen, f :: rest, tfs => scanRegulars (scanTerms seen f.name (tfs.headD [])) rest tfs.tail

/-- First-appearance scan over the batch, documents in batch order,
composite fields before regular fields within a document. -/
def scanResults : List (String × String) → List AnalysisResult → List (String × String)
  | seen, [] => seen
  | seen, r :: rest =>
    scanResults (scanRegulars (scanComposites seen r.document.compositeFields)
      r.document.fields r.analyzed) rest

/-- The (field name, term) pairs of the whole batch in first-appearance
order; position `k` carries posting ordinal `k + 1`. -/
def pairScan (results : List AnalysisResult) : List (String × String) :=
  scanResults [] results

/-- All (field name, term) pairs contributed by one token-frequency map. -/
def tfTermPairs (name : String) (tf : TokenFrequencies) : List (String × String) :=
  tf.map (fun p => (name, p.1))

/-- All (field name, term) pairs of a document's regular fields. -/
def regPairs : List RegularField → List TokenFrequencies → List (String × String)
  | [], _ => []
  | f :: rest, tfs => tfTermPairs f.name (tfs.headD []) ++ regPairs rest tfs.tail

/-- All (field name, term) pairs of one document, composites first. -/
def resultPairs (r : AnalysisResult) : List (String × String) :=
  (r.document.compositeFields.map (fun f => tfTermPairs f.name f.analyzeTf)).flatten
    ++ regPairs r.document.fields r.analyzed

/-- All (field name, term) pairs occurring anywhere in the batch (with
multiplicity; its distinct elements are the distinct pairs of the batch). -/
def batchPairs (results : List AnalysisResult) : List (String × String) :=
  (results.map resultPairs).flatten

/-- All field names occurring in the batch (composite and regular). -/
def batchNames (results : List AnalysisResult) : List String :=
  (results.map (fun r => r.document.compositeFields.map CompositeField.name
    ++ r.document.fields.map RegularField.name)).flatten

/-- Well-formed analysis input: every token-frequency map, being a Go map,
has pairwise distinct term keys. -/
def WFResults (results : List AnalysisResult) : Prop :=
  ∀ r ∈ results,
    (∀ f ∈ r.document.compositeFields, (f.analyzeTf.map Prod.fst).Nodup) ∧
    (∀ tf ∈ r.analyzed, (tf.map Prod.fst).Nodup)

instance (results : List AnalysisResult) : Decidable (WFResults results) := by
  unfold WFResults; infer_instance

/-- The external field id a registered name resolves to (callers use it only
on registered names). -/
def lookupFid (fm : List (String × Nat)) (name : String) : Nat :=
  (lookupA fm name).getD 0 - 1

/-- The empty analysis result, used as the out-of-range default. -/
def emptyResult : AnalysisResult :=
  { document := { compositeFields := [], fields := [] }, analyzed := [], length := [] }

/-- The (field id, token length, token-frequency map) triples of one
document in collation order: composites first, then regular fields paired
with their analyzed data, ids resolved through the registry snapshot. -/
def regTriples (fm : List (String × Nat)) : List RegularField → List Nat → List TokenFrequencies →
    List (Nat × Nat × TokenFrequencies)
  | [], _, _ => []
  | f :: rest, lens, tfs =>
    (lookupFid fm f.name, lens.headD 0, tfs.headD []) :: regTriples fm rest lens.tail tfs.tail

/-- All collation triples of one document. -/
def docTriples (fm : List (String × Nat)) (r : AnalysisResult) : List (Nat × Nat × TokenFrequencies) :=
  r.document.compositeFields.map (fun f => (lookupFid fm f.name, f.analyzeLen, f.analyzeTf))
    ++ regTriples fm r.document.fields r.length r.analyzed

/-- One collation step: accumulate the token length and merge the
token-frequency map into the per-field view. -/
def collStep (acc : List (Nat × TokenFrequencies) × List (Nat × Nat))
    (t : Nat × Nat × TokenFrequencies) :
    List (Nat × TokenFrequencies) × List (Nat × Nat) :=
  (match lookupA acc.1 t.1 with
   | some e => setA acc.1 t.1 (mergeAll e t.2.2)
   | none => setA acc.1 t.1 t.2.2,
   setA acc.2 t.1 ((lookupA acc.2 t.1).getD 0 + t.2.1))

/-- The per-field collated view of one document: the reference for what
`processDocument` builds into its local `docMap` and `fieldLens`. -/
def collate (fm : List (String × Nat)) (r : AnalysisResult) :
    List (Nat × TokenFrequencies) × List (Nat × Nat) :=
  (docTriples fm r).foldl collStep ([], [])

/-- The collated token frequency a document carries for (field id, term),
if any: this document's contribution to that posting. -/
def docTermFreq (fm : List (String × Nat)) (r : AnalysisResult) (fieldID : Nat) (term : String) :
    Option TokenFreq :=
  (lookupA (collate fm r).1 fieldID).bind (fun tf => lookupA tf term)

/-- The document's accumulated token length for a field id. -/
def docFieldLen (fm : List (String × Nat)) (r : AnalysisResult) (fieldID : Nat) : Nat :=
  (lookupA (collate fm r).2 fieldID).getD 0

/-- The documents (in increasing document-number order) among the first `k`
that contribute to posting (fieldID, term). -/
def contribDocs (fm : List (String × Nat)) (results : List AnalysisResult)
    (fieldID : Nat) (term : String) (k : Nat) : List Nat :=
  (List.range k).filter
    (fun d => (docTermFreq fm (results.getD d emptyResult) fieldID term).isSome)

/-- The collated occurrence count document `d` contributes to a posting. -/
def contribFreq (fm : List (String × Nat)) (r : AnalysisResult) (fieldID : Nat) (term : String) : Nat :=
  ((docTermFreq fm r fieldID term).getD { frequency := 0, locations := [] }).frequency

/-- The collated location records document `d` contributes to a posting. -/
def contribLocs (fm : List (String × Nat)) (r : AnalysisResult) (fieldID : Nat) (term : String) :
    List Location :=
  ((docTermFreq fm r fieldID term).getD { frequency := 0, locations := [] }).locations

/-- Token length of field id `f` summed over a document's regular fields
that collate to `f`, the i-th field paired with the i-th token length. -/
def lenSumRegs (fm : List (String × Nat)) : List RegularField → List Nat → Nat → Nat
  | [], _, _ => 0
  | g :: rest, lens, f =>
    (if lookupFid fm g.name = f then lens.headD 0 else 0) + lenSumRegs fm rest lens.tail f

/-- Total token length of field id `f` in one document: analyzed lengths of
the composite fields collating to `f` plus token lengths of the regular
fields collating to `f`. -/
def totalFieldLen (fm : List (String × Nat)) (r : AnalysisResult) (f : Nat) : Nat :=
  ((r.document.compositeFields.filter (fun c => lookupFid fm c.name = f)).map
    CompositeField.analyzeLen).sum
    + lenSumRegs fm r.document.fields r.length f

/-- Stored raw values of field id `f` supplied by a document's regular
fields, in field order. -/
def storedVals (fm : List (String × Nat)) : List RegularField → Nat → List (List Nat)
  | [], _ => []
  | g :: rest, f =>
    (if g.isStored ∧ lookupFid fm g.name = f then [g.value] else []) ++ storedVals fm rest f

/-- Stored type tags of field id `f` supplied by a document's regular
fields, in field order. -/
def storedTags (fm : List (String × Nat)) : List RegularField → Nat → List Nat
  | [], _ => []
  | g :: rest, f =>
    (if g.isStored ∧ lookupFid fm g.name = f then [encodeFieldType g] else []) ++ storedTags fm rest f

/-- Stored array-position paths of field id `f` supplied by a document's
regular fields, in field order. -/
def storedPoss (fm : List (String × Nat)) : List RegularField → Nat → List (List Nat)
  | [], _ => []
  | g :: rest, f =>
    (if g.isStored ∧ lookupFid fm g.name = f then [g.arrayPositions] else []) ++ storedPoss fm rest f

/-- The segment after registering the identity field (step 1 of the
orchestrator). -/
def baseSegment : Segment := (New.getOrDefineField "_id").2

/-- The segment after the dictionary pass (step 2 of the orchestrator). -/
def dictSegment (results : List AnalysisResult) : Segment :=
  baseSegment.initializeDict results

/-- The segment after assembling the first `k` documents of the batch. -/
def buildUpTo (results : List AnalysisResult) (k : Nat) : Segment :=
  (results.take k).foldl Segment.processDocument (dictSegment results)

/-- One build operation's effect on the field registry: well-formedness is
preserved and the inverse field-name list only grows by appends at the end. -/
def RegStep (s s2 : Segment) : Prop :=
  (RegOK s → RegOK s2) ∧ s.FieldsInv <+: s2.FieldsInv

/-- A concrete analyzed document used to exercise the build: one composite
field aggregating the body, one stored text field with locations. -/
def wdoc0 : AnalysisResult :=
  { document :=
      { compositeFields :=
          [{ name := "_all", analyzeLen := 3
             analyzeTf := [("cat", { frequency := 2, locations := [] }),
                           ("dog", { frequency := 1, locations := [] })] }]
        fields :=
          [{ name := "body", kind := .text, isStored := true, includeDocValues := true
             value := [99, 97, 116], arrayPositions := [] }] }
    analyzed :=
      [[("cat", { frequency := 2
                  locations := [{ field := "", start := 0, end_ := 3, position := 1
                                  arrayPositions := [] },
                                { field := "", start := 8, end_ := 11, position := 3
                                  arrayPositions := [] }] }),
        ("dog", { frequency := 1
                  locations := [{ field := "", start := 4, end_ := 7, position := 2
                                  arrayPositions := [5] }] })]]
    length := [3] }

/-- A second concrete analyzed document: a single unstored body field. -/
def wdoc1 : AnalysisResult :=
  { document :=
      { compositeFields := []
        fields :=
          [{ name := "body", kind := .text, isStored := false, includeDocValues := false
             value := [100], arrayPositions := [] }] }
    analyzed := [[("dog", { frequency := 1, locations := [] })]]
    length := [1] }

/-- Invariant of the dictionary pass: the builder state `s` and running
ordinal count `n` agree with the list `seen` of (field name, term) pairs
recorded so far in first-appearance order — every field's dictionary maps a
term to one plus the pair's global first-appearance index. -/
structure DictInv (s : Segment) (n : Nat) (seen : List (String × String)) : Prop where
  reg : RegOK s
  count : n = seen.length
  nodup : seen.Nodup
  names : ∀ p ∈ seen, p.1 ∈ s.FieldsInv
  dict : ∀ i, i < s.FieldsInv.length → ∀ term,
    lookupA (s.Dicts.getD i []) term =
      (idxOfA seen (s.FieldsInv.getD i "", term)).map (· + 1)

/-- The (field name, term) pair holding posting ordinal `pid + 1`. -/
def pairAt (results : List AnalysisResult) (pid : Nat) : String × String :=
  (pairScan results).getD pid ("", "")

/-- The field id of the field-name component of posting `pid`. -/
def fidAt (results : List AnalysisResult) (pid : Nat) : Nat :=
  lookupFid (dictSegment results).FieldsMap (pairAt results pid).1

/-- Document `d`'s collated contribution to posting `pid`, if any. -/
def contribAt (results : List AnalysisResult) (d : Nat) (pid : Nat) : Option TokenFreq :=
  docTermFreq (dictSegment results).FieldsMap (results.getD d emptyResult)
    (fidAt results pid) (pairAt results pid).2

/-- The location records document `d` contributes to posting `pid`. -/
def contribLocsAt (results : List AnalysisResult) (d : Nat) (pid : Nat) : List Location :=
  ((contribAt results d pid).getD { frequency := 0, locations := [] }).locations

/-- Reference contents of the membership bitmap of posting `pid` after `k`
documents: the contributing documents in increasing order. -/
def refDocs (results : List AnalysisResult) (k : Nat) (pid : Nat) : List Nat :=
  (List.range k).filter (fun d => (contribAt results d pid).isSome)

/-- Reference contents of the frequency sequence of posting `pid`. -/
def refFreqs (results : List AnalysisResult) (k : Nat) (pid : Nat) : List Nat :=
  (refDocs results k pid).map
    (fun d => ((contribAt results d pid).getD { frequency := 0, locations := [] }).frequency)

/-- Reference contents of the norm sequence of posting `pid`. -/
def refNorms (results : List AnalysisResult) (k : Nat) (pid : Nat) : List NormVal :=
  (refDocs results k pid).map
    (fun d => NormVal.mk (docFieldLen (dictSegment results).FieldsMap
      (results.getD d emptyResult) (fidAt results pid)))

/-- Reference contents of the location-membership bitmap of posting `pid`:
contributing documents whose contribution carries location records. -/
def refPostingsLocs (results : List AnalysisResult) (k : Nat) (pid : Nat) : List Nat :=
  (List.range k).filter
    (fun d => (contribAt results d pid).isSome && !(contribLocsAt results d pid).isEmpty)

/-- Reference length of the five location-parallel sequences of posting
`pid`: total location-record count over the contributing documents. -/
def refLocLen (results : List AnalysisResult) (k : Nat) (pid : Nat) : Nat :=
  ((refDocs results k pid).map (fun d => (contribLocsAt results d pid).length)).sum

/-- The flattened (field id, term) pairs of a collated document map, in walk
order. -/
def dmPairs (dm : List (Nat × TokenFrequencies)) : List (Nat × String) :=
  (dm.map (fun p => p.2.map (fun q => (p.1, q.1)))).flatten

/-- Master invariant of the assembly pass: after `k` documents the segment's
stored maps and all nine postings-parallel arrays agree with the reference
contents computed from the per-document collation, and the registry parts
fixed by the dictionary pass are untouched. -/
structure AInv (results : List AnalysisResult) (k : Nat) (s : Segment) : Prop where
  fmPre : (dictSegment results).FieldsMap <+: s.FieldsMap
  dicts : ∀ i, s.Dicts.getD i [] = (dictSegment results).Dicts.getD i []
  dictsLen : (dictSegment results).Dicts.length ≤ s.Dicts.length
  storedLen : s.Stored.length = k
  storedTLen : s.StoredTypes.length = k
  storedPLen : s.StoredPos.length = k
  stored : ∀ d, d < k → ∀ fid,
    (lookupA (s.Stored.getD d []) fid).getD [] =
      storedVals (dictSegment results).FieldsMap
        (results.getD d emptyResult).document.fields fid
  storedT : ∀ d, d < k → ∀ fid,
    (lookupA (s.StoredTypes.getD d []) fid).getD [] =
      storedTags (dictSegment results).FieldsMap
        (results.getD d emptyResult).document.fields fid
  storedP : ∀ d, d < k → ∀ fid,
    (lookupA (s.StoredPos.getD d []) fid).getD [] =
      storedPoss (dictSegment results).FieldsMap
        (results.getD d emptyResult).document.fields fid
  plen : s.Postings.length = (pairScan results).length
  pllen : s.PostingsLocs.length = (pairScan results).length
  flen : s.Freqs.length = (pairScan results).length
  nlen : s.Norms.length = (pairScan results).length
  lflen : s.Locfields.length = (pairScan results).length
  lslen : s.Locstarts.length = (pairScan results).length
  lelen : s.Locends.length = (pairScan results).length
  lplen : s.Locpos.length = (pairScan results).length
  laplen : s.Locarraypos.length = (pairScan results).length
  postings : ∀ pid, pid < (pairScan results).length →
    s.Postings.getD pid [] = refDocs results k pid
  freqs : ∀ pid, pid < (pairScan results).length →
    s.Freqs.getD pid [] = refFreqs results k pid
  norms : ∀ pid, pid < (pairScan results).length →
    s.Norms.getD pid [] = refNorms results k pid
  postingsLocs : ∀ pid, pid < (pairScan results).length →
    s.PostingsLocs.getD pid [] = refPostingsLocs results k pid
  locfields : ∀ pid, pid < (pairScan results).length →
    (s.Locfields.getD pid []).length = refLocLen results k pid
  locstarts : ∀ pid, pid < (pairScan results).length →
    (s.Locstarts.getD pid []).length = refLocLen results k pid
  locends : ∀ pid, pid < (pairScan results).length →
    (s.Locends.getD pid []).length = refLocLen results k pid
  locpos : ∀ pid, pid < (pairScan results).length →
    (s.Locpos.getD pid []).length = refLocLen results k pid
  locarraypos : ∀ pid, pid < (pairScan results).length →
    (s.Locarraypos.getD pid []).length = refLocLen results k pid

/-- State maintained across the posting-update walk: the dictionary contents
agree with the snapshot `D0` at every slot, and all nine postings-parallel
arrays keep length `P`. -/
structure WalkOK (D0 : List (List (String × Nat))) (P : Nat) (s : Segment) : Prop where
  dicts : ∀ i, s.Dicts.getD i [] = D0.getD i []
  dlen : D0.length ≤ s.Dicts.length
  plen : s.Postings.length = P
  pllen : s.PostingsLocs.length = P
  flen : s.Freqs.length = P
  nlen : s.Norms.length = P
  lf : s.Locfields.length = P
  ls : s.Locstarts.length = P
  le : s.Locends.length = P
  lp : s.Locpos.length = P
  lap : s.Locarraypos.length = P

/-- The field-registry effect of registering one name, as a pure function of
the (FieldsMap, FieldsInv) pair: exactly what `getOrDefineField` does to
those two structures.  The token-frequency maps are never consulted, which
is why field-id assignment depends only on the ordered field-name sequence
of the batch. -/
def regPairStep : List (String × Nat) × List String → String →
    List (String × Nat) × List String
  | (fm, fi), name =>
    match lookupA fm name with
    | some _ => (fm, fi)
    | none => (fm ++ [(name, fi.length + 1)], fi ++ [name])

/-- The document of the determinism counterexample: one regular field
"body" whose analysis carries the two fresh terms "a" and "b". -/
def cdoc : Document :=
  { compositeFields := []
    fields := [{ name := "body", kind := .text, isStored := false, includeDocValues := false
                 value := [], arrayPositions := [] }] }

/-- The counterexample batch under one iteration order of the body field's
token-frequency map: term "a" is walked before term "b". -/
def cdocA : AnalysisResult :=
  { document := cdoc
    analyzed := [[("a", { frequency := 1, locations := [] }),
                  ("b", { frequency := 1, locations := [] })]]
    length := [2] }

/-- The same batch under the other iteration order of the same map (same
key set, same value at every key): term "b" is walked before term "a". -/
def cdocB : AnalysisResult :=
  { document := cdoc
    analyzed := [[("b", { frequency := 1, locations := [] }),
                  ("a", { frequency := 1, locations := [] })]]
    length := [2] }

/-! ### Association-list and helper lemmas -/

theorem lookupA_append_some {α β : Type} [DecidableEq α] {l1 l2 : List (α × β)} {a : α} {v : β}
    (h : lookupA l1 a = some v) : lookupA (l1 ++ l2) a = some v := by
  induction l1 with
  | nil => simp [lookupA] at h
  | cons p rest ih =>
    obtain ⟨k, w⟩ := p
    simp only [lookupA, List.cons_append] at h ⊢
    split at h
    · simp [*] at h ⊢
    · simp only [*, if_neg]
      exact ih h

theorem lookupA_append_none {α β : Type} [DecidableEq α] {l1 : List (α × β)} (l2 : List (α × β))
    {a : α} (h : lookupA l1 a = none) : lookupA (l1 ++ l2) a = lookupA l2 a := by
  induction l1 with
  | nil => simp
  | cons p rest ih =>
    obtain ⟨k, w⟩ := p
    simp only [lookupA, List.cons_append] at h ⊢
    split at h
    · exact absurd h (by simp)
    · simp only [*, if_neg]
      exact ih h

theorem lookupA_eq_none_iff {α β : Type} [DecidableEq α] {m : List (α × β)} {a : α} :
    lookupA m a = none ↔ a ∉ m.map Prod.fst := by
  induction m with
  | nil => simp [lookupA]
  | cons p rest ih =>
    obtain ⟨k, w⟩ := p
    by_cases hk : k = a
    · subst hk
      simp [lookupA]
    · simp [lookupA, hk, ih, Ne.symm hk]

theorem mem_of_lookupA {α β : Type} [DecidableEq α] {m : List (α × β)} {a : α} {b : β}
    (h : lookupA m a = some b) : (a, b) ∈ m := by
  induction m with
  | nil => simp [lookupA] at h
  | cons p rest ih =>
    obtain ⟨k, w⟩ := p
    simp only [lookupA] at h
    split at h
    · rename_i hk
      injection h with h
      subst hk
      subst h
      exact List.mem_cons_self _ _
    · exact List.mem_cons_of_mem _ (ih h)

theorem lookupA_of_mem_nodup {α β : Type} [DecidableEq α] {m : List (α × β)} {a : α} {b : β}
    (hn : (m.map Prod.fst).Nodup) (h : (a, b) ∈ m) : lookupA m a = some b := by
  induction m with
  | nil => simp at h
  | cons p rest ih =>
    obtain ⟨k, w⟩ := p
    simp only [List.map_cons, List.nodup_cons] at hn
    rcases List.mem_cons.mp h with h | h
    · injection h with h1 h2
      subst h1
      subst h2
      simp [lookupA]
    · have hka : k ≠ a := by
        rintro rfl
        exact hn.1 (List.mem_map.mpr ⟨(k, b), h, rfl⟩)
      simp [lookupA, hka, ih hn.2 h]

theorem map_fst_updateA {α β : Type} [DecidableEq α] (m : List (α × β)) (a : α) (b : β) :
    (updateA m a b).map Prod.fst = m.map Prod.fst := by
  induction m with
  | nil => rfl
  | cons p rest ih =>
    obtain ⟨k, w⟩ := p
    by_cases hk : k = a <;> simp [updateA, hk, ih]

theorem lookupA_updateA_self {α β : Type} [DecidableEq α] {m : List (α × β)} {a : α} {e : β}
    (h : lookupA m a = some e) (b : β) : lookupA (updateA m a b) a = some b := by
  induction m with
  | nil => simp [lookupA] at h
  | cons p rest ih =>
    obtain ⟨k, w⟩ := p
    by_cases hk : k = a
    · simp [updateA, lookupA, hk]
    · simp only [lookupA, if_neg hk] at h
      simp [updateA, lookupA, hk, ih h]

theorem lookupA_updateA_ne {α β : Type} [DecidableEq α] (m : List (α × β)) {a x : α}
    (hx : x ≠ a) (b : β) : lookupA (updateA m a b) x = lookupA m x := by
  induction m with
  | nil => rfl
  | cons p rest ih =>
    obtain ⟨k, w⟩ := p
    by_cases hk : k = a
    · subst hk
      simp [updateA, lookupA, Ne.symm hx]
    · by_cases hkx : k = x <;> simp [updateA, lookupA, hk, hkx, hx, ih]

theorem lookupA_setA_self {α β : Type} [DecidableEq α] (m : List (α × β)) (a : α) (b : β) :
    lookupA (setA m a b) a = some b := by
  unfold setA
  cases h : lookupA m a with
  | some e => exact lookupA_updateA_self h b
  | none => rw [lookupA_append_none _ h]; simp [lookupA]

theorem lookupA_setA_ne {α β : Type} [DecidableEq α] (m : List (α × β)) {a x : α}
    (hx : x ≠ a) (b : β) : lookupA (setA m a b) x = lookupA m x := by
  unfold setA
  cases h : lookupA m a with
  | some e => exact lookupA_updateA_ne m hx b
  | none =>
    cases hxm : lookupA m x with
    | some v => exact lookupA_append_some hxm
    | none => rw [lookupA_append_none _ hxm]; simp [lookupA, Ne.symm hx]

theorem map_fst_setA_some {α β : Type} [DecidableEq α] {m : List (α × β)} {a : α} {e : β}
    (h : lookupA m a = some e) (b : β) : (setA m a b).map Prod.fst = m.map Prod.fst := by
  unfold setA
  rw [h]
  exact map_fst_updateA m a b

theorem map_fst_setA_none {α β : Type} [DecidableEq α] {m : List (α × β)} {a : α}
    (h : lookupA m a = none) (b : β) : (setA m a b).map Prod.fst = m.map Prod.fst ++ [a] := by
  unfold setA
  rw [h]
  simp

theorem nodup_keys_setA {α β : Type} [DecidableEq α] {m : List (α × β)} (a : α) (b : β)
    (hn : (m.map Prod.fst).Nodup) : ((setA m a b).map Prod.fst).Nodup := by
  cases h : lookupA m a with
  | some e => rw [map_fst_setA_some h]; exact hn
  | none =>
    rw [map_fst_setA_none h]
    exact List.Nodup.append hn (List.nodup_singleton a)
      (by simpa using fun hx => (lookupA_eq_none_iff.mp h) hx)

theorem length_modifyAt {β : Type} (l : List β) (i : Nat) (f : β → β) :
    (modifyAt l i f).length = l.length := by
  induction l generalizing i with
  | nil => rfl
  | cons x rest ih =>
    cases i with
    | zero => simp [modifyAt]
    | succ j => simp [modifyAt, ih]

theorem get?_modifyAt_self {β : Type} (l : List β) (i : Nat) (f : β → β) :
    (modifyAt l i f).get? i = (l.get? i).map f := by
  induction l generalizing i with
  | nil => simp [modifyAt]
  | cons x rest ih =>
    cases i with
    | zero => simp [modifyAt]
    | succ j => simpa [modifyAt] using ih j

theorem get?_modifyAt_ne {β : Type} (l : List β) {i j : Nat} (f : β → β) (h : j ≠ i) :
    (modifyAt l i f).get? j = l.get? j := by
  induction l generalizing i j with
  | nil => simp [modifyAt]
  | cons x rest ih =>
    cases i with
    | zero =>
      cases j with
      | zero => exact absurd rfl h
      | succ j2 => simp [modifyAt]
    | succ i2 =>
      cases j with
      | zero => simp [modifyAt]
      | succ j2 => simpa [modifyAt] using ih (fun hc => h (by simp [hc]))

theorem bmAdd_gt {b : List Nat} {d : Nat} (h : ∀ x ∈ b, x < d) : bmAdd b d = b ++ [d] := by
  induction b with
  | nil => rfl
  | cons x rest ih =>
    have hx : x < d := h x (List.mem_cons_self _ _)
    simp only [bmAdd, if_neg (by omega : ¬ d < x), if_neg (by omega : ¬ d = x), List.cons_append,
      List.cons.injEq, true_and]
    exact ih fun y hy => h y (List.mem_cons_of_mem _ hy)

theorem idxOfA_eq_none_iff {α : Type} [DecidableEq α] {l : List α} {a : α} :
    idxOfA l a = none ↔ a ∉ l := by
  induction l with
  | nil => simp [idxOfA]
  | cons x rest ih =>
    by_cases hx : x = a
    · subst hx
      simp [idxOfA]
    · simp [idxOfA, hx, ih, Ne.symm hx]

theorem idxOfA_append_some {α : Type} [DecidableEq α] {l : List α} {a : α} {k : Nat}
    (t : List α) (h : idxOfA l a = some k) : idxOfA (l ++ t) a = some k := by
  induction l generalizing k with
  | nil => simp [idxOfA] at h
  | cons x rest ih =>
    by_cases hx : x = a
    · simp only [idxOfA, if_pos hx] at h
      simp [idxOfA, hx, ← h]
    · simp only [idxOfA, if_neg hx] at h ⊢
      cases hrest : idxOfA rest a with
      | none => simp [hrest] at h
      | some j =>
        rw [hrest] at h
        simp [List.cons_append, ih hrest, ← h]

theorem idxOfA_append_none {α : Type} [DecidableEq α] {l : List α} {a : α}
    (t : List α) (h : idxOfA l a = none) :
    idxOfA (l ++ t) a = (idxOfA t a).map (· + l.length) := by
  induction l with
  | nil => simp
  | cons x rest ih =>
    by_cases hx : x = a
    · simp [idxOfA, hx] at h
    · simp only [idxOfA, if_neg hx] at h
      have hrest : idxOfA rest a = none := by
        cases hr : idxOfA rest a
        · rfl
        · simp [hr] at h
      rw [List.cons_append]
      simp only [idxOfA, if_neg hx, ih hrest, List.length_cons]
      cases idxOfA t a
      · simp
      · simp +arith

theorem idxOfA_lt_length {α : Type} [DecidableEq α] {l : List α} {a : α} {k : Nat}
    (h : idxOfA l a = some k) : k < l.length := by
  induction l generalizing k with
  | nil => simp [idxOfA] at h
  | cons x rest ih =>
    by_cases hx : x = a
    · simp only [idxOfA, if_pos hx] at h
      injection h with h
      subst h
      simp
    · simp only [idxOfA, if_neg hx] at h
      cases hrest : idxOfA rest a with
      | none => simp [hrest] at h
      | some j =>
        rw [hrest] at h
        injection h with h
        subst h
        simpa using ih hrest

theorem idxOfA_getD {α : Type} [DecidableEq α] {l : List α} {a : α} {k : Nat}
    (h : idxOfA l a = some k) (d : α) : l.getD k d = a := by
  induction l generalizing k with
  | nil => simp [idxOfA] at h
  | cons x rest ih =>
    by_cases hx : x = a
    · simp only [idxOfA, if_pos hx] at h
      injection h with h
      subst h
      simpa using hx
    · simp only [idxOfA, if_neg hx] at h
      cases hrest : idxOfA rest a with
      | none => simp [hrest] at h
      | some j =>
        rw [hrest] at h
        injection h with h
        subst h
        simpa using ih hrest

theorem idxOfA_append_self {α : Type} [DecidableEq α] {l : List α} {a : α}
    (h : a ∉ l) : idxOfA (l ++ [a]) a = some l.length := by
  rw [idxOfA_append_none _ (idxOfA_eq_none_iff.mpr h)]
  simp [idxOfA]

theorem idxOfA_get?_nodup {α : Type} [DecidableEq α] {l : List α} (hn : l.Nodup) {k : Nat}
    {a : α} (h : l.get? k = some a) : idxOfA l a = some k := by
  induction l generalizing k with
  | nil => simp at h
  | cons x rest ih =>
    simp only [List.nodup_cons] at hn
    cases k with
    | zero =>
      simp only [List.get?_cons_zero, Option.some.injEq] at h
      subst h
      simp [idxOfA]
    | succ j =>
      have hj : rest.get? j = some a := by simpa using h
      have hmem : a ∈ rest := List.get?_mem hj
      have hx : x ≠ a := fun hc => hn.1 (hc ▸ hmem)
      simp [idxOfA, hx, ih hn.2 hj]

theorem get?_of_front {α : Type} {l1 l2 : List α} (h : l1 <+: l2) {i : Nat}
    (hi : i < l1.length) : l2.get? i = l1.get? i := by
  obtain ⟨t, rfl⟩ := h
  rw [List.get?_eq_getElem?, List.get?_eq_getElem?, List.getElem?_append_left hi]

theorem regOf_append (l : List String) (x : String) (i : Nat) :
    regOf (l ++ [x]) i = regOf l i ++ [(x, l.length + i + 1)] := by
  induction l generalizing i with
  | nil => simp [regOf]
  | cons y rest ih => simp +arith [regOf, ih]

theorem lookupA_regOf (l : List String) (i : Nat) (name : String) :
    lookupA (regOf l i) name = (idxOfA l name).map (· + i + 1) := by
  induction l generalizing i with
  | nil => simp [regOf, idxOfA, lookupA]
  | cons y rest ih =>
    by_cases hy : y = name
    · simp [regOf, lookupA, idxOfA, hy]
    · simp only [regOf, lookupA, idxOfA, if_neg hy, ih]
      cases idxOfA rest name <;> simp +arith

theorem getOrDefineField_found {s : Segment} {name : String} {v : Nat}
    (h : lookupA s.FieldsMap name = some v) : s.getOrDefineField name = (v - 1, s) := by
  simp [Segment.getOrDefineField, h]

theorem getOrDefineField_new {s : Segment} {name : String}
    (h : lookupA s.FieldsMap name = none) :
    s.getOrDefineField name =
      (s.FieldsInv.length,
       { s with
         FieldsMap := s.FieldsMap ++ [(name, s.FieldsInv.length + 1)]
         FieldsInv := s.FieldsInv ++ [name]
         Dicts := s.Dicts ++ [[]]
         DictKeys := s.DictKeys ++ [([] : List String)] }) := by
  simp [Segment.getOrDefineField, h]

theorem getOrDefineField_Postings (s : Segment) (name : String) :
    (s.getOrDefineField name).2.Postings = s.Postings := by
  cases hl : lookupA s.FieldsMap name <;> simp [Segment.getOrDefineField, hl]

theorem getOrDefineField_PostingsLocs (s : Segment) (name : String) :
    (s.getOrDefineField name).2.PostingsLocs = s.PostingsLocs := by
  cases hl : lookupA s.FieldsMap name <;> simp [Segment.getOrDefineField, hl]

theorem getOrDefineField_Freqs (s : Segment) (name : String) :
    (s.getOrDefineField name).2.Freqs = s.Freqs := by
  cases hl : lookupA s.FieldsMap name <;> simp [Segment.getOrDefineField, hl]

theorem getOrDefineField_Norms (s : Segment) (name : String) :
    (s.getOrDefineField name).2.Norms = s.Norms := by
  cases hl : lookupA s.FieldsMap name <;> simp [Segment.getOrDefineField, hl]

theorem getOrDefineField_Locfields (s : Segment) (name : String) :
    (s.getOrDefineField name).2.Locfields = s.Locfields := by
  cases hl : lookupA s.FieldsMap name <;> simp [Segment.getOrDefineField, hl]

theorem getOrDefineField_Locstarts (s : Segment) (name : String) :
    (s.getOrDefineField name).2.Locstarts = s.Locstarts := by
  cases hl : lookupA s.FieldsMap name <;> simp [Segment.getOrDefineField, hl]

theorem getOrDefineField_Locends (s : Segment) (name : String) :
    (s.getOrDefineField name).2.Locends = s.Locends := by
  cases hl : lookupA s.FieldsMap name <;> simp [Segment.getOrDefineField, hl]

theorem getOrDefineField_Locpos (s : Segment) (name : String) :
    (s.getOrDefineField name).2.Locpos = s.Locpos := by
  cases hl : lookupA s.FieldsMap name <;> simp [Segment.getOrDefineField, hl]

theorem getOrDefineField_Locarraypos (s : Segment) (name : String) :
    (s.getOrDefineField name).2.Locarraypos = s.Locarraypos := by
  cases hl : lookupA s.FieldsMap name <;> simp [Segment.getOrDefineField, hl]

theorem getOrDefineField_Stored (s : Segment) (name : String) :
    (s.getOrDefineField name).2.Stored = s.Stored := by
  cases hl : lookupA s.FieldsMap name <;> simp [Segment.getOrDefineField, hl]

theorem getOrDefineField_StoredTypes (s : Segment) (name : String) :
    (s.getOrDefineField name).2.StoredTypes = s.StoredTypes := by
  cases hl : lookupA s.FieldsMap name <;> simp [Segment.getOrDefineField, hl]

theorem getOrDefineField_StoredPos (s : Segment) (name : String) :
    (s.getOrDefineField name).2.StoredPos = s.StoredPos := by
  cases hl : lookupA s.FieldsMap name <;> simp [Segment.getOrDefineField, hl]

theorem getOrDefineField_DocValueFields (s : Segment) (name : String) :
    (s.getOrDefineField name).2.DocValueFields = s.DocValueFields := by
  cases hl : lookupA s.FieldsMap name <;> simp [Segment.getOrDefineField, hl]

theorem getOrDefineField_FieldsMap_grows (s : Segment) (name : String) :
    s.FieldsMap <+: (s.getOrDefineField name).2.FieldsMap := by
  cases hl : lookupA s.FieldsMap name <;> simp [Segment.getOrDefineField, hl]

theorem getOrDefineField_FieldsInv_grows (s : Segment) (name : String) :
    s.FieldsInv <+: (s.getOrDefineField name).2.FieldsInv := by
  cases hl : lookupA s.FieldsMap name <;> simp [Segment.getOrDefineField, hl]

theorem getOrDefineField_Dicts_grows (s : Segment) (name : String) :
    s.Dicts <+: (s.getOrDefineField name).2.Dicts := by
  cases hl : lookupA s.FieldsMap name <;> simp [Segment.getOrDefineField, hl]

theorem getOrDefineField_DictKeys_grows (s : Segment) (name : String) :
    s.DictKeys <+: (s.getOrDefineField name).2.DictKeys := by
  cases hl : lookupA s.FieldsMap name <;> simp [Segment.getOrDefineField, hl]

theorem getOrDefineField_regOK {s : Segment} (h : RegOK s) (name : String) :
    RegOK (s.getOrDefineField name).2 := by
  cases hl : lookupA s.FieldsMap name with
  | some v => rw [getOrDefineField_found hl]; exact h
  | none =>
    rw [getOrDefineField_new hl]
    have hmem : name ∉ s.FieldsInv := by
      rw [h.map_eq, lookupA_regOf] at hl
      intro hc
      cases hi : idxOfA s.FieldsInv name with
      | none => exact idxOfA_eq_none_iff.mp hi hc
      | some k => rw [hi] at hl; simp at hl
    exact { nodup := by simp [List.nodup_append, h.nodup, hmem]
            map_eq := by simp only [h.map_eq, regOf_append]
            dicts_len := by simp [h.dicts_len]
            keys_len := by simp [h.keys_len] }

theorem getOrDefineField_idx {s : Segment} (h : RegOK s) (name : String) :
    idxOfA (s.getOrDefineField name).2.FieldsInv name = some (s.getOrDefineField name).1 := by
  cases hl : lookupA s.FieldsMap name with
  | some v =>
    rw [getOrDefineField_found hl]
    rw [h.map_eq, lookupA_regOf] at hl
    cases hi : idxOfA s.FieldsInv name with
    | none => simp [hi] at hl
    | some k =>
      rw [hi] at hl
      simp at hl
      simp only [hi, Option.some.injEq]
      omega
  | none =>
    rw [getOrDefineField_new hl]
    have hmem : name ∉ s.FieldsInv := by
      intro hc
      rw [h.map_eq, lookupA_regOf] at hl
      cases hi : idxOfA s.FieldsInv name with
      | none => exact idxOfA_eq_none_iff.mp hi hc
      | some k => simp [hi] at hl
    exact idxOfA_append_self hmem

theorem RegStep.refl (s : Segment) : RegStep s s := ⟨id, List.prefix_refl _⟩

theorem RegStep.trans {s1 s2 s3 : Segment} (h1 : RegStep s1 s2) (h2 : RegStep s2 s3) :
    RegStep s1 s3 := ⟨fun h => h2.1 (h1.1 h), h1.2.trans h2.2⟩

theorem lt_length_of_get? {α : Type} {l : List α} {n : Nat} {a : α}
    (h : l.get? n = some a) : n < l.length := by
  by_contra hc
  rw [List.get?_eq_none.mpr (by omega)] at h
  exact absurd h (by simp)

theorem regStep_getOrDefineField (s : Segment) (name : String) :
    RegStep s (s.getOrDefineField name).2 :=
  ⟨fun h => getOrDefineField_regOK h name, getOrDefineField_FieldsInv_grows s name⟩

theorem regStep_dictAddTerm (s : Segment) (n fieldID : Nat) (term : String) :
    RegStep s (dictAddTerm s n fieldID term).2 := by
  unfold dictAddTerm
  cases lookupA (s.Dicts.getD fieldID []) term with
  | some v => exact RegStep.refl s
  | none =>
    refine ⟨fun h => ?_, List.prefix_refl _⟩
    exact { nodup := h.nodup
            map_eq := h.map_eq
            dicts_len := by simpa [length_modifyAt] using h.dicts_len
            keys_len := by simpa [length_modifyAt] using h.keys_len }

theorem regStep_dictProcessField (s : Segment) (n fieldID : Nat) (tf : TokenFrequencies) :
    RegStep s (dictProcessField s n fieldID tf).2 := by
  induction tf generalizing s n with
  | nil => exact RegStep.refl s
  | cons p rest ih =>
    obtain ⟨term, q⟩ := p
    exact (regStep_dictAddTerm s n fieldID term).trans (ih _ _)

theorem regStep_dictComposites (s : Segment) (n : Nat) (fs : List CompositeField) :
    RegStep s (dictComposites s n fs).2 := by
  induction fs generalizing s n with
  | nil => exact RegStep.refl s
  | cons f rest ih =>
    exact ((regStep_getOrDefineField s f.name).trans
      (regStep_dictProcessField _ _ _ _)).trans (ih _ _)

theorem regStep_dictRegulars (s : Segment) (n : Nat) (fs : List RegularField)
    (tfs : List TokenFrequencies) : RegStep s (dictRegulars s n fs tfs).2 := by
  induction fs generalizing s n tfs with
  | nil => exact RegStep.refl s
  | cons f rest ih =>
    exact ((regStep_getOrDefineField s f.name).trans
      (regStep_dictProcessField _ _ _ _)).trans (ih _ _ _)

theorem regStep_dictResults (s : Segment) (n : Nat) (results : List AnalysisResult) :
    RegStep s (dictResults s n results).2 := by
  induction results generalizing s n with
  | nil => exact RegStep.refl s
  | cons r rest ih =>
    exact ((regStep_dictComposites s n _).trans (regStep_dictRegulars _ _ _ _)).trans (ih _ _)

theorem regStep_initializeDict (s : Segment) (results : List AnalysisResult) :
    RegStep s (s.initializeDict results) := by
  have h := regStep_dictResults s 0 results
  refine ⟨fun hok => ?_, h.2⟩
  have hok2 := h.1 hok
  exact { nodup := hok2.nodup
          map_eq := hok2.map_eq
          dicts_len := hok2.dicts_len
          keys_len := hok2.keys_len }

theorem regStep_storeField (s : Segment) (docNum field typ : Nat) (val pos : List Nat) :
    RegStep s (s.storeField docNum field typ val pos) := by
  refine ⟨fun h => ?_, List.prefix_refl _⟩
  exact { nodup := h.nodup, map_eq := h.map_eq, dicts_len := h.dicts_len, keys_len := h.keys_len }

theorem regStep_addDocument (s : Segment) : RegStep s s.addDocument.2 := by
  refine ⟨fun h => ?_, List.prefix_refl _⟩
  exact { nodup := h.nodup, map_eq := h.map_eq, dicts_len := h.dicts_len, keys_len := h.keys_len }

theorem seg_docProcessField (st : DocState) (field l : Nat) (tf : TokenFrequencies) :
    (docProcessField st field l tf).seg = st.seg := rfl

theorem regStep_docValue (s : Segment) (l : List Nat) :
    RegStep s { s with DocValueFields := l } := by
  refine ⟨fun h => ?_, List.prefix_refl _⟩
  exact { nodup := h.nodup, map_eq := h.map_eq, dicts_len := h.dicts_len, keys_len := h.keys_len }

theorem regStep_docComposites (st : DocState) (fs : List CompositeField) :
    RegStep st.seg (docComposites st fs).seg := by
  induction fs generalizing st with
  | nil => exact RegStep.refl _
  | cons f rest ih =>
    refine (regStep_getOrDefineField st.seg f.name).trans ?_
    exact ih (docProcessField { st with seg := (st.seg.getOrDefineField f.name).2 }
      (st.seg.getOrDefineField f.name).1 f.analyzeLen f.analyzeTf)

theorem regStep_docRegulars (st : DocState) (docNum : Nat) (fs : List RegularField)
    (lens : List Nat) (tfs : List TokenFrequencies) :
    RegStep st.seg (docRegulars st docNum fs lens tfs).seg := by
  induction fs generalizing st lens tfs with
  | nil => exact RegStep.refl _
  | cons f rest ih =>
    by_cases h1 : f.isStored <;> by_cases h2 : f.includeDocValues <;>
      simp only [docRegulars, if_pos, if_neg, h1, h2, ite_true, ite_false] <;>
      refine RegStep.trans ?_ (ih _ _ _)
    · exact ((regStep_getOrDefineField st.seg f.name).trans
        (regStep_storeField _ _ _ _ _ _)).trans (regStep_docValue _ _)
    · exact (regStep_getOrDefineField st.seg f.name).trans (regStep_storeField _ _ _ _ _ _)
    · exact (regStep_getOrDefineField st.seg f.name).trans (regStep_docValue _ _)
    · exact regStep_getOrDefineField st.seg f.name

theorem regStep_locAppend (s : Segment) (pid locf : Nat) (loc : Location) :
    RegStep s (locAppend s pid locf loc) := by
  refine ⟨fun h => ?_, List.prefix_refl _⟩
  exact { nodup := h.nodup, map_eq := h.map_eq, dicts_len := h.dicts_len,
          keys_len := h.keys_len }

theorem regStep_applyLocation (s : Segment) (fieldID pid : Nat) (loc : Location) :
    RegStep s (applyLocation s fieldID pid loc) := by
  unfold applyLocation
  split
  · exact (regStep_getOrDefineField s loc.field).trans (regStep_locAppend _ _ _ _)
  · exact regStep_locAppend _ _ _ _

theorem regStep_applyLocations (s : Segment) (fieldID pid : Nat) (locs : List Location) :
    RegStep s (applyLocations s fieldID pid locs) := by
  induction locs generalizing s with
  | nil => exact RegStep.refl _
  | cons loc rest ih => exact (regStep_applyLocation s fieldID pid loc).trans (ih _)

theorem regStep_applyTokenFreq (s : Segment) (docNum fieldID fieldLen : Nat)
    (tokenFreq : TokenFreq) (term : String) :
    RegStep s (applyTokenFreq s docNum fieldID fieldLen tokenFreq term) := by
  unfold applyTokenFreq
  have hbase : ∀ s2 : Segment, RegStep s2
      { s2 with
        Postings := modifyAt s2.Postings ((lookupA (s2.Dicts.getD fieldID []) term).getD 0 - 1)
          (fun b => bmAdd b docNum)
        Freqs := modifyAt s2.Freqs ((lookupA (s2.Dicts.getD fieldID []) term).getD 0 - 1)
          (fun l => l ++ [tokenFreq.frequency])
        Norms := modifyAt s2.Norms ((lookupA (s2.Dicts.getD fieldID []) term).getD 0 - 1)
          (fun l => l ++ [NormVal.mk fieldLen]) } := by
    intro s2
    refine ⟨fun h => ?_, List.prefix_refl _⟩
    exact { nodup := h.nodup, map_eq := h.map_eq, dicts_len := h.dicts_len,
            keys_len := h.keys_len }
  split
  · exact hbase s
  · refine (hbase s).trans ?_
    refine RegStep.trans ?_ (regStep_applyLocations _ _ _ _)
    refine ⟨fun h => ?_, List.prefix_refl _⟩
    exact { nodup := h.nodup, map_eq := h.map_eq, dicts_len := h.dicts_len,
            keys_len := h.keys_len }

theorem regStep_applyTerms (s : Segment) (docNum fieldID fieldLen : Nat) (tf : TokenFrequencies) :
    RegStep s (applyTerms s docNum fieldID fieldLen tf) := by
  induction tf generalizing s with
  | nil => exact RegStep.refl _
  | cons p rest ih =>
    obtain ⟨term, q⟩ := p
    exact (regStep_applyTokenFreq s docNum fieldID fieldLen q term).trans (ih _)

theorem regStep_applyDocMap (s : Segment) (docNum : Nat) (dm : List (Nat × TokenFrequencies))
    (fieldLens : List (Nat × Nat)) : RegStep s (applyDocMap s docNum dm fieldLens) := by
  induction dm generalizing s with
  | nil => exact RegStep.refl _
  | cons p rest ih =>
    obtain ⟨fieldID, tf⟩ := p
    exact (regStep_applyTerms s docNum fieldID _ tf).trans (ih _)

theorem regStep_processDocument (s : Segment) (result : AnalysisResult) :
    RegStep s (s.processDocument result) := by
  unfold Segment.processDocument
  refine (regStep_addDocument s).trans ?_
  refine RegStep.trans ?_ (regStep_applyDocMap _ _ _ _)
  exact (regStep_docComposites { seg := s.addDocument.2, docMap := [], fieldLens := [] }
    result.document.compositeFields).trans (regStep_docRegulars _ _ _ _ _)

theorem regStep_sortDictKeys (s : Segment) : RegStep s s.sortDictKeys := by
  refine ⟨fun h => ?_, List.prefix_refl _⟩
  exact { nodup := h.nodup, map_eq := h.map_eq, dicts_len := h.dicts_len,
          keys_len := by simpa [Segment.sortDictKeys] using h.keys_len }

theorem regStep_updateSizeInBytes (s : Segment) : RegStep s s.updateSizeInBytes :=
  RegStep.refl s

theorem regOK_base : RegOK baseSegment := by
  refine { nodup := ?_, map_eq := ?_, dicts_len := ?_, keys_len := ?_ } <;> decide

theorem reachable_invariant {s : Segment} (h : Reachable s) :
    RegOK s ∧ s.FieldsInv.get? 0 = some "_id" := by
  induction h with
  | base => exact ⟨regOK_base, by decide⟩
  | @defineField s2 name _ ih =>
    have hstep := regStep_getOrDefineField s2 name
    exact ⟨hstep.1 ih.1, by rw [get?_of_front hstep.2 (lt_length_of_get? ih.2)]; exact ih.2⟩
  | @initDict s2 results _ ih =>
    have hstep := regStep_initializeDict s2 results
    exact ⟨hstep.1 ih.1, by rw [get?_of_front hstep.2 (lt_length_of_get? ih.2)]; exact ih.2⟩
  | @processDoc s2 result _ ih =>
    have hstep := regStep_processDocument s2 result
    exact ⟨hstep.1 ih.1, by rw [get?_of_front hstep.2 (lt_length_of_get? ih.2)]; exact ih.2⟩
  | @sortKeys s2 _ ih =>
    have hstep := regStep_sortDictKeys s2
    exact ⟨hstep.1 ih.1, by rw [get?_of_front hstep.2 (lt_length_of_get? ih.2)]; exact ih.2⟩
  | sizeUpdate _ ih => exact ih

theorem length_regOf (l : List String) (i : Nat) : (regOf l i).length = l.length := by
  induction l generalizing i with
  | nil => rfl
  | cons x rest ih => simp [regOf, ih]

theorem get?_of_idxOfA {α : Type} [DecidableEq α] {l : List α} {a : α} {k : Nat}
    (h : idxOfA l a = some k) : l.get? k = some a := by
  have hlt := idxOfA_lt_length h
  have hg := idxOfA_getD h a
  rw [List.getD_eq_getElem l a hlt] at hg
  rw [List.get?_eq_getElem?, List.getElem?_eq_getElem hlt]
  exact congrArg some hg

/-- **C4** (field registry invariant).  After registering the identity field
and after every subsequent build operation: the name "_id" resolves to
external field id 0 (its `FieldsMap` entry is the internal value 1 and it
heads the inverse list); the four parallel registry structures have equal
size; and external field id `k` (internal value `k + 1`) is held by exactly
the `k`-th distinct field name encountered, in first-sight order. -/
theorem C4_field_registry_invariant {s : Segment} (h : Reachable s) :
    (lookupA s.FieldsMap "_id" = some 1 ∧ (s.getOrDefineField "_id").1 = 0 ∧
      s.FieldsInv.get? 0 = some "_id") ∧
    (s.FieldsMap.length = s.FieldsInv.length ∧ s.Dicts.length = s.FieldsInv.length ∧
      s.DictKeys.length = s.FieldsInv.length) ∧
    (s.FieldsInv.Nodup ∧
      ∀ k name, lookupA s.FieldsMap name = some (k + 1) ↔ s.FieldsInv.get? k = some name) := by
  obtain ⟨hok, hid⟩ := reachable_invariant h
  have hidx : idxOfA s.FieldsInv "_id" = some 0 := idxOfA_get?_nodup hok.nodup hid
  have hlook : lookupA s.FieldsMap "_id" = some 1 := by
    rw [hok.map_eq, lookupA_regOf, hidx]
    rfl
  refine ⟨⟨hlook, ?_, hid⟩, ⟨by rw [hok.map_eq, length_regOf], hok.dicts_len, hok.keys_len⟩,
    hok.nodup, fun k name => ?_⟩
  · rw [getOrDefineField_found hlook]
  · constructor
    · intro hk
      rw [hok.map_eq, lookupA_regOf] at hk
      cases hi : idxOfA s.FieldsInv name with
      | none => rw [hi] at hk; exact absurd hk (by simp)
      | some j =>
        rw [hi] at hk
        simp only [Option.map, Option.some.injEq] at hk
        have : j = k := by omega
        subst this
        exact get?_of_idxOfA hi
    · intro hk
      rw [hok.map_eq, lookupA_regOf, idxOfA_get?_nodup hok.nodup hk]
      rfl

theorem C4_field_registry_invariant_witness :
    (lookupA ((dictSegment [wdoc0, wdoc1]).processDocument wdoc0).FieldsMap "_id" = some 1 ∧
      (((dictSegment [wdoc0, wdoc1]).processDocument wdoc0).getOrDefineField "_id").1 = 0 ∧
      ((dictSegment [wdoc0, wdoc1]).processDocument wdoc0).FieldsInv.get? 0 = some "_id") ∧
    (((dictSegment [wdoc0, wdoc1]).processDocument wdoc0).FieldsMap.length =
        ((dictSegment [wdoc0, wdoc1]).processDocument wdoc0).FieldsInv.length ∧
      ((dictSegment [wdoc0, wdoc1]).processDocument wdoc0).Dicts.length =
        ((dictSegment [wdoc0, wdoc1]).processDocument wdoc0).FieldsInv.length ∧
      ((dictSegment [wdoc0, wdoc1]).processDocument wdoc0).DictKeys.length =
        ((dictSegment [wdoc0, wdoc1]).processDocument wdoc0).FieldsInv.length) ∧
    (((dictSegment [wdoc0, wdoc1]).processDocument wdoc0).FieldsInv.Nodup ∧
      ∀ k name,
        lookupA ((dictSegment [wdoc0, wdoc1]).processDocument wdoc0).FieldsMap name = some (k + 1) ↔
          ((dictSegment [wdoc0, wdoc1]).processDocument wdoc0).FieldsInv.get? k = some name) :=
  C4_field_registry_invariant
    (Reachable.processDoc wdoc0 (Reachable.initDict [wdoc0, wdoc1] Reachable.base))

/-- **C9** (term list ordering).  After `NewFromAnalyzedDocs` returns, every
field's enumerable term list is sorted lexicographically; applying the sort
step again to the built segment leaves every term list unchanged; and the
sort step never changes any posting ordinal in any field's dictionary. -/
theorem C9_term_list_ordering (results : List AnalysisResult) :
    (∀ dict ∈ (NewFromAnalyzedDocs results).DictKeys, List.Sorted (· ≤ ·) dict) ∧
    (NewFromAnalyzedDocs results).sortDictKeys.DictKeys = (NewFromAnalyzedDocs results).DictKeys ∧
    (∀ s : Segment, s.sortDictKeys.Dicts = s.Dicts) := by
  have hkeys : (NewFromAnalyzedDocs results).DictKeys =
      ((results.foldl Segment.processDocument
        (baseSegment.initializeDict results)).DictKeys).map (List.insertionSort (· ≤ ·)) := rfl
  refine ⟨?_, ?_, fun s => rfl⟩
  · intro dict hdict
    rw [hkeys] at hdict
    obtain ⟨l, _, rfl⟩ := List.mem_map.mp hdict
    exact List.sorted_insertionSort (· ≤ ·) l
  · show ((NewFromAnalyzedDocs results).DictKeys).map (List.insertionSort (· ≤ ·)) =
      (NewFromAnalyzedDocs results).DictKeys
    rw [hkeys, List.map_map]
    refine List.map_congr_left fun l _ => ?_
    exact (List.sorted_insertionSort (· ≤ ·) l).insertionSort_eq

theorem mem_of_idxOfA {α : Type} [DecidableEq α] {l : List α} {a : α} {k : Nat}
    (h : idxOfA l a = some k) : a ∈ l :=
  List.get?_mem (get?_of_idxOfA h)

theorem get?_eq_some_getD {β : Type} :
    ∀ (l : List β) (i : Nat), i < l.length → ∀ d : β, l.get? i = some (l.getD i d)
  | [], i, hi, d => by simp at hi
  | x :: rest, 0, _, d => rfl
  | x :: rest, i + 1, hi, d => by
    simpa using get?_eq_some_getD rest i (by simpa using hi) d

theorem getD_mem {β : Type} {l : List β} {i : Nat} (hi : i < l.length) (d : β) :
    l.getD i d ∈ l :=
  List.get?_mem (get?_eq_some_getD l i hi d)

theorem getD_inj_nodup {β : Type} {l : List β} (hn : l.Nodup) {i j : Nat} (hi : i < l.length)
    (hj : j < l.length) {d : β} (h : l.getD i d = l.getD j d) : i = j := by
  apply List.getElem?_inj hi hn
  rw [← List.get?_eq_getElem?, ← List.get?_eq_getElem?, get?_eq_some_getD l i hi d,
    get?_eq_some_getD l j hj d, h]

theorem getD_modifyAt_self {β : Type} :
    ∀ (l : List β) (i : Nat), i < l.length → ∀ (f : β → β) (d : β),
      (modifyAt l i f).getD i d = f (l.getD i d)
  | [], i, hi, _, _ => by simp at hi
  | x :: rest, 0, _, f, d => rfl
  | x :: rest, i + 1, hi, f, d => by
    simpa [modifyAt] using getD_modifyAt_self rest i (by simpa using hi) f d

theorem getD_modifyAt_ne {β : Type} (l : List β) {i j : Nat} (h : j ≠ i) (f : β → β) (d : β) :
    (modifyAt l i f).getD j d = l.getD j d := by
  induction l generalizing i j with
  | nil => simp [modifyAt]
  | cons x rest ih =>
    cases i with
    | zero =>
      cases j with
      | zero => exact absurd rfl h
      | succ j2 => simp [modifyAt]
    | succ i2 =>
      cases j with
      | zero => simp [modifyAt]
      | succ j2 =>
        simpa [modifyAt] using ih (i := i2) (j := j2) (fun hc => h (by simp [hc]))

theorem getD_append_lt {β : Type} :
    ∀ (l t : List β) (i : Nat), i < l.length → ∀ d : β, (l ++ t).getD i d = l.getD i d
  | [], _, i, hi, _ => by simp at hi
  | x :: rest, t, 0, _, d => rfl
  | x :: rest, t, i + 1, hi, d => by
    simpa using getD_append_lt rest t i (by simpa using hi) d

theorem getD_append_len {β : Type} :
    ∀ (l : List β) (x : β) (t : List β) (d : β), (l ++ x :: t).getD l.length d = x
  | [], x, t, d => rfl
  | y :: rest, x, t, d => by simpa using getD_append_len rest x t d

theorem nodup_concat {α : Type} {l : List α} {a : α} (h : l.Nodup) (ha : a ∉ l) :
    (l ++ [a]).Nodup := by
  simp [List.nodup_append, h, ha]

theorem dictAddTerm_frame (s : Segment) (n i : Nat) (term : String) :
    (dictAddTerm s n i term).2.FieldsInv = s.FieldsInv ∧
    (dictAddTerm s n i term).2.FieldsMap = s.FieldsMap ∧
    (dictAddTerm s n i term).2.Stored = s.Stored ∧
    (dictAddTerm s n i term).2.StoredTypes = s.StoredTypes ∧
    (dictAddTerm s n i term).2.StoredPos = s.StoredPos := by
  unfold dictAddTerm
  cases lookupA (s.Dicts.getD i []) term <;> simp

theorem dictAddTerm_inv {s : Segment} {n : Nat} {seen : List (String × String)}
    (h : DictInv s n seen) {i : Nat} (hi : i < s.FieldsInv.length) (term : String) :
    DictInv (dictAddTerm s n i term).2 (dictAddTerm s n i term).1
      (scan1 seen (s.FieldsInv.getD i "") term) := by
  have hdl : i < s.Dicts.length := by rw [h.reg.dicts_len]; exact hi
  have hdict := h.dict i hi term
  cases hlook : lookupA (s.Dicts.getD i []) term with
  | some v =>
    rw [hlook] at hdict
    have hmem : (s.FieldsInv.getD i "", term) ∈ seen := by
      cases hidx : idxOfA seen (s.FieldsInv.getD i "", term) with
      | none => rw [hidx] at hdict; exact absurd hdict.symm (by simp)
      | some k => exact mem_of_idxOfA hidx
    unfold dictAddTerm
    rw [hlook]
    unfold scan1
    rw [if_pos hmem]
    exact h
  | none =>
    rw [hlook] at hdict
    have hseen_none : idxOfA seen (s.FieldsInv.getD i "", term) = none := by
      cases hidx : idxOfA seen (s.FieldsInv.getD i "", term) with
      | none => rfl
      | some k => rw [hidx] at hdict; exact absurd hdict.symm (by simp)
    have hnmem : (s.FieldsInv.getD i "", term) ∉ seen := idxOfA_eq_none_iff.mp hseen_none
    unfold dictAddTerm
    rw [hlook]
    simp only [scan1, if_neg hnmem]
    refine { reg := ?_, count := ?_, nodup := ?_, names := ?_, dict := ?_ }
    · exact { nodup := h.reg.nodup, map_eq := h.reg.map_eq,
              dicts_len := by simpa [length_modifyAt] using h.reg.dicts_len,
              keys_len := by simpa [length_modifyAt] using h.reg.keys_len }
    · simp [h.count]
    · exact nodup_concat h.nodup hnmem
    · intro p hp
      rcases List.mem_append.mp hp with hp | hp
      · exact h.names p hp
      · have hp2 : p = (s.FieldsInv.getD i "", term) := by simpa using hp
        subst hp2
        exact getD_mem hi ""
    · intro j hj t
      have hj2 : j < s.FieldsInv.length := hj
      by_cases hij : j = i
      · subst hij
        show lookupA ((modifyAt s.Dicts j fun d => d ++ [(term, n + 1)]).getD j []) t = _
        rw [getD_modifyAt_self _ _ hdl]
        cases holdt : lookupA (s.Dicts.getD j []) t with
        | some w =>
          rw [lookupA_append_some holdt]
          have hd := h.dict j hj2 t
          rw [holdt] at hd
          cases hidx : idxOfA seen (s.FieldsInv.getD j "", t) with
          | none => rw [hidx] at hd; exact absurd hd (by simp)
          | some k => rw [idxOfA_append_some _ hidx, ← hidx, ← hd]
        | none =>
          rw [lookupA_append_none _ holdt]
          by_cases hterm : term = t
          · subst hterm
            rw [idxOfA_append_none _ hseen_none]
            simp [lookupA, idxOfA, h.count]
          · have hd := h.dict j hj2 t
            rw [holdt] at hd
            have hidx_old : idxOfA seen (s.FieldsInv.getD j "", t) = none := by
              cases hidx : idxOfA seen (s.FieldsInv.getD j "", t) with
              | none => rfl
              | some k => rw [hidx] at hd; exact absurd hd (by simp)
            rw [idxOfA_append_none _ hidx_old]
            simp [lookupA, idxOfA, hterm, Prod.ext_iff]
      · show lookupA ((modifyAt s.Dicts i fun d => d ++ [(term, n + 1)]).getD j []) t = _
        rw [getD_modifyAt_ne _ hij]
        have hname_ne : s.FieldsInv.getD j "" ≠ s.FieldsInv.getD i "" := by
          intro hc
          exact hij (getD_inj_nodup h.reg.nodup hj2 hi hc)
        have hd := h.dict j hj2 t
        cases hidx : idxOfA seen (s.FieldsInv.getD j "", t) with
        | none =>
          rw [hidx] at hd
          rw [hd, idxOfA_append_none _ hidx]
          have hn : idxOfA [(s.FieldsInv.getD i "", term)] (s.FieldsInv.getD j "", t) = none := by
            rw [idxOfA_eq_none_iff]
            intro hc
            rw [List.mem_singleton] at hc
            exact hname_ne (congrArg Prod.fst hc)
          rw [hn]
          simp
        | some k =>
          rw [hidx] at hd
          rw [hd, idxOfA_append_some _ hidx]

theorem dictProcessField_inv {s : Segment} {n : Nat} {seen : List (String × String)}
    (h : DictInv s n seen) {i : Nat} (hi : i < s.FieldsInv.length) (tf : TokenFrequencies) :
    DictInv (dictProcessField s n i tf).2 (dictProcessField s n i tf).1
      (scanTerms seen (s.FieldsInv.getD i "") tf) ∧
    (dictProcessField s n i tf).2.FieldsInv = s.FieldsInv := by
  induction tf generalizing s n seen with
  | nil => exact ⟨h, rfl⟩
  | cons p rest ih =>
    obtain ⟨term, q⟩ := p
    have hstep := dictAddTerm_inv h hi term
    have hframe := (dictAddTerm_frame s n i term).1
    have hi2 : i < (dictAddTerm s n i term).2.FieldsInv.length := by rw [hframe]; exact hi
    have hrec := ih hstep hi2
    rw [hframe] at hrec
    simp only [dictProcessField, scanTerms]
    exact ⟨hrec.1, hrec.2⟩

theorem getOrDefineField_dictInv {s : Segment} {n : Nat} {seen : List (String × String)}
    (h : DictInv s n seen) (name : String) :
    DictInv (s.getOrDefineField name).2 n seen ∧
    (s.getOrDefineField name).1 < (s.getOrDefineField name).2.FieldsInv.length ∧
    (s.getOrDefineField name).2.FieldsInv.getD (s.getOrDefineField name).1 "" = name := by
  have hidx := getOrDefineField_idx h.reg name
  have hreg := getOrDefineField_regOK h.reg name
  refine ⟨?_, idxOfA_lt_length hidx, idxOfA_getD hidx ""⟩
  cases hl : lookupA s.FieldsMap name with
  | some v =>
    rw [getOrDefineField_found hl]
    exact h
  | none =>
    rw [getOrDefineField_new hl] at hreg ⊢
    have hnotin : name ∉ s.FieldsInv := by
      rw [h.reg.map_eq, lookupA_regOf] at hl
      cases hidx2 : idxOfA s.FieldsInv name with
      | none => exact idxOfA_eq_none_iff.mp hidx2
      | some k => rw [hidx2] at hl; exact absurd hl (by simp)
    refine { reg := hreg, count := h.count, nodup := h.nodup, names := ?_, dict := ?_ }
    · intro p hp
      exact List.mem_append_left _ (h.names p hp)
    · intro j hj t
      dsimp only at hj ⊢
      by_cases hj2 : j < s.FieldsInv.length
      · have hd1 : (s.Dicts ++ [[]]).getD j [] = s.Dicts.getD j [] :=
          getD_append_lt _ _ _ (by rw [h.reg.dicts_len]; exact hj2) _
        have hf1 : (s.FieldsInv ++ [name]).getD j "" = s.FieldsInv.getD j "" :=
          getD_append_lt _ _ _ hj2 _
        rw [hd1, hf1]
        exact h.dict j hj2 t
      · have hj3 : j = s.FieldsInv.length := by
          have : j < s.FieldsInv.length + 1 := by simpa using hj
          omega
        subst hj3
        have hd1 : (s.Dicts ++ [[]]).getD s.FieldsInv.length [] = ([] : List (String × Nat)) := by
          rw [← h.reg.dicts_len]
          exact getD_append_len _ _ _ _
        have hf1 : (s.FieldsInv ++ [name]).getD s.FieldsInv.length "" = name :=
          getD_append_len _ _ _ _
        rw [hd1, hf1]
        have hnone : idxOfA seen (name, t) = none := by
          rw [idxOfA_eq_none_iff]
          intro hc
          exact hnotin (h.names _ hc)
        rw [hnone]
        simp [lookupA]

theorem dictComposites_inv {s : Segment} {n : Nat} {seen : List (String × String)}
    (h : DictInv s n seen) (fs : List CompositeField) :
    DictInv (dictComposites s n fs).2 (dictComposites s n fs).1 (scanComposites seen fs) := by
  induction fs generalizing s n seen with
  | nil => exact h
  | cons f rest ih =>
    obtain ⟨hgdf, hlt, hname⟩ := getOrDefineField_dictInv h f.name
    have hpf := dictProcessField_inv hgdf hlt f.analyzeTf
    rw [hname] at hpf
    simp only [dictComposites, scanComposites]
    exact ih hpf.1

theorem dictRegulars_inv {s : Segment} {n : Nat} {seen : List (String × String)}
    (h : DictInv s n seen) (fs : List RegularField) (tfs : List TokenFrequencies) :
    DictInv (dictRegulars s n fs tfs).2 (dictRegulars s n fs tfs).1
      (scanRegulars seen fs tfs) := by
  induction fs generalizing s n seen tfs with
  | nil => exact h
  | cons f rest ih =>
    obtain ⟨hgdf, hlt, hname⟩ := getOrDefineField_dictInv h f.name
    have hpf := dictProcessField_inv hgdf hlt (tfs.headD [])
    rw [hname] at hpf
    simp only [dictRegulars, scanRegulars]
    exact ih hpf.1 tfs.tail

theorem dictResults_inv {s : Segment} {n : Nat} {seen : List (String × String)}
    (h : DictInv s n seen) (results : List AnalysisResult) :
    DictInv (dictResults s n results).2 (dictResults s n results).1
      (scanResults seen results) := by
  induction results generalizing s n seen with
  | nil => exact h
  | cons r rest ih =>
    simp only [dictResults, scanResults]
    exact ih (dictRegulars_inv (dictComposites_inv h r.document.compositeFields)
      r.document.fields r.analyzed)

theorem dictInv_base : DictInv baseSegment 0 [] := by
  refine { reg := regOK_base, count := rfl, nodup := List.nodup_nil, names := ?_, dict := ?_ }
  · intro p hp
    simp at hp
  · intro i hi t
    have : i = 0 := by
      have : i < 1 := hi
      omega
    subst this
    rfl

theorem mem_scan1 {seen : List (String × String)} {name term : String} {p : String × String} :
    p ∈ scan1 seen name term ↔ p ∈ seen ∨ p = (name, term) := by
  unfold scan1
  by_cases hmem : (name, term) ∈ seen
  · simp only [if_pos hmem]
    constructor
    · exact Or.inl
    · rintro (hp | rfl)
      · exact hp
      · exact hmem
  · simp [if_neg hmem, List.mem_append]

theorem mem_scanTerms {seen : List (String × String)} {name : String} {tf : TokenFrequencies}
    {p : String × String} :
    p ∈ scanTerms seen name tf ↔ p ∈ seen ∨ p ∈ tfTermPairs name tf := by
  induction tf generalizing seen with
  | nil => simp [scanTerms, tfTermPairs]
  | cons q rest ih =>
    obtain ⟨term, tq⟩ := q
    simp only [scanTerms, ih, mem_scan1, tfTermPairs, List.map_cons, List.mem_cons]
    constructor
    · rintro ((hp | rfl) | hp)
      · exact Or.inl hp
      · exact Or.inr (Or.inl rfl)
      · exact Or.inr (Or.inr (by simpa [tfTermPairs] using hp))
    · rintro (hp | hp | hp)
      · exact Or.inl (Or.inl hp)
      · exact Or.inl (Or.inr hp)
      · exact Or.inr (by simpa [tfTermPairs] using hp)

theorem mem_scanComposites {seen : List (String × String)} {fs : List CompositeField}
    {p : String × String} :
    p ∈ scanComposites seen fs ↔
      p ∈ seen ∨ p ∈ (fs.map (fun f => tfTermPairs f.name f.analyzeTf)).flatten := by
  induction fs generalizing seen with
  | nil => simp [scanComposites]
  | cons f rest ih =>
    simp only [scanComposites, ih, mem_scanTerms, List.map_cons, List.flatten_cons,
      List.mem_append]
    tauto

theorem mem_scanRegulars {seen : List (String × String)} {fs : List RegularField}
    {tfs : List TokenFrequencies} {p : String × String} :
    p ∈ scanRegulars seen fs tfs ↔ p ∈ seen ∨ p ∈ regPairs fs tfs := by
  induction fs generalizing seen tfs with
  | nil => simp [scanRegulars, regPairs]
  | cons f rest ih =>
    simp only [scanRegulars, ih, mem_scanTerms, regPairs, List.mem_append]
    tauto

theorem mem_scanResults {seen : List (String × String)} {results : List AnalysisResult}
    {p : String × String} :
    p ∈ scanResults seen results ↔ p ∈ seen ∨ p ∈ batchPairs results := by
  induction results generalizing seen with
  | nil => simp [scanResults, batchPairs]
  | cons r rest ih =>
    simp only [scanResults, ih, mem_scanRegulars, mem_scanComposites, batchPairs,
      List.map_cons, List.flatten_cons, List.mem_append, resultPairs]
    tauto

theorem mem_pairScan {results : List AnalysisResult} {p : String × String} :
    p ∈ pairScan results ↔ p ∈ batchPairs results := by
  unfold pairScan
  rw [mem_scanResults]
  simp

theorem lookupA_mono {α β : Type} [DecidableEq α] {m m2 : List (α × β)} (h : m <+: m2)
    {a : α} {v : β} (hl : lookupA m a = some v) : lookupA m2 a = some v := by
  obtain ⟨t, rfl⟩ := h
  exact lookupA_append_some hl

theorem lookupA_isSome_mono {α β : Type} [DecidableEq α] {m m2 : List (α × β)} (h : m <+: m2)
    {a : α} (hl : (lookupA m a).isSome) : (lookupA m2 a).isSome := by
  cases hv : lookupA m a with
  | none => rw [hv] at hl; exact absurd hl (by simp)
  | some v => rw [lookupA_mono h hv]; rfl

theorem getOrDefineField_registers (s : Segment) (name : String) :
    (lookupA (s.getOrDefineField name).2.FieldsMap name).isSome := by
  cases hl : lookupA s.FieldsMap name with
  | some v => rw [getOrDefineField_found hl, hl]; rfl
  | none =>
    rw [getOrDefineField_new hl]
    show (lookupA (s.FieldsMap ++ [(name, s.FieldsInv.length + 1)]) name).isSome
    rw [lookupA_append_none _ hl]
    simp [lookupA]

theorem dictProcessField_FieldsMap (s : Segment) (n i : Nat) (tf : TokenFrequencies) :
    (dictProcessField s n i tf).2.FieldsMap = s.FieldsMap := by
  induction tf generalizing s n with
  | nil => rfl
  | cons p rest ih =>
    obtain ⟨term, q⟩ := p
    simp only [dictProcessField]
    rw [ih, (dictAddTerm_frame s n i term).2.1]

theorem dictComposites_FieldsMap_grows (s : Segment) (n : Nat) (fs : List CompositeField) :
    s.FieldsMap <+: (dictComposites s n fs).2.FieldsMap := by
  induction fs generalizing s n with
  | nil => exact List.prefix_refl _
  | cons f rest ih =>
    refine (getOrDefineField_FieldsMap_grows s f.name).trans ?_
    simp only [dictComposites]
    rw [← dictProcessField_FieldsMap (s.getOrDefineField f.name).2 n
      (s.getOrDefineField f.name).1 f.analyzeTf]
    exact ih _ _

theorem dictRegulars_FieldsMap_grows (s : Segment) (n : Nat) (fs : List RegularField)
    (tfs : List TokenFrequencies) :
    s.FieldsMap <+: (dictRegulars s n fs tfs).2.FieldsMap := by
  induction fs generalizing s n tfs with
  | nil => exact List.prefix_refl _
  | cons f rest ih =>
    refine (getOrDefineField_FieldsMap_grows s f.name).trans ?_
    simp only [dictRegulars]
    rw [← dictProcessField_FieldsMap (s.getOrDefineField f.name).2 n
      (s.getOrDefineField f.name).1 (tfs.headD [])]
    exact ih _ _ _

theorem dictResults_FieldsMap_grows (s : Segment) (n : Nat) (results : List AnalysisResult) :
    s.FieldsMap <+: (dictResults s n results).2.FieldsMap := by
  induction results generalizing s n with
  | nil => exact List.prefix_refl _
  | cons r rest ih =>
    simp only [dictResults]
    exact ((dictComposites_FieldsMap_grows s n r.document.compositeFields).trans
      (dictRegulars_FieldsMap_grows (dictComposites s n r.document.compositeFields).2
        (dictComposites s n r.document.compositeFields).1 r.document.fields r.analyzed)).trans
      (ih _ _)

theorem dictComposites_registers (s : Segment) (n : Nat) (fs : List CompositeField) :
    ∀ f ∈ fs, (lookupA (dictComposites s n fs).2.FieldsMap f.name).isSome := by
  induction fs generalizing s n with
  | nil => intro f hf; simp at hf
  | cons g rest ih =>
    intro f hf
    rcases List.mem_cons.mp hf with rfl | hf
    · simp only [dictComposites]
      refine lookupA_isSome_mono ?_ (getOrDefineField_registers s f.name)
      rw [← dictProcessField_FieldsMap (s.getOrDefineField f.name).2 n
        (s.getOrDefineField f.name).1 f.analyzeTf]
      exact dictComposites_FieldsMap_grows _ _ _
    · simp only [dictComposites]
      exact ih _ _ f hf

theorem dictRegulars_registers (s : Segment) (n : Nat) (fs : List RegularField)
    (tfs : List TokenFrequencies) :
    ∀ f ∈ fs, (lookupA (dictRegulars s n fs tfs).2.FieldsMap f.name).isSome := by
  induction fs generalizing s n tfs with
  | nil => intro f hf; simp at hf
  | cons g rest ih =>
    intro f hf
    rcases List.mem_cons.mp hf with rfl | hf
    · simp only [dictRegulars]
      refine lookupA_isSome_mono ?_ (getOrDefineField_registers s f.name)
      rw [← dictProcessField_FieldsMap (s.getOrDefineField f.name).2 n
        (s.getOrDefineField f.name).1 (tfs.headD [])]
      exact dictRegulars_FieldsMap_grows _ _ _ _
    · simp only [dictRegulars]
      exact ih _ _ _ f hf

theorem dictResults_registers (s : Segment) (n : Nat) (results : List AnalysisResult) :
    ∀ name ∈ batchNames results, (lookupA (dictResults s n results).2.FieldsMap name).isSome := by
  induction results generalizing s n with
  | nil => intro name hname; simp [batchNames] at hname
  | cons r rest ih =>
    intro name hname
    simp only [batchNames, List.map_cons, List.flatten_cons, List.mem_append,
      List.mem_map] at hname
    rcases hname with (⟨f, hf, rfl⟩ | ⟨f, hf, rfl⟩) | hname
    · simp only [dictResults]
      refine lookupA_isSome_mono (dictResults_FieldsMap_grows _ _ _) ?_
      refine lookupA_isSome_mono (dictRegulars_FieldsMap_grows _ _ _ _) ?_
      exact dictComposites_registers _ _ _ f hf
    · simp only [dictResults]
      refine lookupA_isSome_mono (dictResults_FieldsMap_grows _ _ _) ?_
      exact dictRegulars_registers _ _ _ _ f hf
    · simp only [dictResults]
      exact ih _ _ name (by simpa [batchNames] using hname)

theorem dictProcessField_storedF (s : Segment) (n i : Nat) (tf : TokenFrequencies) :
    (dictProcessField s n i tf).2.Stored = s.Stored ∧
    (dictProcessField s n i tf).2.StoredTypes = s.StoredTypes ∧
    (dictProcessField s n i tf).2.StoredPos = s.StoredPos := by
  induction tf generalizing s n with
  | nil => exact ⟨rfl, rfl, rfl⟩
  | cons p rest ih =>
    obtain ⟨term, q⟩ := p
    simp only [dictProcessField]
    obtain ⟨h1, h2, h3⟩ := ih (dictAddTerm s n i term).2 (dictAddTerm s n i term).1
    obtain ⟨_, _, g1, g2, g3⟩ := dictAddTerm_frame s n i term
    exact ⟨h1.trans g1, h2.trans g2, h3.trans g3⟩

theorem dictComposites_storedF (s : Segment) (n : Nat) (fs : List CompositeField) :
    (dictComposites s n fs).2.Stored = s.Stored ∧
    (dictComposites s n fs).2.StoredTypes = s.StoredTypes ∧
    (dictComposites s n fs).2.StoredPos = s.StoredPos := by
  induction fs generalizing s n with
  | nil => exact ⟨rfl, rfl, rfl⟩
  | cons f rest ih =>
    simp only [dictComposites]
    obtain ⟨h1, h2, h3⟩ := ih (dictProcessField (s.getOrDefineField f.name).2 n
      (s.getOrDefineField f.name).1 f.analyzeTf).2 _
    obtain ⟨g1, g2, g3⟩ := dictProcessField_storedF (s.getOrDefineField f.name).2 n
      (s.getOrDefineField f.name).1 f.analyzeTf
    exact ⟨(h1.trans g1).trans (getOrDefineField_Stored s f.name),
      (h2.trans g2).trans (getOrDefineField_StoredTypes s f.name),
      (h3.trans g3).trans (getOrDefineField_StoredPos s f.name)⟩

theorem dictRegulars_storedF (s : Segment) (n : Nat) (fs : List RegularField)
    (tfs : List TokenFrequencies) :
    (dictRegulars s n fs tfs).2.Stored = s.Stored ∧
    (dictRegulars s n fs tfs).2.StoredTypes = s.StoredTypes ∧
    (dictRegulars s n fs tfs).2.StoredPos = s.StoredPos := by
  induction fs generalizing s n tfs with
  | nil => exact ⟨rfl, rfl, rfl⟩
  | cons f rest ih =>
    simp only [dictRegulars]
    obtain ⟨h1, h2, h3⟩ := ih (dictProcessField (s.getOrDefineField f.name).2 n
      (s.getOrDefineField f.name).1 (tfs.headD [])).2 _ tfs.tail
    obtain ⟨g1, g2, g3⟩ := dictProcessField_storedF (s.getOrDefineField f.name).2 n
      (s.getOrDefineField f.name).1 (tfs.headD [])
    exact ⟨(h1.trans g1).trans (getOrDefineField_Stored s f.name),
      (h2.trans g2).trans (getOrDefineField_StoredTypes s f.name),
      (h3.trans g3).trans (getOrDefineField_StoredPos s f.name)⟩

theorem dictResults_storedF (s : Segment) (n : Nat) (results : List AnalysisResult) :
    (dictResults s n results).2.Stored = s.Stored ∧
    (dictResults s n results).2.StoredTypes = s.StoredTypes ∧
    (dictResults s n results).2.StoredPos = s.StoredPos := by
  induction results generalizing s n with
  | nil => exact ⟨rfl, rfl, rfl⟩
  | cons r rest ih =>
    simp only [dictResults]
    obtain ⟨h1, h2, h3⟩ := ih (dictRegulars (dictComposites s n r.document.compositeFields).2
      (dictComposites s n r.document.compositeFields).1 r.document.fields r.analyzed).2 _
    obtain ⟨g1, g2, g3⟩ := dictRegulars_storedF (dictComposites s n r.document.compositeFields).2
      (dictComposites s n r.document.compositeFields).1 r.document.fields r.analyzed
    obtain ⟨e1, e2, e3⟩ := dictComposites_storedF s n r.document.compositeFields
    exact ⟨(h1.trans g1).trans e1, (h2.trans g2).trans e2, (h3.trans g3).trans e3⟩

theorem dictSegment_inv (results : List AnalysisResult) :
    DictInv (dictSegment results) (pairScan results).length (pairScan results) := by
  have h := dictResults_inv dictInv_base results
  exact { reg := { nodup := h.reg.nodup, map_eq := h.reg.map_eq, dicts_len := h.reg.dicts_len,
                   keys_len := h.reg.keys_len }
          count := rfl
          nodup := h.nodup
          names := h.names
          dict := h.dict }

theorem dictResults_count (results : List AnalysisResult) :
    (dictResults baseSegment 0 results).1 = (pairScan results).length :=
  (dictResults_inv dictInv_base results).count

theorem dictSegment_arrays (results : List AnalysisResult) :
    (dictSegment results).Postings = List.replicate (pairScan results).length [] ∧
    (dictSegment results).PostingsLocs = List.replicate (pairScan results).length [] ∧
    (dictSegment results).Freqs = List.replicate (pairScan results).length [] ∧
    (dictSegment results).Norms = List.replicate (pairScan results).length [] ∧
    (dictSegment results).Locfields = List.replicate (pairScan results).length [] ∧
    (dictSegment results).Locstarts = List.replicate (pairScan results).length [] ∧
    (dictSegment results).Locends = List.replicate (pairScan results).length [] ∧
    (dictSegment results).Locpos = List.replicate (pairScan results).length [] ∧
    (dictSegment results).Locarraypos = List.replicate (pairScan results).length [] := by
  simp only [dictSegment, Segment.initializeDict]
  rw [dictResults_count results]
  exact ⟨rfl, rfl, rfl, rfl, rfl, rfl, rfl, rfl, rfl⟩

theorem dictSegment_stored (results : List AnalysisResult) :
    (dictSegment results).Stored = [] ∧ (dictSegment results).StoredTypes = [] ∧
    (dictSegment results).StoredPos = [] := by
  obtain ⟨h1, h2, h3⟩ := dictResults_storedF baseSegment 0 results
  exact ⟨h1, h2, h3⟩

theorem dictSegment_registers (results : List AnalysisResult) :
    ∀ name ∈ batchNames results, (lookupA (dictSegment results).FieldsMap name).isSome :=
  fun name h => dictResults_registers baseSegment 0 results name h

theorem mem_updateA {α β : Type} [DecidableEq α] {m : List (α × β)} {a k : α} {b v : β}
    (h : (k, v) ∈ updateA m a b) : (k = a ∧ v = b) ∨ (k, v) ∈ m := by
  induction m with
  | nil => simp [updateA] at h
  | cons p rest ih =>
    obtain ⟨k0, v0⟩ := p
    by_cases hk : k0 = a
    · subst hk
      simp only [updateA, if_pos rfl] at h
      rcases List.mem_cons.mp h with h | h
      · injection h with h1 h2
        exact Or.inl ⟨h1.symm ▸ rfl, h2⟩
      · exact Or.inr (List.mem_cons_of_mem _ h)
    · simp only [updateA, if_neg hk] at h
      rcases List.mem_cons.mp h with h | h
      · exact Or.inr (List.mem_cons.mpr (Or.inl h))
      · rcases ih h with h2 | h2
        · exact Or.inl h2
        · exact Or.inr (List.mem_cons_of_mem _ h2)

theorem mem_setA {α β : Type} [DecidableEq α] {m : List (α × β)} {a k : α} {b v : β}
    (h : (k, v) ∈ setA m a b) : (k = a ∧ v = b) ∨ (k, v) ∈ m := by
  unfold setA at h
  cases hl : lookupA m a with
  | some e =>
    rw [hl] at h
    exact mem_updateA h
  | none =>
    rw [hl] at h
    rcases List.mem_append.mp h with h | h
    · exact Or.inr h
    · rw [List.mem_singleton] at h
      injection h with h1 h2
      exact Or.inl ⟨h1, h2⟩

theorem mergeAll_cons (tfs : TokenFrequencies) (t0 : String) (q0 : TokenFreq)
    (rest : TokenFrequencies) :
    mergeAll tfs ((t0, q0) :: rest) =
      mergeAll (match lookupA tfs t0 with
        | some e => updateA tfs t0 { frequency := e.frequency + q0.frequency
                                     locations := e.locations ++ q0.locations }
        | none => tfs ++ [(t0, q0)]) rest := rfl

theorem lookupA_mergeAll_isSome {other tfs : TokenFrequencies} {t : String} :
    (lookupA (mergeAll tfs other) t).isSome ↔
      (lookupA tfs t).isSome ∨ (lookupA other t).isSome := by
  induction other generalizing tfs with
  | nil => simp [mergeAll, lookupA]
  | cons p rest ih =>
    obtain ⟨t0, q0⟩ := p
    rw [mergeAll_cons]
    cases hl : lookupA tfs t0 with
    | some e =>
      rw [ih]
      by_cases ht0 : t0 = t
      · subst ht0
        rw [lookupA_updateA_self hl]
        simp [lookupA, hl]
      · rw [lookupA_updateA_ne _ (Ne.symm ht0)]
        simp [lookupA, ht0]
    | none =>
      rw [ih]
      by_cases ht0 : t0 = t
      · subst ht0
        rw [lookupA_append_none _ hl]
        simp [lookupA, hl]
      · have happ : lookupA (tfs ++ [(t0, q0)]) t = lookupA tfs t := by
          cases hx : lookupA tfs t with
          | some v => exact lookupA_append_some hx
          | none =>
            rw [lookupA_append_none _ hx]
            simp [lookupA, ht0]
        rw [happ]
        simp [lookupA, ht0]

theorem mergeAll_keys_nodup {tfs other : TokenFrequencies}
    (h : (tfs.map Prod.fst).Nodup) : ((mergeAll tfs other).map Prod.fst).Nodup := by
  induction other generalizing tfs with
  | nil => exact h
  | cons p rest ih =>
    obtain ⟨t0, q0⟩ := p
    simp only [mergeAll]
    cases hl : lookupA tfs t0 with
    | some e =>
      refine ih ?_
      rw [map_fst_updateA]
      exact h
    | none =>
      refine ih ?_
      rw [List.map_append]
      exact nodup_concat h (by simpa using lookupA_eq_none_iff.mp hl)

theorem collStep_keys_nodup (acc : List (Nat × TokenFrequencies) × List (Nat × Nat))
    (ts : List (Nat × Nat × TokenFrequencies))
    (h : (acc.1.map Prod.fst).Nodup) : (((ts.foldl collStep acc).1).map Prod.fst).Nodup := by
  induction ts generalizing acc with
  | nil => exact h
  | cons t rest ih =>
    refine ih _ ?_
    show (((collStep acc t).1).map Prod.fst).Nodup
    unfold collStep
    cases hl : lookupA acc.1 t.1 <;> exact nodup_keys_setA _ _ h

theorem collStep_vals_nodup (acc : List (Nat × TokenFrequencies) × List (Nat × Nat))
    (ts : List (Nat × Nat × TokenFrequencies))
    (hacc : ∀ p ∈ acc.1, ((p.2 : TokenFrequencies).map Prod.fst).Nodup)
    (hts : ∀ t ∈ ts, ((t.2.2 : TokenFrequencies).map Prod.fst).Nodup) :
    ∀ p ∈ (ts.foldl collStep acc).1, ((p.2 : TokenFrequencies).map Prod.fst).Nodup := by
  induction ts generalizing acc with
  | nil => exact hacc
  | cons t rest ih =>
    refine ih _ ?_ (fun u hu => hts u (List.mem_cons_of_mem _ hu))
    intro p hp
    obtain ⟨fid, tf⟩ := p
    have hnew : ((t.2.2 : TokenFrequencies).map Prod.fst).Nodup :=
      hts t (List.mem_cons_self _ _)
    have hp2 : (fid, tf) ∈ (match lookupA acc.1 t.1 with
      | some e => setA acc.1 t.1 (mergeAll e t.2.2)
      | none => setA acc.1 t.1 t.2.2) := hp
    cases hcase : lookupA acc.1 t.1 with
    | some e =>
      rw [hcase] at hp2
      rcases mem_setA hp2 with ⟨_, rfl⟩ | hmem
      · exact mergeAll_keys_nodup (hacc (t.1, e) (mem_of_lookupA hcase))
      · exact hacc _ hmem
    | none =>
      rw [hcase] at hp2
      rcases mem_setA hp2 with ⟨_, rfl⟩ | hmem
      · exact hnew
      · exact hacc _ hmem

theorem collate_term_source (ts : List (Nat × Nat × TokenFrequencies))
    (acc : List (Nat × TokenFrequencies) × List (Nat × Nat)) (fid : Nat) (term : String)
    (h : ((lookupA ((ts.foldl collStep acc).1) fid).bind (fun tf => lookupA tf term)).isSome) :
    ((lookupA acc.1 fid).bind (fun tf => lookupA tf term)).isSome ∨
      ∃ t ∈ ts, t.1 = fid ∧ (lookupA t.2.2 term).isSome := by
  induction ts generalizing acc with
  | nil => exact Or.inl h
  | cons t rest ih =>
    obtain ⟨ta, tl, ttf⟩ := t
    rcases ih (collStep acc (ta, tl, ttf)) h with hacc | ⟨t2, ht2, he⟩
    · by_cases hfid : ta = fid
      · subst hfid
        cases hl : lookupA acc.1 ta with
        | some e =>
          have hstep : (collStep acc (ta, tl, ttf)).1 = setA acc.1 ta (mergeAll e ttf) := by
            unfold collStep
            rw [hl]
          rw [hstep, lookupA_setA_self] at hacc
          simp only [Option.some_bind] at hacc
          rcases lookupA_mergeAll_isSome.mp hacc with hcase | hcase
          · exact Or.inl (by simpa using hcase)
          · exact Or.inr ⟨(ta, tl, ttf), List.mem_cons_self _ _, rfl, hcase⟩
        | none =>
          have hstep : (collStep acc (ta, tl, ttf)).1 = setA acc.1 ta ttf := by
            unfold collStep
            rw [hl]
          rw [hstep, lookupA_setA_self] at hacc
          simp only [Option.some_bind] at hacc
          exact Or.inr ⟨(ta, tl, ttf), List.mem_cons_self _ _, rfl, hacc⟩
      · have hstep : lookupA (collStep acc (ta, tl, ttf)).1 fid = lookupA acc.1 fid := by
          unfold collStep
          cases hl : lookupA acc.1 ta <;> exact lookupA_setA_ne _ (fun hc => hfid hc.symm) _
        rw [hstep] at hacc
        exact Or.inl hacc
    · exact Or.inr ⟨t2, List.mem_cons_of_mem _ ht2, he⟩

theorem collate_lens (ts : List (Nat × Nat × TokenFrequencies))
    (acc : List (Nat × TokenFrequencies) × List (Nat × Nat)) (fid : Nat) :
    (lookupA ((ts.foldl collStep acc).2) fid).getD 0 =
      (lookupA acc.2 fid).getD 0 +
        ((ts.filter (fun t => t.1 = fid)).map (fun t => t.2.1)).sum := by
  induction ts generalizing acc with
  | nil => simp
  | cons t rest ih =>
    rw [List.foldl_cons, ih (collStep acc t)]
    by_cases hfid : t.1 = fid
    · subst hfid
      have : lookupA (collStep acc t).2 t.1 = some ((lookupA acc.2 t.1).getD 0 + t.2.1) :=
        lookupA_setA_self acc.2 t.1 _
      rw [this]
      simp only [List.filter_cons, decide_eq_true_eq, if_pos rfl, List.map_cons, List.sum_cons]
      simp +arith
    · have : lookupA (collStep acc t).2 fid = lookupA acc.2 fid :=
        lookupA_setA_ne acc.2 (fun hc => hfid hc.symm) _
      rw [this]
      simp only [List.filter_cons]
      rw [if_neg (by simpa using hfid)]

theorem lookupA_isSome_mem_keys {α β : Type} [DecidableEq α] {m : List (α × β)} {a : α}
    (h : (lookupA m a).isSome) : a ∈ m.map Prod.fst := by
  by_contra hc
  rw [lookupA_eq_none_iff.mpr hc] at h
  exact absurd h (by simp)

theorem regTriples_pair (fm : List (String × Nat)) (fs : List RegularField) (lens : List Nat)
    (tfs : List TokenFrequencies) {t : Nat × Nat × TokenFrequencies}
    (ht : t ∈ regTriples fm fs lens tfs) {term : String}
    (hterm : (lookupA t.2.2 term).isSome) :
    ∃ name, t.1 = lookupFid fm name ∧ (name, term) ∈ regPairs fs tfs ∧
      name ∈ fs.map RegularField.name := by
  induction fs generalizing lens tfs with
  | nil => simp [regTriples] at ht
  | cons f rest ih =>
    rcases List.mem_cons.mp ht with rfl | ht
    · refine ⟨f.name, rfl, ?_, by simp⟩
      simp only [regPairs, List.mem_append]
      refine Or.inl ?_
      unfold tfTermPairs
      exact List.mem_map.mpr ⟨(term, _), mem_of_lookupA (Option.isSome_iff_exists.mp hterm
        |>.choose_spec), rfl⟩
    · obtain ⟨name, h1, h2, h3⟩ := ih lens.tail tfs.tail ht
      exact ⟨name, h1, by simp [regPairs, List.mem_append, h2], by simp [h3]⟩

theorem docTriples_pair (fm : List (String × Nat)) (r : AnalysisResult)
    {t : Nat × Nat × TokenFrequencies} (ht : t ∈ docTriples fm r) {term : String}
    (hterm : (lookupA t.2.2 term).isSome) :
    ∃ name, t.1 = lookupFid fm name ∧ (name, term) ∈ resultPairs r ∧
      name ∈ (r.document.compositeFields.map CompositeField.name
        ++ r.document.fields.map RegularField.name) := by
  rcases List.mem_append.mp ht with ht | ht
  · obtain ⟨f, hf, rfl⟩ := List.mem_map.mp ht
    refine ⟨f.name, rfl, ?_, List.mem_append_left _ (List.mem_map.mpr ⟨f, hf, rfl⟩)⟩
    simp only [resultPairs, List.mem_append]
    refine Or.inl (List.mem_flatten.mpr ⟨tfTermPairs f.name f.analyzeTf,
      List.mem_map.mpr ⟨f, hf, rfl⟩, ?_⟩)
    unfold tfTermPairs
    exact List.mem_map.mpr ⟨(term, _), mem_of_lookupA (Option.isSome_iff_exists.mp hterm
      |>.choose_spec), rfl⟩
  · obtain ⟨name, h1, h2, h3⟩ := regTriples_pair fm _ _ _ ht hterm
    exact ⟨name, h1, List.mem_append_right _ h2, List.mem_append_right _ h3⟩

theorem contrib_source (results : List AnalysisResult) {d : Nat} (hd : d < results.length)
    {fid : Nat} {term : String}
    (h : (docTermFreq (dictSegment results).FieldsMap (results.getD d emptyResult)
      fid term).isSome) :
    ∃ name, fid = lookupFid (dictSegment results).FieldsMap name ∧
      (name, term) ∈ batchPairs results ∧ name ∈ batchNames results := by
  unfold docTermFreq collate at h
  rcases collate_term_source _ _ _ _ h with hacc | ⟨t, ht, hfid, hterm⟩
  · simp [lookupA] at hacc
  · obtain ⟨name, h1, h2, h3⟩ :=
      docTriples_pair (dictSegment results).FieldsMap (results.getD d emptyResult) ht hterm
    have hmem : results.getD d emptyResult ∈ results := getD_mem hd emptyResult
    refine ⟨name, hfid ▸ h1, ?_, ?_⟩
    · exact List.mem_flatten.mpr ⟨resultPairs (results.getD d emptyResult),
        List.mem_map.mpr ⟨_, hmem, rfl⟩, h2⟩
    · exact List.mem_flatten.mpr ⟨_, List.mem_map.mpr ⟨_, hmem, rfl⟩, h3⟩

theorem dict_lookup_of_contrib (results : List AnalysisResult) {d : Nat} (hd : d < results.length)
    {fid : Nat} {term : String}
    (h : (docTermFreq (dictSegment results).FieldsMap (results.getD d emptyResult)
      fid term).isSome) :
    ∃ o, lookupA ((dictSegment results).Dicts.getD fid []) term = some o ∧ 1 ≤ o ∧
      o - 1 < (pairScan results).length ∧
      pairAt results (o - 1) = ((dictSegment results).FieldsInv.getD fid "", term) ∧
      fidAt results (o - 1) = fid ∧ fid < (dictSegment results).FieldsInv.length := by
  obtain ⟨name, hfid, hpair, hname⟩ := contrib_source results hd h
  have hreg := dictSegment_registers results name hname
  obtain ⟨v, hv⟩ := Option.isSome_iff_exists.mp hreg
  have hmap := (dictSegment_inv results).reg.map_eq
  have hv2 := hv
  rw [hmap, lookupA_regOf] at hv2
  cases hidx : idxOfA (dictSegment results).FieldsInv name with
  | none => rw [hidx] at hv2; exact absurd hv2 (by simp)
  | some k =>
    rw [hidx] at hv2
    have hvk : v = k + 1 := by
      simp at hv2
      omega
    have hfid2 : fid = k := by
      rw [hfid]
      unfold lookupFid
      rw [hv, hvk]
      simp
    subst hfid2
    have hklen : fid < (dictSegment results).FieldsInv.length := idxOfA_lt_length hidx
    have hgetname : (dictSegment results).FieldsInv.getD fid "" = name := idxOfA_getD hidx ""
    have hdict := (dictSegment_inv results).dict fid hklen term
    rw [hgetname] at hdict
    have hmemscan : (name, term) ∈ pairScan results := mem_pairScan.mpr hpair
    cases hscan : idxOfA (pairScan results) (name, term) with
    | none => exact absurd hmemscan (idxOfA_eq_none_iff.mp hscan)
    | some j =>
      rw [hscan] at hdict
      have hpairAt : pairAt results j = (name, term) := by
        unfold pairAt
        exact idxOfA_getD hscan ("", "")
      refine ⟨j + 1, by simpa using hdict, by omega, ?_, ?_, ?_, hklen⟩
      · simpa using idxOfA_lt_length hscan
      · rw [show j + 1 - 1 = j from rfl, hpairAt, hgetname]
      · rw [show j + 1 - 1 = j from rfl]
        unfold fidAt
        rw [hpairAt]
        dsimp only
        rw [hfid]

theorem docComposites_spec (st : DocState) (fs : List CompositeField)
    (hreg : ∀ f ∈ fs, (lookupA st.seg.FieldsMap f.name).isSome) :
    (docComposites st fs).seg = st.seg ∧
    ((docComposites st fs).docMap, (docComposites st fs).fieldLens) =
      (fs.map (fun f => ((lookupFid st.seg.FieldsMap f.name : Nat), f.analyzeLen,
        f.analyzeTf))).foldl collStep (st.docMap, st.fieldLens) := by
  induction fs generalizing st with
  | nil => exact ⟨rfl, rfl⟩
  | cons f rest ih =>
    have hf := hreg f (List.mem_cons_self _ _)
    obtain ⟨v, hv⟩ := Option.isSome_iff_exists.mp hf
    have hlf : lookupFid st.seg.FieldsMap f.name = v - 1 := by
      unfold lookupFid
      rw [hv]
      rfl
    simp only [docComposites]
    rw [getOrDefineField_found hv]
    obtain ⟨ih1, ih2⟩ := ih (docProcessField { st with seg := ((v - 1 : Nat), st.seg).2 }
      ((v - 1 : Nat), st.seg).1 f.analyzeLen f.analyzeTf)
      (fun g hg => hreg g (List.mem_cons_of_mem _ hg))
    refine ⟨ih1, ?_⟩
    rw [ih2, List.map_cons, List.foldl_cons, hlf]
    rfl

theorem docRegulars_FieldsMapF (st : DocState) (docNum : Nat) (fs : List RegularField)
    (lens : List Nat) (tfs : List TokenFrequencies)
    (hreg : ∀ g ∈ fs, (lookupA st.seg.FieldsMap g.name).isSome) :
    (docRegulars st docNum fs lens tfs).seg.FieldsMap = st.seg.FieldsMap := by
  induction fs generalizing st lens tfs with
  | nil => rfl
  | cons g rest ih =>
    obtain ⟨v, hv⟩ := Option.isSome_iff_exists.mp (hreg g (List.mem_cons_self _ _))
    have hrest := fun g2 hg => hreg g2 (List.mem_cons_of_mem _ hg)
    simp only [docRegulars]
    rw [getOrDefineField_found hv]
    split <;> split <;> exact ih _ _ _ hrest

theorem docRegulars_FieldsInvF (st : DocState) (docNum : Nat) (fs : List RegularField)
    (lens : List Nat) (tfs : List TokenFrequencies)
    (hreg : ∀ g ∈ fs, (lookupA st.seg.FieldsMap g.name).isSome) :
    (docRegulars st docNum fs lens tfs).seg.FieldsInv = st.seg.FieldsInv := by
  induction fs generalizing st lens tfs with
  | nil => rfl
  | cons g rest ih =>
    obtain ⟨v, hv⟩ := Option.isSome_iff_exists.mp (hreg g (List.mem_cons_self _ _))
    have hrest := fun g2 hg => hreg g2 (List.mem_cons_of_mem _ hg)
    simp only [docRegulars]
    rw [getOrDefineField_found hv]
    split <;> split <;> exact ih _ _ _ hrest

theorem docRegulars_DictsF (st : DocState) (docNum : Nat) (fs : List RegularField)
    (lens : List Nat) (tfs : List TokenFrequencies)
    (hreg : ∀ g ∈ fs, (lookupA st.seg.FieldsMap g.name).isSome) :
    (docRegulars st docNum fs lens tfs).seg.Dicts = st.seg.Dicts := by
  induction fs generalizing st lens tfs with
  | nil => rfl
  | cons g rest ih =>
    obtain ⟨v, hv⟩ := Option.isSome_iff_exists.mp (hreg g (List.mem_cons_self _ _))
    have hrest := fun g2 hg => hreg g2 (List.mem_cons_of_mem _ hg)
    simp only [docRegulars]
    rw [getOrDefineField_found hv]
    split <;> split <;> exact ih _ _ _ hrest

theorem docRegulars_DictKeysF (st : DocState) (docNum : Nat) (fs : List RegularField)
    (lens : List Nat) (tfs : List TokenFrequencies)
    (hreg : ∀ g ∈ fs, (lookupA st.seg.FieldsMap g.name).isSome) :
    (docRegulars st docNum fs lens tfs).seg.DictKeys = st.seg.DictKeys := by
  induction fs generalizing st lens tfs with
  | nil => rfl
  | cons g rest ih =>
    obtain ⟨v, hv⟩ := Option.isSome_iff_exists.mp (hreg g (List.mem_cons_self _ _))
    have hrest := fun g2 hg => hreg g2 (List.mem_cons_of_mem _ hg)
    simp only [docRegulars]
    rw [getOrDefineField_found hv]
    split <;> split <;> exact ih _ _ _ hrest

theorem docRegulars_PostingsF (st : DocState) (docNum : Nat) (fs : List RegularField)
    (lens : List Nat) (tfs : List TokenFrequencies)
    (hreg : ∀ g ∈ fs, (lookupA st.seg.FieldsMap g.name).isSome) :
    (docRegulars st docNum fs lens tfs).seg.Postings = st.seg.Postings := by
  induction fs generalizing st lens tfs with
  | nil => rfl
  | cons g rest ih =>
    obtain ⟨v, hv⟩ := Option.isSome_iff_exists.mp (hreg g (List.mem_cons_self _ _))
    have hrest := fun g2 hg => hreg g2 (List.mem_cons_of_mem _ hg)
    simp only [docRegulars]
    rw [getOrDefineField_found hv]
    split <;> split <;> exact ih _ _ _ hrest

theorem docRegulars_PostingsLocsF (st : DocState) (docNum : Nat) (fs : List RegularField)
    (lens : List Nat) (tfs : List TokenFrequencies)
    (hreg : ∀ g ∈ fs, (lookupA st.seg.FieldsMap g.name).isSome) :
    (docRegulars st docNum fs lens tfs).seg.PostingsLocs = st.seg.PostingsLocs := by
  induction fs generalizing st lens tfs with
  | nil => rfl
  | cons g rest ih =>
    obtain ⟨v, hv⟩ := Option.isSome_iff_exists.mp (hreg g (List.mem_cons_self _ _))
    have hrest := fun g2 hg => hreg g2 (List.mem_cons_of_mem _ hg)
    simp only [docRegulars]
    rw [getOrDefineField_found hv]
    split <;> split <;> exact ih _ _ _ hrest

theorem docRegulars_FreqsF (st : DocState) (docNum : Nat) (fs : List RegularField)
    (lens : List Nat) (tfs : List TokenFrequencies)
    (hreg : ∀ g ∈ fs, (lookupA st.seg.FieldsMap g.name).isSome) :
    (docRegulars st docNum fs lens tfs).seg.Freqs = st.seg.Freqs := by
  induction fs generalizing st lens tfs with
  | nil => rfl
  | cons g rest ih =>
    obtain ⟨v, hv⟩ := Option.isSome_iff_exists.mp (hreg g (List.mem_cons_self _ _))
    have hrest := fun g2 hg => hreg g2 (List.mem_cons_of_mem _ hg)
    simp only [docRegulars]
    rw [getOrDefineField_found hv]
    split <;> split <;> exact ih _ _ _ hrest

theorem docRegulars_NormsF (st : DocState) (docNum : Nat) (fs : List RegularField)
    (lens : List Nat) (tfs : List TokenFrequencies)
    (hreg : ∀ g ∈ fs, (lookupA st.seg.FieldsMap g.name).isSome) :
    (docRegulars st docNum fs lens tfs).seg.Norms = st.seg.Norms := by
  induction fs generalizing st lens tfs with
  | nil => rfl
  | cons g rest ih =>
    obtain ⟨v, hv⟩ := Option.isSome_iff_exists.mp (hreg g (List.mem_cons_self _ _))
    have hrest := fun g2 hg => hreg g2 (List.mem_cons_of_mem _ hg)
    simp only [docRegulars]
    rw [getOrDefineField_found hv]
    split <;> split <;> exact ih _ _ _ hrest

theorem docRegulars_LocfieldsF (st : DocState) (docNum : Nat) (fs : List RegularField)
    (lens : List Nat) (tfs : List TokenFrequencies)
    (hreg : ∀ g ∈ fs, (lookupA st.seg.FieldsMap g.name).isSome) :
    (docRegulars st docNum fs lens tfs).seg.Locfields = st.seg.Locfields := by
  induction fs generalizing st lens tfs with
  | nil => rfl
  | cons g rest ih =>
    obtain ⟨v, hv⟩ := Option.isSome_iff_exists.mp (hreg g (List.mem_cons_self _ _))
    have hrest := fun g2 hg => hreg g2 (List.mem_cons_of_mem _ hg)
    simp only [docRegulars]
    rw [getOrDefineField_found hv]
    split <;> split <;> exact ih _ _ _ hrest

theorem docRegulars_LocstartsF (st : DocState) (docNum : Nat) (fs : List RegularField)
    (lens : List Nat) (tfs : List TokenFrequencies)
    (hreg : ∀ g ∈ fs, (lookupA st.seg.FieldsMap g.name).isSome) :
    (docRegulars st docNum fs lens tfs).seg.Locstarts = st.seg.Locstarts := by
  induction fs generalizing st lens tfs with
  | nil => rfl
  | cons g rest ih =>
    obtain ⟨v, hv⟩ := Option.isSome_iff_exists.mp (hreg g (List.mem_cons_self _ _))
    have hrest := fun g2 hg => hreg g2 (List.mem_cons_of_mem _ hg)
    simp only [docRegulars]
    rw [getOrDefineField_found hv]
    split <;> split <;> exact ih _ _ _ hrest

theorem docRegulars_LocendsF (st : DocState) (docNum : Nat) (fs : List RegularField)
    (lens : List Nat) (tfs : List TokenFrequencies)
    (hreg : ∀ g ∈ fs, (lookupA st.seg.FieldsMap g.name).isSome) :
    (docRegulars st docNum fs lens tfs).seg.Locends = st.seg.Locends := by
  induction fs generalizing st lens tfs with
  | nil => rfl
  | cons g rest ih =>
    obtain ⟨v, hv⟩ := Option.isSome_iff_exists.mp (hreg g (List.mem_cons_self _ _))
    have hrest := fun g2 hg => hreg g2 (List.mem_cons_of_mem _ hg)
    simp only [docRegulars]
    rw [getOrDefineField_found hv]
    split <;> split <;> exact ih _ _ _ hrest

theorem docRegulars_LocposF (st : DocState) (docNum : Nat) (fs : List RegularField)
    (lens : List Nat) (tfs : List TokenFrequencies)
    (hreg : ∀ g ∈ fs, (lookupA st.seg.FieldsMap g.name).isSome) :
    (docRegulars st docNum fs lens tfs).seg.Locpos = st.seg.Locpos := by
  induction fs generalizing st lens tfs with
  | nil => rfl
  | cons g rest ih =>
    obtain ⟨v, hv⟩ := Option.isSome_iff_exists.mp (hreg g (List.mem_cons_self _ _))
    have hrest := fun g2 hg => hreg g2 (List.mem_cons_of_mem _ hg)
    simp only [docRegulars]
    rw [getOrDefineField_found hv]
    split <;> split <;> exact ih _ _ _ hrest

theorem docRegulars_LocarrayposF (st : DocState) (docNum : Nat) (fs : List RegularField)
    (lens : List Nat) (tfs : List TokenFrequencies)
    (hreg : ∀ g ∈ fs, (lookupA st.seg.FieldsMap g.name).isSome) :
    (docRegulars st docNum fs lens tfs).seg.Locarraypos = st.seg.Locarraypos := by
  induction fs generalizing st lens tfs with
  | nil => rfl
  | cons g rest ih =>
    obtain ⟨v, hv⟩ := Option.isSome_iff_exists.mp (hreg g (List.mem_cons_self _ _))
    have hrest := fun g2 hg => hreg g2 (List.mem_cons_of_mem _ hg)
    simp only [docRegulars]
    rw [getOrDefineField_found hv]
    split <;> split <;> exact ih _ _ _ hrest

theorem docRegulars_StoredLen (st : DocState) (docNum : Nat) (fs : List RegularField)
    (lens : List Nat) (tfs : List TokenFrequencies)
    (hreg : ∀ g ∈ fs, (lookupA st.seg.FieldsMap g.name).isSome) :
    (docRegulars st docNum fs lens tfs).seg.Stored.length = st.seg.Stored.length := by
  induction fs generalizing st lens tfs with
  | nil => rfl
  | cons g rest ih =>
    obtain ⟨v, hv⟩ := Option.isSome_iff_exists.mp (hreg g (List.mem_cons_self _ _))
    have hrest := fun g2 hg => hreg g2 (List.mem_cons_of_mem _ hg)
    simp only [docRegulars]
    rw [getOrDefineField_found hv]
    split <;> split <;> refine Eq.trans (ih _ _ _ hrest) ?_ <;>
      first
      | rfl
      | exact length_modifyAt _ _ _

theorem docRegulars_StoredTypesLen (st : DocState) (docNum : Nat) (fs : List RegularField)
    (lens : List Nat) (tfs : List TokenFrequencies)
    (hreg : ∀ g ∈ fs, (lookupA st.seg.FieldsMap g.name).isSome) :
    (docRegulars st docNum fs lens tfs).seg.StoredTypes.length = st.seg.StoredTypes.length := by
  induction fs generalizing st lens tfs with
  | nil => rfl
  | cons g rest ih =>
    obtain ⟨v, hv⟩ := Option.isSome_iff_exists.mp (hreg g (List.mem_cons_self _ _))
    have hrest := fun g2 hg => hreg g2 (List.mem_cons_of_mem _ hg)
    simp only [docRegulars]
    rw [getOrDefineField_found hv]
    split <;> split <;> refine Eq.trans (ih _ _ _ hrest) ?_ <;>
      first
      | rfl
      | exact length_modifyAt _ _ _

theorem docRegulars_StoredPosLen (st : DocState) (docNum : Nat) (fs : List RegularField)
    (lens : List Nat) (tfs : List TokenFrequencies)
    (hreg : ∀ g ∈ fs, (lookupA st.seg.FieldsMap g.name).isSome) :
    (docRegulars st docNum fs lens tfs).seg.StoredPos.length = st.seg.StoredPos.length := by
  induction fs generalizing st lens tfs with
  | nil => rfl
  | cons g rest ih =>
    obtain ⟨v, hv⟩ := Option.isSome_iff_exists.mp (hreg g (List.mem_cons_self _ _))
    have hrest := fun g2 hg => hreg g2 (List.mem_cons_of_mem _ hg)
    simp only [docRegulars]
    rw [getOrDefineField_found hv]
    split <;> split <;> refine Eq.trans (ih _ _ _ hrest) ?_ <;>
      first
      | rfl
      | exact length_modifyAt _ _ _

theorem docRegulars_collate (st : DocState) (docNum : Nat) (fs : List RegularField)
    (lens : List Nat) (tfs : List TokenFrequencies)
    (hreg : ∀ g ∈ fs, (lookupA st.seg.FieldsMap g.name).isSome) :
    ((docRegulars st docNum fs lens tfs).docMap, (docRegulars st docNum fs lens tfs).fieldLens) =
      (regTriples st.seg.FieldsMap fs lens tfs).foldl collStep (st.docMap, st.fieldLens) := by
  induction fs generalizing st lens tfs with
  | nil => rfl
  | cons g rest ih =>
    obtain ⟨v, hv⟩ := Option.isSome_iff_exists.mp (hreg g (List.mem_cons_self _ _))
    have hrest := fun g2 hg => hreg g2 (List.mem_cons_of_mem _ hg)
    have hlf : lookupFid st.seg.FieldsMap g.name = v - 1 := by
      unfold lookupFid
      rw [hv]
      rfl
    simp only [docRegulars, regTriples]
    rw [getOrDefineField_found hv, hlf, List.foldl_cons]
    split <;> split <;> exact Eq.trans (ih _ _ _ hrest) rfl

theorem docRegulars_StoredVal (st : DocState) (docNum : Nat) (fs : List RegularField)
    (lens : List Nat) (tfs : List TokenFrequencies)
    (hreg : ∀ g ∈ fs, (lookupA st.seg.FieldsMap g.name).isSome)
    (hdoc : docNum < st.seg.Stored.length) (fid : Nat) :
    (lookupA ((docRegulars st docNum fs lens tfs).seg.Stored.getD docNum []) fid).getD [] =
      (lookupA (st.seg.Stored.getD docNum []) fid).getD [] ++
        storedVals st.seg.FieldsMap fs fid := by
  induction fs generalizing st lens tfs with
  | nil => simp [docRegulars, storedVals]
  | cons g rest ih =>
    obtain ⟨v, hv⟩ := Option.isSome_iff_exists.mp (hreg g (List.mem_cons_self _ _))
    have hrest := fun g2 hg => hreg g2 (List.mem_cons_of_mem _ hg)
    have hlf : lookupFid st.seg.FieldsMap g.name = v - 1 := by
      unfold lookupFid
      rw [hv]
      rfl
    simp only [docRegulars, storedVals]
    rw [getOrDefineField_found hv, hlf]
    split <;> split <;> rename_i hst
    · refine Eq.trans (ih _ _ _ hrest ?_) ?_
      · exact Nat.lt_of_lt_of_eq hdoc (length_modifyAt st.seg.Stored docNum _).symm
      · simp only [Segment.storeField, docProcessField]
        rw [getD_modifyAt_self st.seg.Stored docNum hdoc]
        by_cases hfid : v - 1 = fid
        · rw [if_pos ⟨hst, hfid⟩]
          subst hfid
          rw [lookupA_setA_self]
          simp
        · rw [if_neg (fun hc => hfid hc.2)]
          rw [lookupA_setA_ne _ (fun hc => hfid hc.symm)]
          simp
    · refine Eq.trans (ih _ _ _ hrest hdoc) ?_
      rw [if_neg (fun hc => hst hc.1)]
      simp only [docProcessField]
      simp
    · refine Eq.trans (ih _ _ _ hrest ?_) ?_
      · exact Nat.lt_of_lt_of_eq hdoc (length_modifyAt st.seg.Stored docNum _).symm
      · simp only [Segment.storeField, docProcessField]
        rw [getD_modifyAt_self st.seg.Stored docNum hdoc]
        by_cases hfid : v - 1 = fid
        · rw [if_pos ⟨hst, hfid⟩]
          subst hfid
          rw [lookupA_setA_self]
          simp
        · rw [if_neg (fun hc => hfid hc.2)]
          rw [lookupA_setA_ne _ (fun hc => hfid hc.symm)]
          simp
    · refine Eq.trans (ih _ _ _ hrest hdoc) ?_
      rw [if_neg (fun hc => hst hc.1)]
      simp only [docProcessField]
      simp

theorem docRegulars_StoredTag (st : DocState) (docNum : Nat) (fs : List RegularField)
    (lens : List Nat) (tfs : List TokenFrequencies)
    (hreg : ∀ g ∈ fs, (lookupA st.seg.FieldsMap g.name).isSome)
    (hdoc : docNum < st.seg.StoredTypes.length) (fid : Nat) :
    (lookupA ((docRegulars st docNum fs lens tfs).seg.StoredTypes.getD docNum []) fid).getD [] =
      (lookupA (st.seg.StoredTypes.getD docNum []) fid).getD [] ++
        storedTags st.seg.FieldsMap fs fid := by
  induction fs generalizing st lens tfs with
  | nil => simp [docRegulars, storedTags]
  | cons g rest ih =>
    obtain ⟨v, hv⟩ := Option.isSome_iff_exists.mp (hreg g (List.mem_cons_self _ _))
    have hrest := fun g2 hg => hreg g2 (List.mem_cons_of_mem _ hg)
    have hlf : lookupFid st.seg.FieldsMap g.name = v - 1 := by
      unfold lookupFid
      rw [hv]
      rfl
    simp only [docRegulars, storedTags]
    rw [getOrDefineField_found hv, hlf]
    split <;> split <;> rename_i hst
    · refine Eq.trans (ih _ _ _ hrest ?_) ?_
      · exact Nat.lt_of_lt_of_eq hdoc (length_modifyAt st.seg.StoredTypes docNum _).symm
      · simp only [Segment.storeField, docProcessField]
        rw [getD_modifyAt_self st.seg.StoredTypes docNum hdoc]
        by_cases hfid : v - 1 = fid
        · rw [if_pos ⟨hst, hfid⟩]
          subst hfid
          rw [lookupA_setA_self]
          simp
        · rw [if_neg (fun hc => hfid hc.2)]
          rw [lookupA_setA_ne _ (fun hc => hfid hc.symm)]
          simp
    · refine Eq.trans (ih _ _ _ hrest hdoc) ?_
      rw [if_neg (fun hc => hst hc.1)]
      simp only [docProcessField]
      simp
    · refine Eq.trans (ih _ _ _ hrest ?_) ?_
      · exact Nat.lt_of_lt_of_eq hdoc (length_modifyAt st.seg.StoredTypes docNum _).symm
      · simp only [Segment.storeField, docProcessField]
        rw [getD_modifyAt_self st.seg.StoredTypes docNum hdoc]
        by_cases hfid : v - 1 = fid
        · rw [if_pos ⟨hst, hfid⟩]
          subst hfid
          rw [lookupA_setA_self]
          simp
        · rw [if_neg (fun hc => hfid hc.2)]
          rw [lookupA_setA_ne _ (fun hc => hfid hc.symm)]
          simp
    · refine Eq.trans (ih _ _ _ hrest hdoc) ?_
      rw [if_neg (fun hc => hst hc.1)]
      simp only [docProcessField]
      simp

theorem docRegulars_StoredPoss (st : DocState) (docNum : Nat) (fs : List RegularField)
    (lens : List Nat) (tfs : List TokenFrequencies)
    (hreg : ∀ g ∈ fs, (lookupA st.seg.FieldsMap g.name).isSome)
    (hdoc : docNum < st.seg.StoredPos.length) (fid : Nat) :
    (lookupA ((docRegulars st docNum fs lens tfs).seg.StoredPos.getD docNum []) fid).getD [] =
      (lookupA (st.seg.StoredPos.getD docNum []) fid).getD [] ++
        storedPoss st.seg.FieldsMap fs fid := by
  induction fs generalizing st lens tfs with
  | nil => simp [docRegulars, storedPoss]
  | cons g rest ih =>
    obtain ⟨v, hv⟩ := Option.isSome_iff_exists.mp (hreg g (List.mem_cons_self _ _))
    have hrest := fun g2 hg => hreg g2 (List.mem_cons_of_mem _ hg)
    have hlf : lookupFid st.seg.FieldsMap g.name = v - 1 := by
      unfold lookupFid
      rw [hv]
      rfl
    simp only [docRegulars, storedPoss]
    rw [getOrDefineField_found hv, hlf]
    split <;> split <;> rename_i hst
    · refine Eq.trans (ih _ _ _ hrest ?_) ?_
      · exact Nat.lt_of_lt_of_eq hdoc (length_modifyAt st.seg.StoredPos docNum _).symm
      · simp only [Segment.storeField, docProcessField]
        rw [getD_modifyAt_self st.seg.StoredPos docNum hdoc]
        by_cases hfid : v - 1 = fid
        · rw [if_pos ⟨hst, hfid⟩]
          subst hfid
          rw [lookupA_setA_self]
          simp
        · rw [if_neg (fun hc => hfid hc.2)]
          rw [lookupA_setA_ne _ (fun hc => hfid hc.symm)]
          simp
    · refine Eq.trans (ih _ _ _ hrest hdoc) ?_
      rw [if_neg (fun hc => hst hc.1)]
      simp only [docProcessField]
      simp
    · refine Eq.trans (ih _ _ _ hrest ?_) ?_
      · exact Nat.lt_of_lt_of_eq hdoc (length_modifyAt st.seg.StoredPos docNum _).symm
      · simp only [Segment.storeField, docProcessField]
        rw [getD_modifyAt_self st.seg.StoredPos docNum hdoc]
        by_cases hfid : v - 1 = fid
        · rw [if_pos ⟨hst, hfid⟩]
          subst hfid
          rw [lookupA_setA_self]
          simp
        · rw [if_neg (fun hc => hfid hc.2)]
          rw [lookupA_setA_ne _ (fun hc => hfid hc.symm)]
          simp
    · refine Eq.trans (ih _ _ _ hrest hdoc) ?_
      rw [if_neg (fun hc => hst hc.1)]
      simp only [docProcessField]
      simp

theorem docRegulars_StoredOther (st : DocState) (docNum : Nat) (fs : List RegularField)
    (lens : List Nat) (tfs : List TokenFrequencies)
    (hreg : ∀ g ∈ fs, (lookupA st.seg.FieldsMap g.name).isSome)
    (d : Nat) (hd : d ≠ docNum) :
    (docRegulars st docNum fs lens tfs).seg.Stored.getD d [] = st.seg.Stored.getD d [] := by
  induction fs generalizing st lens tfs with
  | nil => rfl
  | cons g rest ih =>
    obtain ⟨v, hv⟩ := Option.isSome_iff_exists.mp (hreg g (List.mem_cons_self _ _))
    have hrest := fun g2 hg => hreg g2 (List.mem_cons_of_mem _ hg)
    simp only [docRegulars]
    rw [getOrDefineField_found hv]
    split <;> split <;> refine Eq.trans (ih _ _ _ hrest) ?_ <;>
      first
      | rfl
      | exact getD_modifyAt_ne _ hd _ _

theorem docRegulars_StoredTypesOther (st : DocState) (docNum : Nat) (fs : List RegularField)
    (lens : List Nat) (tfs : List TokenFrequencies)
    (hreg : ∀ g ∈ fs, (lookupA st.seg.FieldsMap g.name).isSome)
    (d : Nat) (hd : d ≠ docNum) :
    (docRegulars st docNum fs lens tfs).seg.StoredTypes.getD d [] = st.seg.StoredTypes.getD d [] := by
  induction fs generalizing st lens tfs with
  | nil => rfl
  | cons g rest ih =>
    obtain ⟨v, hv⟩ := Option.isSome_iff_exists.mp (hreg g (List.mem_cons_self _ _))
    have hrest := fun g2 hg => hreg g2 (List.mem_cons_of_mem _ hg)
    simp only [docRegulars]
    rw [getOrDefineField_found hv]
    split <;> split <;> refine Eq.trans (ih _ _ _ hrest) ?_ <;>
      first
      | rfl
      | exact getD_modifyAt_ne _ hd _ _

theorem docRegulars_StoredPosOther (st : DocState) (docNum : Nat) (fs : List RegularField)
    (lens : List Nat) (tfs : List TokenFrequencies)
    (hreg : ∀ g ∈ fs, (lookupA st.seg.FieldsMap g.name).isSome)
    (d : Nat) (hd : d ≠ docNum) :
    (docRegulars st docNum fs lens tfs).seg.StoredPos.getD d [] = st.seg.StoredPos.getD d [] := by
  induction fs generalizing st lens tfs with
  | nil => rfl
  | cons g rest ih =>
    obtain ⟨v, hv⟩ := Option.isSome_iff_exists.mp (hreg g (List.mem_cons_self _ _))
    have hrest := fun g2 hg => hreg g2 (List.mem_cons_of_mem _ hg)
    simp only [docRegulars]
    rw [getOrDefineField_found hv]
    split <;> split <;> refine Eq.trans (ih _ _ _ hrest) ?_ <;>
      first
      | rfl
      | exact getD_modifyAt_ne _ hd _ _

theorem getD_of_le {β : Type} : ∀ (l : List β) (i : Nat), l.length ≤ i → ∀ d : β, l.getD i d = d
  | [], i, _, d => by cases i <;> rfl
  | x :: rest, i + 1, h, d => by
    simpa using getD_of_le rest i (by simpa using h) d

theorem getOrDefineField_Dicts_getD (s : Segment) (name : String) (i : Nat) :
    (s.getOrDefineField name).2.Dicts.getD i [] = s.Dicts.getD i [] := by
  cases hl : lookupA s.FieldsMap name with
  | some v => rw [getOrDefineField_found hl]
  | none =>
    rw [getOrDefineField_new hl]
    show (s.Dicts ++ [[]]).getD i [] = s.Dicts.getD i []
    by_cases hi : i < s.Dicts.length
    · exact getD_append_lt _ _ _ hi _
    · rw [getD_of_le s.Dicts i (by omega)]
      by_cases hi2 : i = s.Dicts.length
      · subst hi2
        exact getD_append_len _ _ _ _
      · rw [getD_of_le (s.Dicts ++ [[]]) i (by simp; omega)]

theorem getOrDefineField_WalkOK {D0 : List (List (String × Nat))} {P : Nat} {s : Segment}
    (hw : WalkOK D0 P s) (name : String) : WalkOK D0 P (s.getOrDefineField name).2 :=
  { dicts := fun i => (getOrDefineField_Dicts_getD s name i).trans (hw.dicts i)
    dlen := hw.dlen.trans (getOrDefineField_Dicts_grows s name).length_le
    plen := (getOrDefineField_Postings s name).symm ▸ hw.plen
    pllen := (getOrDefineField_PostingsLocs s name).symm ▸ hw.pllen
    flen := (getOrDefineField_Freqs s name).symm ▸ hw.flen
    nlen := (getOrDefineField_Norms s name).symm ▸ hw.nlen
    lf := (getOrDefineField_Locfields s name).symm ▸ hw.lf
    ls := (getOrDefineField_Locstarts s name).symm ▸ hw.ls
    le := (getOrDefineField_Locends s name).symm ▸ hw.le
    lp := (getOrDefineField_Locpos s name).symm ▸ hw.lp
    lap := (getOrDefineField_Locarraypos s name).symm ▸ hw.lap }

theorem locAppend_spec {D0 : List (List (String × Nat))} {P : Nat} {s : Segment}
    (hw : WalkOK D0 P s) (pid locf : Nat) (loc : Location) (hpid : pid < P) :
    WalkOK D0 P (locAppend s pid locf loc) ∧
    (∀ i, ((locAppend s pid locf loc).Locfields.getD i []).length =
      (s.Locfields.getD i []).length + if i = pid then 1 else 0) ∧
    (∀ i, ((locAppend s pid locf loc).Locstarts.getD i []).length =
      (s.Locstarts.getD i []).length + if i = pid then 1 else 0) ∧
    (∀ i, ((locAppend s pid locf loc).Locends.getD i []).length =
      (s.Locends.getD i []).length + if i = pid then 1 else 0) ∧
    (∀ i, ((locAppend s pid locf loc).Locpos.getD i []).length =
      (s.Locpos.getD i []).length + if i = pid then 1 else 0) ∧
    (∀ i, ((locAppend s pid locf loc).Locarraypos.getD i []).length =
      (s.Locarraypos.getD i []).length + if i = pid then 1 else 0) := by
  have bump : ∀ {β : Type} (l : List (List β)) (x : β), pid < l.length → ∀ i,
      ((modifyAt l pid (fun v => v ++ [x])).getD i []).length =
        (l.getD i []).length + if i = pid then 1 else 0 := by
    intro β l x hl i
    by_cases hi : i = pid
    · subst hi
      rw [getD_modifyAt_self l i hl]
      simp
    · rw [getD_modifyAt_ne l hi]
      simp [hi]
  refine ⟨?_, ?_, ?_, ?_, ?_, ?_⟩
  · exact
      { dicts := hw.dicts
        dlen := hw.dlen
        plen := hw.plen
        pllen := hw.pllen
        flen := hw.flen
        nlen := hw.nlen
        lf := by simpa [locAppend, length_modifyAt] using hw.lf
        ls := by simpa [locAppend, length_modifyAt] using hw.ls
        le := by simpa [locAppend, length_modifyAt] using hw.le
        lp := by simpa [locAppend, length_modifyAt] using hw.lp
        lap := by simpa [locAppend, length_modifyAt] using hw.lap }
  · exact bump s.Locfields _ (by rw [hw.lf]; exact hpid)
  · exact bump s.Locstarts _ (by rw [hw.ls]; exact hpid)
  · exact bump s.Locends _ (by rw [hw.le]; exact hpid)
  · exact bump s.Locpos _ (by rw [hw.lp]; exact hpid)
  · exact bump s.Locarraypos _ (by rw [hw.lap]; exact hpid)

theorem applyLocation_spec {D0 : List (List (String × Nat))} {P : Nat} {s : Segment}
    (hw : WalkOK D0 P s) (fieldID pid : Nat) (loc : Location) (hpid : pid < P) :
    WalkOK D0 P (applyLocation s fieldID pid loc) ∧
    s.FieldsMap <+: (applyLocation s fieldID pid loc).FieldsMap ∧
    (applyLocation s fieldID pid loc).Postings = s.Postings ∧
    (applyLocation s fieldID pid loc).PostingsLocs = s.PostingsLocs ∧
    (applyLocation s fieldID pid loc).Freqs = s.Freqs ∧
    (applyLocation s fieldID pid loc).Norms = s.Norms ∧
    (applyLocation s fieldID pid loc).Stored = s.Stored ∧
    (applyLocation s fieldID pid loc).StoredTypes = s.StoredTypes ∧
    (applyLocation s fieldID pid loc).StoredPos = s.StoredPos ∧
    (∀ i, ((applyLocation s fieldID pid loc).Locfields.getD i []).length =
      (s.Locfields.getD i []).length + if i = pid then 1 else 0) ∧
    (∀ i, ((applyLocation s fieldID pid loc).Locstarts.getD i []).length =
      (s.Locstarts.getD i []).length + if i = pid then 1 else 0) ∧
    (∀ i, ((applyLocation s fieldID pid loc).Locends.getD i []).length =
      (s.Locends.getD i []).length + if i = pid then 1 else 0) ∧
    (∀ i, ((applyLocation s fieldID pid loc).Locpos.getD i []).length =
      (s.Locpos.getD i []).length + if i = pid then 1 else 0) ∧
    (∀ i, ((applyLocation s fieldID pid loc).Locarraypos.getD i []).length =
      (s.Locarraypos.getD i []).length + if i = pid then 1 else 0) := by
  unfold applyLocation
  split
  · obtain ⟨w, b1, b2, b3, b4, b5⟩ :=
      locAppend_spec (getOrDefineField_WalkOK hw loc.field) pid
        (s.getOrDefineField loc.field).1 loc hpid
    refine ⟨w, ?_, ?_, ?_, ?_, ?_, ?_, ?_, ?_, ?_, ?_, ?_, ?_, ?_⟩
    · exact (getOrDefineField_FieldsMap_grows s loc.field).trans (List.prefix_refl _)
    · exact getOrDefineField_Postings s loc.field
    · exact getOrDefineField_PostingsLocs s loc.field
    · exact getOrDefineField_Freqs s loc.field
    · exact getOrDefineField_Norms s loc.field
    · exact getOrDefineField_Stored s loc.field
    · exact getOrDefineField_StoredTypes s loc.field
    · exact getOrDefineField_StoredPos s loc.field
    · intro i
      rw [b1 i, getOrDefineField_Locfields s loc.field]
    · intro i
      rw [b2 i, getOrDefineField_Locstarts s loc.field]
    · intro i
      rw [b3 i, getOrDefineField_Locends s loc.field]
    · intro i
      rw [b4 i, getOrDefineField_Locpos s loc.field]
    · intro i
      rw [b5 i, getOrDefineField_Locarraypos s loc.field]
  · obtain ⟨w, b1, b2, b3, b4, b5⟩ := locAppend_spec hw pid fieldID loc hpid
    exact ⟨w, List.prefix_refl _, rfl, rfl, rfl, rfl, rfl, rfl, rfl, b1, b2, b3, b4, b5⟩

theorem applyLocations_spec {D0 : List (List (String × Nat))} {P : Nat} {s : Segment}
    (hw : WalkOK D0 P s) (fieldID pid : Nat) (locs : List Location) (hpid : pid < P) :
    WalkOK D0 P (applyLocations s fieldID pid locs) ∧
    s.FieldsMap <+: (applyLocations s fieldID pid locs).FieldsMap ∧
    (applyLocations s fieldID pid locs).Postings = s.Postings ∧
    (applyLocations s fieldID pid locs).PostingsLocs = s.PostingsLocs ∧
    (applyLocations s fieldID pid locs).Freqs = s.Freqs ∧
    (applyLocations s fieldID pid locs).Norms = s.Norms ∧
    (applyLocations s fieldID pid locs).Stored = s.Stored ∧
    (applyLocations s fieldID pid locs).StoredTypes = s.StoredTypes ∧
    (applyLocations s fieldID pid locs).StoredPos = s.StoredPos ∧
    (∀ i, ((applyLocations s fieldID pid locs).Locfields.getD i []).length =
      (s.Locfields.getD i []).length + if i = pid then locs.length else 0) ∧
    (∀ i, ((applyLocations s fieldID pid locs).Locstarts.getD i []).length =
      (s.Locstarts.getD i []).length + if i = pid then locs.length else 0) ∧
    (∀ i, ((applyLocations s fieldID pid locs).Locends.getD i []).length =
      (s.Locends.getD i []).length + if i = pid then locs.length else 0) ∧
    (∀ i, ((applyLocations s fieldID pid locs).Locpos.getD i []).length =
      (s.Locpos.getD i []).length + if i = pid then locs.length else 0) ∧
    (∀ i, ((applyLocations s fieldID pid locs).Locarraypos.getD i []).length =
      (s.Locarraypos.getD i []).length + if i = pid then locs.length else 0) := by
  induction locs generalizing s with
  | nil =>
    exact ⟨hw, List.prefix_refl _, rfl, rfl, rfl, rfl, rfl, rfl, rfl,
      fun i => by simp [applyLocations], fun i => by simp [applyLocations],
      fun i => by simp [applyLocations], fun i => by simp [applyLocations],
      fun i => by simp [applyLocations]⟩
  | cons loc rest ih =>
    simp only [applyLocations]
    obtain ⟨w1, p1, e1, e2, e3, e4, e5, e6, e7, c1, c2, c3, c4, c5⟩ :=
      applyLocation_spec hw fieldID pid loc hpid
    obtain ⟨w2, p2, f1, f2, f3, f4, f5, f6, f7, d1, d2, d3, d4, d5⟩ :=
      ih w1
    refine ⟨w2, p1.trans p2, f1.trans e1, f2.trans e2, f3.trans e3, f4.trans e4,
      f5.trans e5, f6.trans e6, f7.trans e7, ?_, ?_, ?_, ?_, ?_⟩ <;>
      intro i <;> by_cases hi : i = pid
    · rw [d1 i, c1 i, if_pos hi, if_pos hi, if_pos hi]
      simp +arith [List.length_cons]
    · rw [d1 i, c1 i, if_neg hi, if_neg hi, if_neg hi]
    · rw [d2 i, c2 i, if_pos hi, if_pos hi, if_pos hi]
      simp +arith [List.length_cons]
    · rw [d2 i, c2 i, if_neg hi, if_neg hi, if_neg hi]
    · rw [d3 i, c3 i, if_pos hi, if_pos hi, if_pos hi]
      simp +arith [List.length_cons]
    · rw [d3 i, c3 i, if_neg hi, if_neg hi, if_neg hi]
    · rw [d4 i, c4 i, if_pos hi, if_pos hi, if_pos hi]
      simp +arith [List.length_cons]
    · rw [d4 i, c4 i, if_neg hi, if_neg hi, if_neg hi]
    · rw [d5 i, c5 i, if_pos hi, if_pos hi, if_pos hi]
      simp +arith [List.length_cons]
    · rw [d5 i, c5 i, if_neg hi, if_neg hi, if_neg hi]

theorem applyTokenFreq_spec {D0 : List (List (String × Nat))} {P : Nat} {s : Segment}
    (hw : WalkOK D0 P s) (docNum fieldID fieldLen : Nat) (q : TokenFreq) (term : String)
    {o : Nat} (ho : lookupA (D0.getD fieldID []) term = some o) (hoP : o - 1 < P) :
    WalkOK D0 P (applyTokenFreq s docNum fieldID fieldLen q term) ∧
    s.FieldsMap <+: (applyTokenFreq s docNum fieldID fieldLen q term).FieldsMap ∧
    (applyTokenFreq s docNum fieldID fieldLen q term).Postings =
      modifyAt s.Postings (o - 1) (fun b => bmAdd b docNum) ∧
    (applyTokenFreq s docNum fieldID fieldLen q term).Freqs =
      modifyAt s.Freqs (o - 1) (fun l => l ++ [q.frequency]) ∧
    (applyTokenFreq s docNum fieldID fieldLen q term).Norms =
      modifyAt s.Norms (o - 1) (fun l => l ++ [NormVal.mk fieldLen]) ∧
    (applyTokenFreq s docNum fieldID fieldLen q term).PostingsLocs =
      (if q.locations.isEmpty then s.PostingsLocs
        else modifyAt s.PostingsLocs (o - 1) (fun b => bmAdd b docNum)) ∧
    (applyTokenFreq s docNum fieldID fieldLen q term).Stored = s.Stored ∧
    (applyTokenFreq s docNum fieldID fieldLen q term).StoredTypes = s.StoredTypes ∧
    (applyTokenFreq s docNum fieldID fieldLen q term).StoredPos = s.StoredPos ∧
    (∀ i, ((applyTokenFreq s docNum fieldID fieldLen q term).Locfields.getD i []).length =
      (s.Locfields.getD i []).length + if i = o - 1 then q.locations.length else 0) ∧
    (∀ i, ((applyTokenFreq s docNum fieldID fieldLen q term).Locstarts.getD i []).length =
      (s.Locstarts.getD i []).length + if i = o - 1 then q.locations.length else 0) ∧
    (∀ i, ((applyTokenFreq s docNum fieldID fieldLen q term).Locends.getD i []).length =
      (s.Locends.getD i []).length + if i = o - 1 then q.locations.length else 0) ∧
    (∀ i, ((applyTokenFreq s docNum fieldID fieldLen q term).Locpos.getD i []).length =
      (s.Locpos.getD i []).length + if i = o - 1 then q.locations.length else 0) ∧
    (∀ i, ((applyTokenFreq s docNum fieldID fieldLen q term).Locarraypos.getD i []).length =
      (s.Locarraypos.getD i []).length + if i = o - 1 then q.locations.length else 0) := by
  have hpid_eq : (lookupA (s.Dicts.getD fieldID []) term).getD 0 = o := by
    rw [hw.dicts fieldID, ho]
    rfl
  unfold applyTokenFreq
  rw [hpid_eq]
  split
  · rename_i hempty
    have hloc : q.locations = [] := List.isEmpty_iff.mp hempty
    refine ⟨?_, List.prefix_refl _, rfl, rfl, rfl, rfl, rfl, rfl, rfl,
      fun i => by simp [hloc], fun i => by simp [hloc], fun i => by simp [hloc],
      fun i => by simp [hloc], fun i => by simp [hloc]⟩
    exact
      { dicts := hw.dicts
        dlen := hw.dlen
        plen := by simpa [length_modifyAt] using hw.plen
        pllen := hw.pllen
        flen := by simpa [length_modifyAt] using hw.flen
        nlen := by simpa [length_modifyAt] using hw.nlen
        lf := hw.lf
        ls := hw.ls
        le := hw.le
        lp := hw.lp
        lap := hw.lap }
  · rename_i hempty
    have hw2 : WalkOK D0 P
        { s with
          Postings := modifyAt s.Postings (o - 1) (fun b => bmAdd b docNum)
          Freqs := modifyAt s.Freqs (o - 1) (fun l => l ++ [q.frequency])
          Norms := modifyAt s.Norms (o - 1) (fun l => l ++ [NormVal.mk fieldLen])
          PostingsLocs := modifyAt s.PostingsLocs (o - 1) (fun b => bmAdd b docNum) } :=
      { dicts := hw.dicts
        dlen := hw.dlen
        plen := by simpa [length_modifyAt] using hw.plen
        pllen := by simpa [length_modifyAt] using hw.pllen
        flen := by simpa [length_modifyAt] using hw.flen
        nlen := by simpa [length_modifyAt] using hw.nlen
        lf := hw.lf
        ls := hw.ls
        le := hw.le
        lp := hw.lp
        lap := hw.lap }
    obtain ⟨w, hpre, e1, e2, e3, e4, e5, e6, e7, c1, c2, c3, c4, c5⟩ :=
      applyLocations_spec hw2 fieldID (o - 1) q.locations hoP
    exact ⟨w, hpre, e1, e3, e4, e2, e5, e6, e7, c1, c2, c3, c4, c5⟩

theorem applyTerms_spec {D0 : List (List (String × Nat))} {P : Nat} {s : Segment}
    (hw : WalkOK D0 P s) (docNum fieldID fieldLen : Nat) (tf : TokenFrequencies)
    (hkeys : (tf.map Prod.fst).Nodup)
    (hlook : ∀ p ∈ tf, ∃ o, lookupA (D0.getD fieldID []) p.1 = some o ∧ o - 1 < P)
    (hinj : ∀ p1 ∈ tf, ∀ p2 ∈ tf, ∀ o1 o2, lookupA (D0.getD fieldID []) p1.1 = some o1 →
      lookupA (D0.getD fieldID []) p2.1 = some o2 → o1 - 1 = o2 - 1 → p1.1 = p2.1) :
    WalkOK D0 P (applyTerms s docNum fieldID fieldLen tf) ∧
    s.FieldsMap <+: (applyTerms s docNum fieldID fieldLen tf).FieldsMap ∧
    (applyTerms s docNum fieldID fieldLen tf).Stored = s.Stored ∧
    (applyTerms s docNum fieldID fieldLen tf).StoredTypes = s.StoredTypes ∧
    (applyTerms s docNum fieldID fieldLen tf).StoredPos = s.StoredPos ∧
    (∀ p ∈ tf, ∀ o, lookupA (D0.getD fieldID []) p.1 = some o →
      (applyTerms s docNum fieldID fieldLen tf).Postings.getD (o - 1) [] =
          bmAdd (s.Postings.getD (o - 1) []) docNum ∧
        (applyTerms s docNum fieldID fieldLen tf).Freqs.getD (o - 1) [] =
          s.Freqs.getD (o - 1) [] ++ [(p.2 : TokenFreq).frequency] ∧
        (applyTerms s docNum fieldID fieldLen tf).Norms.getD (o - 1) [] =
          s.Norms.getD (o - 1) [] ++ [NormVal.mk fieldLen] ∧
        (applyTerms s docNum fieldID fieldLen tf).PostingsLocs.getD (o - 1) [] =
          (if (p.2 : TokenFreq).locations.isEmpty then s.PostingsLocs.getD (o - 1) []
            else bmAdd (s.PostingsLocs.getD (o - 1) []) docNum) ∧
        ((applyTerms s docNum fieldID fieldLen tf).Locfields.getD (o - 1) []).length =
          (s.Locfields.getD (o - 1) []).length + (p.2 : TokenFreq).locations.length ∧
        ((applyTerms s docNum fieldID fieldLen tf).Locstarts.getD (o - 1) []).length =
          (s.Locstarts.getD (o - 1) []).length + (p.2 : TokenFreq).locations.length ∧
        ((applyTerms s docNum fieldID fieldLen tf).Locends.getD (o - 1) []).length =
          (s.Locends.getD (o - 1) []).length + (p.2 : TokenFreq).locations.length ∧
        ((applyTerms s docNum fieldID fieldLen tf).Locpos.getD (o - 1) []).length =
          (s.Locpos.getD (o - 1) []).length + (p.2 : TokenFreq).locations.length ∧
        ((applyTerms s docNum fieldID fieldLen tf).Locarraypos.getD (o - 1) []).length =
          (s.Locarraypos.getD (o - 1) []).length + (p.2 : TokenFreq).locations.length) ∧
    (∀ i, i < P → (∀ p ∈ tf, ∀ o, lookupA (D0.getD fieldID []) p.1 = some o → o - 1 ≠ i) →
      (applyTerms s docNum fieldID fieldLen tf).Postings.getD i [] = s.Postings.getD i [] ∧
        (applyTerms s docNum fieldID fieldLen tf).Freqs.getD i [] = s.Freqs.getD i [] ∧
        (applyTerms s docNum fieldID fieldLen tf).Norms.getD i [] = s.Norms.getD i [] ∧
        (applyTerms s docNum fieldID fieldLen tf).PostingsLocs.getD i [] =
          s.PostingsLocs.getD i [] ∧
        ((applyTerms s docNum fieldID fieldLen tf).Locfields.getD i []).length =
          (s.Locfields.getD i []).length ∧
        ((applyTerms s docNum fieldID fieldLen tf).Locstarts.getD i []).length =
          (s.Locstarts.getD i []).length ∧
        ((applyTerms s docNum fieldID fieldLen tf).Locends.getD i []).length =
          (s.Locends.getD i []).length ∧
        ((applyTerms s docNum fieldID fieldLen tf).Locpos.getD i []).length =
          (s.Locpos.getD i []).length ∧
        ((applyTerms s docNum fieldID fieldLen tf).Locarraypos.getD i []).length =
          (s.Locarraypos.getD i []).length) := by
  induction tf generalizing s with
  | nil =>
    refine ⟨hw, List.prefix_refl _, rfl, rfl, rfl, ?_, ?_⟩
    · intro p hp
      simp at hp
    · intro i _ _
      exact ⟨rfl, rfl, rfl, rfl, rfl, rfl, rfl, rfl, rfl⟩
  | cons p0 rest ih =>
    obtain ⟨t0, q0⟩ := p0
    obtain ⟨o0, ho0, ho0P⟩ := hlook (t0, q0) (List.mem_cons_self _ _)
    obtain ⟨w1, pre1, m1, m2, m3, m4, st1, st2, st3, c1, c2, c3, c4, c5⟩ :=
      applyTokenFreq_spec hw docNum fieldID fieldLen q0 t0 ho0 ho0P
    have hkeys' : (rest.map Prod.fst).Nodup := (List.nodup_cons.mp (by simpa using hkeys)).2
    have ht0 : t0 ∉ rest.map Prod.fst := (List.nodup_cons.mp (by simpa using hkeys)).1
    have hlook' : ∀ p ∈ rest, ∃ o, lookupA (D0.getD fieldID []) p.1 = some o ∧ o - 1 < P :=
      fun p hp => hlook p (List.mem_cons_of_mem _ hp)
    have hinj' : ∀ p1 ∈ rest, ∀ p2 ∈ rest, ∀ o1 o2,
        lookupA (D0.getD fieldID []) p1.1 = some o1 →
        lookupA (D0.getD fieldID []) p2.1 = some o2 → o1 - 1 = o2 - 1 → p1.1 = p2.1 :=
      fun p1 h1 p2 h2 => hinj p1 (List.mem_cons_of_mem _ h1) p2 (List.mem_cons_of_mem _ h2)
    have hne0 : ∀ p ∈ rest, ∀ o, lookupA (D0.getD fieldID []) p.1 = some o →
        o - 1 ≠ o0 - 1 := by
      intro p hp o ho heq
      have := hinj p (List.mem_cons_of_mem _ hp) (t0, q0) (List.mem_cons_self _ _) o o0 ho ho0 heq
      exact ht0 (List.mem_map.mpr ⟨p, hp, this⟩)
    obtain ⟨w2, pre2, sr1, sr2, sr3, htouch, huntouch⟩ := ih w1 hkeys' hlook' hinj'
    simp only [applyTerms]
    refine ⟨w2, pre1.trans pre2, sr1.trans st1, sr2.trans st2, sr3.trans st3, ?_, ?_⟩
    · intro p hp o ho
      rcases List.mem_cons.mp hp with rfl | hp
      · have ho0' : o = o0 := by
          rw [ho] at ho0
          injection ho0
        subst ho0'
        obtain ⟨u1, u2, u3, u4, u5, u6, u7, u8, u9⟩ := huntouch (o - 1) ho0P hne0
        refine ⟨?_, ?_, ?_, ?_, ?_, ?_, ?_, ?_, ?_⟩
        · rw [u1, m1, getD_modifyAt_self s.Postings (o - 1) (by rw [hw.plen]; exact ho0P)]
        · rw [u2, m2, getD_modifyAt_self s.Freqs (o - 1) (by rw [hw.flen]; exact ho0P)]
        · rw [u3, m3, getD_modifyAt_self s.Norms (o - 1) (by rw [hw.nlen]; exact ho0P)]
        · rw [u4, m4]
          by_cases hq : q0.locations.isEmpty
          · rw [if_pos hq, if_pos hq]
          · rw [if_neg hq, if_neg hq,
              getD_modifyAt_self s.PostingsLocs (o - 1) (by rw [hw.pllen]; exact ho0P)]
        · rw [u5, c1 (o - 1), if_pos rfl]
        · rw [u6, c2 (o - 1), if_pos rfl]
        · rw [u7, c3 (o - 1), if_pos rfl]
        · rw [u8, c4 (o - 1), if_pos rfl]
        · rw [u9, c5 (o - 1), if_pos rfl]
      · have hne : o - 1 ≠ o0 - 1 := hne0 p hp o ho
        obtain ⟨v1, v2, v3, v4, v5, v6, v7, v8, v9⟩ := htouch p hp o ho
        refine ⟨?_, ?_, ?_, ?_, ?_, ?_, ?_, ?_, ?_⟩
        · rw [v1, m1, getD_modifyAt_ne s.Postings hne]
        · rw [v2, m2, getD_modifyAt_ne s.Freqs hne]
        · rw [v3, m3, getD_modifyAt_ne s.Norms hne]
        · rw [v4, m4]
          by_cases hq : q0.locations.isEmpty
          · rw [if_pos hq]
          · rw [if_neg hq, getD_modifyAt_ne s.PostingsLocs hne]
        · rw [v5, c1 (o - 1)]
          simp [hne]
        · rw [v6, c2 (o - 1)]
          simp [hne]
        · rw [v7, c3 (o - 1)]
          simp [hne]
        · rw [v8, c4 (o - 1)]
          simp [hne]
        · rw [v9, c5 (o - 1)]
          simp [hne]
    · intro i hi hno
      have hne : o0 - 1 ≠ i := hno (t0, q0) (List.mem_cons_self _ _) o0 ho0
      obtain ⟨u1, u2, u3, u4, u5, u6, u7, u8, u9⟩ := huntouch i hi
        (fun p hp o ho => hno p (List.mem_cons_of_mem _ hp) o ho)
      refine ⟨?_, ?_, ?_, ?_, ?_, ?_, ?_, ?_, ?_⟩
      · rw [u1, m1, getD_modifyAt_ne s.Postings (Ne.symm hne)]
      · rw [u2, m2, getD_modifyAt_ne s.Freqs (Ne.symm hne)]
      · rw [u3, m3, getD_modifyAt_ne s.Norms (Ne.symm hne)]
      · rw [u4, m4]
        by_cases hq : q0.locations.isEmpty
        · rw [if_pos hq]
        · rw [if_neg hq, getD_modifyAt_ne s.PostingsLocs (Ne.symm hne)]
      · rw [u5, c1 i]
        simp [Ne.symm hne]
      · rw [u6, c2 i]
        simp [Ne.symm hne]
      · rw [u7, c3 i]
        simp [Ne.symm hne]
      · rw [u8, c4 i]
        simp [Ne.symm hne]
      · rw [u9, c5 i]
        simp [Ne.symm hne]

theorem applyDocMap_spec {D0 : List (List (String × Nat))} {P : Nat} {s : Segment}
    (hw : WalkOK D0 P s) (docNum : Nat) (dm : List (Nat × TokenFrequencies))
    (fieldLens : List (Nat × Nat))
    (hkeys : (dm.map Prod.fst).Nodup)
    (htkeys : ∀ p ∈ dm, ((p.2 : TokenFrequencies).map Prod.fst).Nodup)
    (hlook : ∀ p ∈ dm, ∀ q ∈ (p.2 : TokenFrequencies),
      ∃ o, lookupA (D0.getD p.1 []) (q : String × TokenFreq).1 = some o ∧ o - 1 < P)
    (hinj : ∀ p1 ∈ dm, ∀ q1 ∈ (p1.2 : TokenFrequencies), ∀ p2 ∈ dm,
      ∀ q2 ∈ (p2.2 : TokenFrequencies), ∀ o1 o2,
      lookupA (D0.getD p1.1 []) (q1 : String × TokenFreq).1 = some o1 →
      lookupA (D0.getD p2.1 []) (q2 : String × TokenFreq).1 = some o2 →
      o1 - 1 = o2 - 1 → p1.1 = p2.1 ∧ (q1 : String × TokenFreq).1 = q2.1) :
    WalkOK D0 P (applyDocMap s docNum dm fieldLens) ∧
    s.FieldsMap <+: (applyDocMap s docNum dm fieldLens).FieldsMap ∧
    (applyDocMap s docNum dm fieldLens).Stored = s.Stored ∧
    (applyDocMap s docNum dm fieldLens).StoredTypes = s.StoredTypes ∧
    (applyDocMap s docNum dm fieldLens).StoredPos = s.StoredPos ∧
    (∀ p ∈ dm, ∀ q ∈ (p.2 : TokenFrequencies), ∀ o,
      lookupA (D0.getD p.1 []) (q : String × TokenFreq).1 = some o →
      (applyDocMap s docNum dm fieldLens).Postings.getD (o - 1) [] =
          bmAdd (s.Postings.getD (o - 1) []) docNum ∧
        (applyDocMap s docNum dm fieldLens).Freqs.getD (o - 1) [] =
          s.Freqs.getD (o - 1) [] ++ [(q : String × TokenFreq).2.frequency] ∧
        (applyDocMap s docNum dm fieldLens).Norms.getD (o - 1) [] =
          s.Norms.getD (o - 1) [] ++ [NormVal.mk ((lookupA fieldLens p.1).getD 0)] ∧
        (applyDocMap s docNum dm fieldLens).PostingsLocs.getD (o - 1) [] =
          (if (q : String × TokenFreq).2.locations.isEmpty then
            s.PostingsLocs.getD (o - 1) []
          else bmAdd (s.PostingsLocs.getD (o - 1) []) docNum) ∧
        ((applyDocMap s docNum dm fieldLens).Locfields.getD (o - 1) []).length =
          (s.Locfields.getD (o - 1) []).length + (q : String × TokenFreq).2.locations.length ∧
        ((applyDocMap s docNum dm fieldLens).Locstarts.getD (o - 1) []).length =
          (s.Locstarts.getD (o - 1) []).length + (q : String × TokenFreq).2.locations.length ∧
        ((applyDocMap s docNum dm fieldLens).Locends.getD (o - 1) []).length =
          (s.Locends.getD (o - 1) []).length + (q : String × TokenFreq).2.locations.length ∧
        ((applyDocMap s docNum dm fieldLens).Locpos.getD (o - 1) []).length =
          (s.Locpos.getD (o - 1) []).length + (q : String × TokenFreq).2.locations.length ∧
        ((applyDocMap s docNum dm fieldLens).Locarraypos.getD (o - 1) []).length =
          (s.Locarraypos.getD (o - 1) []).length + (q : String × TokenFreq).2.locations.length) ∧
    (∀ i, i < P → (∀ p ∈ dm, ∀ q ∈ (p.2 : TokenFrequencies), ∀ o,
        lookupA (D0.getD p.1 []) (q : String × TokenFreq).1 = some o → o - 1 ≠ i) →
      (applyDocMap s docNum dm fieldLens).Postings.getD i [] = s.Postings.getD i [] ∧
        (applyDocMap s docNum dm fieldLens).Freqs.getD i [] = s.Freqs.getD i [] ∧
        (applyDocMap s docNum dm fieldLens).Norms.getD i [] = s.Norms.getD i [] ∧
        (applyDocMap s docNum dm fieldLens).PostingsLocs.getD i [] =
          s.PostingsLocs.getD i [] ∧
        ((applyDocMap s docNum dm fieldLens).Locfields.getD i []).length =
          (s.Locfields.getD i []).length ∧
        ((applyDocMap s docNum dm fieldLens).Locstarts.getD i []).length =
          (s.Locstarts.getD i []).length ∧
        ((applyDocMap s docNum dm fieldLens).Locends.getD i []).length =
          (s.Locends.getD i []).length ∧
        ((applyDocMap s docNum dm fieldLens).Locpos.getD i []).length =
          (s.Locpos.getD i []).length ∧
        ((applyDocMap s docNum dm fieldLens).Locarraypos.getD i []).length =
          (s.Locarraypos.getD i []).length) := by
  induction dm generalizing s with
  | nil =>
    refine ⟨hw, List.prefix_refl _, rfl, rfl, rfl, ?_, ?_⟩
    · intro p hp
      simp at hp
    · intro i _ _
      exact ⟨rfl, rfl, rfl, rfl, rfl, rfl, rfl, rfl, rfl⟩
  | cons p0 rest ih =>
    obtain ⟨fid0, tf0⟩ := p0
    have hfid0 : fid0 ∉ rest.map Prod.fst := (List.nodup_cons.mp (by simpa using hkeys)).1
    obtain ⟨w1, pre1, st1, st2, st3, htouch1, huntouch1⟩ :=
      applyTerms_spec hw docNum fid0 ((lookupA fieldLens fid0).getD 0) tf0
        (htkeys (fid0, tf0) (List.mem_cons_self _ _))
        (fun q hq => hlook (fid0, tf0) (List.mem_cons_self _ _) q hq)
        (fun q1 h1 q2 h2 o1 o2 e1 e2 he =>
          (hinj (fid0, tf0) (List.mem_cons_self _ _) q1 h1 (fid0, tf0)
            (List.mem_cons_self _ _) q2 h2 o1 o2 e1 e2 he).2)
    obtain ⟨w2, pre2, sr1, sr2, sr3, htouch2, huntouch2⟩ := ih w1
      (List.nodup_cons.mp (by simpa using hkeys)).2
      (fun p hp => htkeys p (List.mem_cons_of_mem _ hp))
      (fun p hp q hq => hlook p (List.mem_cons_of_mem _ hp) q hq)
      (fun p1 h1 q1 hq1 p2 h2 q2 hq2 =>
        hinj p1 (List.mem_cons_of_mem _ h1) q1 hq1 p2 (List.mem_cons_of_mem _ h2) q2 hq2)
    simp only [applyDocMap]
    refine ⟨w2, pre1.trans pre2, sr1.trans st1, sr2.trans st2, sr3.trans st3, ?_, ?_⟩
    · intro p hp q hq o ho
      rcases List.mem_cons.mp hp with rfl | hp
      · obtain ⟨o', ho', hoP'⟩ := hlook (fid0, tf0) (List.mem_cons_self _ _) q hq
        have hoo : o' = o := by
          rw [ho] at ho'
          injection ho' with h
          exact h.symm
        subst hoo
        have hrestne : ∀ p' ∈ rest, ∀ q' ∈ (p'.2 : TokenFrequencies), ∀ o'',
            lookupA (D0.getD p'.1 []) (q' : String × TokenFreq).1 = some o'' →
            o'' - 1 ≠ o' - 1 := by
          intro p' hp' q' hq' o'' ho'' heq
          have := (hinj p' (List.mem_cons_of_mem _ hp') q' hq' (fid0, tf0)
            (List.mem_cons_self _ _) q hq o'' o' ho'' ho heq).1
          exact hfid0 (List.mem_map.mpr ⟨p', hp', this⟩)
        obtain ⟨u1, u2, u3, u4, u5, u6, u7, u8, u9⟩ := huntouch2 (o' - 1) hoP' hrestne
        obtain ⟨t1, t2, t3, t4, t5, t6, t7, t8, t9⟩ := htouch1 q hq o' ho
        exact ⟨u1.trans t1, u2.trans t2, u3.trans t3, u4.trans t4, u5.trans t5,
          u6.trans t6, u7.trans t7, u8.trans t8, u9.trans t9⟩
      · obtain ⟨o', ho', hoP'⟩ := hlook p (List.mem_cons_of_mem _ hp) q hq
        have hoo : o' = o := by
          rw [ho] at ho'
          injection ho' with h
          exact h.symm
        subst hoo
        have hheadne : ∀ q' ∈ tf0, ∀ o'',
            lookupA (D0.getD fid0 []) (q' : String × TokenFreq).1 = some o'' →
            o'' - 1 ≠ o' - 1 := by
          intro q' hq' o'' ho'' heq
          have := (hinj (fid0, tf0) (List.mem_cons_self _ _) q' hq' p
            (List.mem_cons_of_mem _ hp) q hq o'' o' ho'' ho heq).1
          exact hfid0 (List.mem_map.mpr ⟨p, hp, this.symm⟩)
        obtain ⟨u1, u2, u3, u4, u5, u6, u7, u8, u9⟩ := huntouch1 (o' - 1) hoP' hheadne
        obtain ⟨v1, v2, v3, v4, v5, v6, v7, v8, v9⟩ := htouch2 p hp q hq o' ho
        refine ⟨?_, ?_, ?_, ?_, ?_, ?_, ?_, ?_, ?_⟩
        · rw [v1, u1]
        · rw [v2, u2]
        · rw [v3, u3]
        · rw [v4, u4]
        · rw [v5, u5]
        · rw [v6, u6]
        · rw [v7, u7]
        · rw [v8, u8]
        · rw [v9, u9]
    · intro i hi hno
      obtain ⟨u1, u2, u3, u4, u5, u6, u7, u8, u9⟩ := huntouch1 i hi
        (fun q hq o ho => hno (fid0, tf0) (List.mem_cons_self _ _) q hq o ho)
      obtain ⟨v1, v2, v3, v4, v5, v6, v7, v8, v9⟩ := huntouch2 i hi
        (fun p hp q hq o ho => hno p (List.mem_cons_of_mem _ hp) q hq o ho)
      exact ⟨v1.trans u1, v2.trans u2, v3.trans u3, v4.trans u4, v5.trans u5,
        v6.trans u6, v7.trans u7, v8.trans u8, v9.trans u9⟩

theorem lookupFid_congr {fm fm2 : List (String × Nat)} (h : fm <+: fm2) {name : String}
    (hs : (lookupA fm name).isSome) : lookupFid fm2 name = lookupFid fm name := by
  obtain ⟨v, hv⟩ := Option.isSome_iff_exists.mp hs
  unfold lookupFid
  rw [hv, lookupA_mono h hv]

theorem regTriples_congr {fm fm2 : List (String × Nat)} (h : fm <+: fm2)
    (fs : List RegularField) (lens : List Nat) (tfs : List TokenFrequencies)
    (hreg : ∀ g ∈ fs, (lookupA fm g.name).isSome) :
    regTriples fm2 fs lens tfs = regTriples fm fs lens tfs := by
  induction fs generalizing lens tfs with
  | nil => rfl
  | cons g rest ih =>
    simp only [regTriples]
    rw [lookupFid_congr h (hreg g (List.mem_cons_self _ _)),
      ih _ _ (fun g2 hg => hreg g2 (List.mem_cons_of_mem _ hg))]

theorem docTriples_congr {fm fm2 : List (String × Nat)} (h : fm <+: fm2) (r : AnalysisResult)
    (hcreg : ∀ f ∈ r.document.compositeFields, (lookupA fm f.name).isSome)
    (hrreg : ∀ g ∈ r.document.fields, (lookupA fm g.name).isSome) :
    docTriples fm2 r = docTriples fm r := by
  unfold docTriples
  rw [regTriples_congr h _ _ _ hrreg]
  congr 1
  refine List.map_congr_left ?_
  intro f hf
  rw [lookupFid_congr h (hcreg f hf)]

theorem storedVals_congr {fm fm2 : List (String × Nat)} (h : fm <+: fm2)
    (fs : List RegularField) (fid : Nat)
    (hreg : ∀ g ∈ fs, (lookupA fm g.name).isSome) :
    storedVals fm2 fs fid = storedVals fm fs fid := by
  induction fs with
  | nil => rfl
  | cons g rest ih =>
    simp only [storedVals]
    rw [lookupFid_congr h (hreg g (List.mem_cons_self _ _)),
      ih (fun g2 hg => hreg g2 (List.mem_cons_of_mem _ hg))]

theorem storedTags_congr {fm fm2 : List (String × Nat)} (h : fm <+: fm2)
    (fs : List RegularField) (fid : Nat)
    (hreg : ∀ g ∈ fs, (lookupA fm g.name).isSome) :
    storedTags fm2 fs fid = storedTags fm fs fid := by
  induction fs with
  | nil => rfl
  | cons g rest ih =>
    simp only [storedTags]
    rw [lookupFid_congr h (hreg g (List.mem_cons_self _ _)),
      ih (fun g2 hg => hreg g2 (List.mem_cons_of_mem _ hg))]

theorem storedPoss_congr {fm fm2 : List (String × Nat)} (h : fm <+: fm2)
    (fs : List RegularField) (fid : Nat)
    (hreg : ∀ g ∈ fs, (lookupA fm g.name).isSome) :
    storedPoss fm2 fs fid = storedPoss fm fs fid := by
  induction fs with
  | nil => rfl
  | cons g rest ih =>
    simp only [storedPoss]
    rw [lookupFid_congr h (hreg g (List.mem_cons_self _ _)),
      ih (fun g2 hg => hreg g2 (List.mem_cons_of_mem _ hg))]

theorem result_names_mem {results : List AnalysisResult} {r : AnalysisResult} (hr : r ∈ results) :
    (∀ f ∈ r.document.compositeFields, f.name ∈ batchNames results) ∧
    (∀ g ∈ r.document.fields, g.name ∈ batchNames results) := by
  constructor
  · intro f hf
    exact List.mem_flatten.mpr ⟨_, List.mem_map.mpr ⟨r, hr, rfl⟩,
      List.mem_append.mpr (Or.inl (List.mem_map.mpr ⟨f, hf, rfl⟩))⟩
  · intro g hg
    exact List.mem_flatten.mpr ⟨_, List.mem_map.mpr ⟨r, hr, rfl⟩,
      List.mem_append.mpr (Or.inr (List.mem_map.mpr ⟨g, hg, rfl⟩))⟩

theorem regPairs_name {fs : List RegularField} {tfs : List TokenFrequencies} {p : String × String}
    (h : p ∈ regPairs fs tfs) : p.1 ∈ fs.map RegularField.name := by
  induction fs generalizing tfs with
  | nil => simp [regPairs] at h
  | cons f rest ih =>
    simp only [regPairs] at h
    rcases List.mem_append.mp h with h | h
    · obtain ⟨q, _, hpq⟩ := List.mem_map.mp h
      rw [← hpq]
      exact List.mem_cons_self _ _
    · exact List.mem_cons_of_mem _ (ih h)

theorem batchPairs_name {results : List AnalysisResult} {p : String × String}
    (h : p ∈ batchPairs results) : p.1 ∈ batchNames results := by
  obtain ⟨l, hl, hp⟩ := List.mem_flatten.mp h
  obtain ⟨r, hr, rfl⟩ := List.mem_map.mp hl
  unfold resultPairs at hp
  rcases List.mem_append.mp hp with h2 | h2
  · obtain ⟨l2, hl2, hp2⟩ := List.mem_flatten.mp h2
    obtain ⟨f, hf, rfl⟩ := List.mem_map.mp hl2
    obtain ⟨q, _, hpq⟩ := List.mem_map.mp hp2
    rw [← hpq]
    exact (result_names_mem hr).1 f hf
  · have := regPairs_name h2
    obtain ⟨g, hg, hname⟩ := List.mem_map.mp this
    rw [← hname]
    exact (result_names_mem hr).2 g hg

theorem fidAt_inv {results : List AnalysisResult} {pid : Nat}
    (hpid : pid < (pairScan results).length) :
    (dictSegment results).FieldsInv.getD (fidAt results pid) "" = (pairAt results pid).1 ∧
    fidAt results pid < (dictSegment results).FieldsInv.length := by
  have hmem : pairAt results pid ∈ pairScan results := getD_mem hpid _
  have hname : (pairAt results pid).1 ∈ batchNames results :=
    batchPairs_name (mem_pairScan.mp hmem)
  obtain ⟨v, hv⟩ := Option.isSome_iff_exists.mp (dictSegment_registers results _ hname)
  have hv2 := hv
  rw [(dictSegment_inv results).reg.map_eq, lookupA_regOf] at hv2
  cases hidx : idxOfA (dictSegment results).FieldsInv (pairAt results pid).1 with
  | none =>
    rw [hidx] at hv2
    exact absurd hv2 (by simp)
  | some j =>
    rw [hidx] at hv2
    have hvj : v = j + 1 := by
      simp at hv2
      omega
    have hfid : fidAt results pid = j := by
      unfold fidAt lookupFid
      rw [hv, hvj]
      rfl
    rw [hfid]
    exact ⟨idxOfA_getD hidx "", idxOfA_lt_length hidx⟩

theorem contrib_pid {results : List AnalysisResult} {d pid : Nat} (hd : d < results.length)
    (hpid : pid < (pairScan results).length)
    (h : (contribAt results d pid).isSome) :
    lookupA ((dictSegment results).Dicts.getD (fidAt results pid) [])
      (pairAt results pid).2 = some (pid + 1) := by
  unfold contribAt at h
  obtain ⟨o, ho, ho1, hoP, hpair, _, _⟩ := dict_lookup_of_contrib results hd h
  have hpeq : (pairScan results).getD (o - 1) ("", "") = (pairScan results).getD pid ("", "") := by
    show pairAt results (o - 1) = pairAt results pid
    rw [hpair, (fidAt_inv hpid).1]
  have hopid : o - 1 = pid := getD_inj_nodup (dictSegment_inv results).nodup hoP hpid hpeq
  have hoeq : o = pid + 1 := by omega
  rw [← hoeq]
  exact ho

theorem regTriples_tf {fm : List (String × Nat)} {fs : List RegularField} {lens : List Nat}
    {tfs : List TokenFrequencies} {t : Nat × Nat × TokenFrequencies}
    (ht : t ∈ regTriples fm fs lens tfs) : t.2.2 = [] ∨ t.2.2 ∈ tfs := by
  induction fs generalizing lens tfs with
  | nil => simp [regTriples] at ht
  | cons f rest ih =>
    rcases List.mem_cons.mp ht with rfl | ht
    · cases tfs with
      | nil => exact Or.inl rfl
      | cons a b => exact Or.inr (List.mem_cons_self _ _)
    · rcases ih ht with h | h
      · exact Or.inl h
      · exact Or.inr (List.tail_subset _ h)

theorem docTriples_tf_nodup {fm : List (String × Nat)} {r : AnalysisResult}
    (hwf1 : ∀ f ∈ r.document.compositeFields,
      ((f.analyzeTf : TokenFrequencies).map Prod.fst).Nodup)
    (hwf2 : ∀ tf ∈ r.analyzed, ((tf : TokenFrequencies).map Prod.fst).Nodup) :
    ∀ t ∈ docTriples fm r, (((t.2.2 : TokenFrequencies)).map Prod.fst).Nodup := by
  intro t ht
  unfold docTriples at ht
  rcases List.mem_append.mp ht with h | h
  · obtain ⟨f, hf, rfl⟩ := List.mem_map.mp h
    exact hwf1 f hf
  · rcases regTriples_tf h with he | he
    · rw [he]
      simp
    · exact hwf2 _ he

theorem collate_mem_lookup {fm : List (String × Nat)} {r : AnalysisResult}
    (hwf1 : ∀ f ∈ r.document.compositeFields,
      ((f.analyzeTf : TokenFrequencies).map Prod.fst).Nodup)
    (hwf2 : ∀ tf ∈ r.analyzed, ((tf : TokenFrequencies).map Prod.fst).Nodup)
    {p : Nat × TokenFrequencies} (hp : p ∈ (collate fm r).1)
    {q : String × TokenFreq} (hq : q ∈ (p.2 : TokenFrequencies)) :
    docTermFreq fm r p.1 q.1 = some q.2 := by
  have hkeys : (((collate fm r).1).map Prod.fst).Nodup := collStep_keys_nodup _ _ (by simp)
  have hvals : ∀ u ∈ (collate fm r).1, ((u.2 : TokenFrequencies).map Prod.fst).Nodup :=
    collStep_vals_nodup _ _ (by simp) (docTriples_tf_nodup hwf1 hwf2)
  have h1 : lookupA (collate fm r).1 p.1 = some p.2 := by
    obtain ⟨a, b⟩ := p
    exact lookupA_of_mem_nodup hkeys hp
  have h2 : lookupA (p.2 : TokenFrequencies) q.1 = some q.2 := by
    obtain ⟨a, b⟩ := q
    exact lookupA_of_mem_nodup (hvals p hp) hq
  unfold docTermFreq
  rw [h1]
  exact h2

theorem collate_keys_nodup (fm : List (String × Nat)) (r : AnalysisResult) :
    (((collate fm r).1).map Prod.fst).Nodup := collStep_keys_nodup _ _ (by simp)

theorem refDocs_lt (results : List AnalysisResult) (k pid : Nat) :
    ∀ d ∈ refDocs results k pid, d < k := by
  intro d hd
  exact List.mem_range.mp (List.mem_filter.mp hd).1

theorem refPostingsLocs_lt (results : List AnalysisResult) (k pid : Nat) :
    ∀ d ∈ refPostingsLocs results k pid, d < k := by
  intro d hd
  exact List.mem_range.mp (List.mem_filter.mp hd).1

theorem refDocs_succ (results : List AnalysisResult) (k pid : Nat) :
    refDocs results (k + 1) pid = refDocs results k pid ++
      (if (contribAt results k pid).isSome then [k] else []) := by
  unfold refDocs
  rw [List.range_succ, List.filter_append]
  congr 1
  by_cases h : (contribAt results k pid).isSome <;> simp [h]

theorem refPostingsLocs_succ (results : List AnalysisResult) (k pid : Nat) :
    refPostingsLocs results (k + 1) pid = refPostingsLocs results k pid ++
      (if ((contribAt results k pid).isSome && !(contribLocsAt results k pid).isEmpty) then
        [k] else []) := by
  unfold refPostingsLocs
  rw [List.range_succ, List.filter_append]
  congr 1
  by_cases h : ((contribAt results k pid).isSome && !(contribLocsAt results k pid).isEmpty) <;>
    simp_all

theorem docTermFreq_parts {fm : List (String × Nat)} {r : AnalysisResult} {fid : Nat}
    {term : String} (h : (docTermFreq fm r fid term).isSome) :
    ∃ tf q, lookupA (collate fm r).1 fid = some tf ∧ lookupA tf term = some q ∧
      docTermFreq fm r fid term = some q := by
  have h' := h
  unfold docTermFreq at h'
  cases htf : lookupA (collate fm r).1 fid with
  | none =>
    rw [htf] at h'
    exact absurd h' (by simp)
  | some tf =>
    rw [htf] at h'
    simp only [Option.some_bind] at h'
    cases hq : lookupA tf term with
    | none =>
      rw [hq] at h'
      exact absurd h' (by simp)
    | some q =>
      refine ⟨tf, q, rfl, hq, ?_⟩
      unfold docTermFreq
      rw [htf]
      simpa using hq

theorem assembleDoc_AInv {results : List AnalysisResult} {k : Nat} {s2 : Segment}
    {dm : List (Nat × TokenFrequencies)} {fl : List (Nat × Nat)}
    (hwf : WFResults results) (hk : k < results.length)
    (hdm : dm = (collate (dictSegment results).FieldsMap (results.getD k emptyResult)).1)
    (hfl : fl = (collate (dictSegment results).FieldsMap (results.getD k emptyResult)).2)
    (hw : WalkOK (dictSegment results).Dicts (pairScan results).length s2)
    (hpre : (dictSegment results).FieldsMap <+: s2.FieldsMap)
    (hsl : s2.Stored.length = k + 1) (hstl : s2.StoredTypes.length = k + 1)
    (hspl : s2.StoredPos.length = k + 1)
    (hsk : ∀ d, d < k + 1 → ∀ fid, (lookupA (s2.Stored.getD d []) fid).getD [] =
      storedVals (dictSegment results).FieldsMap
        (results.getD d emptyResult).document.fields fid)
    (hstk : ∀ d, d < k + 1 → ∀ fid, (lookupA (s2.StoredTypes.getD d []) fid).getD [] =
      storedTags (dictSegment results).FieldsMap
        (results.getD d emptyResult).document.fields fid)
    (hspk : ∀ d, d < k + 1 → ∀ fid, (lookupA (s2.StoredPos.getD d []) fid).getD [] =
      storedPoss (dictSegment results).FieldsMap
        (results.getD d emptyResult).document.fields fid)
    (hPo : ∀ pid, pid < (pairScan results).length →
      s2.Postings.getD pid [] = refDocs results k pid)
    (hFr : ∀ pid, pid < (pairScan results).length →
      s2.Freqs.getD pid [] = refFreqs results k pid)
    (hNo : ∀ pid, pid < (pairScan results).length →
      s2.Norms.getD pid [] = refNorms results k pid)
    (hPL : ∀ pid, pid < (pairScan results).length →
      s2.PostingsLocs.getD pid [] = refPostingsLocs results k pid)
    (hLf : ∀ pid, pid < (pairScan results).length →
      (s2.Locfields.getD pid []).length = refLocLen results k pid)
    (hLs : ∀ pid, pid < (pairScan results).length →
      (s2.Locstarts.getD pid []).length = refLocLen results k pid)
    (hLe : ∀ pid, pid < (pairScan results).length →
      (s2.Locends.getD pid []).length = refLocLen results k pid)
    (hLp : ∀ pid, pid < (pairScan results).length →
      (s2.Locpos.getD pid []).length = refLocLen results k pid)
    (hLap : ∀ pid, pid < (pairScan results).length →
      (s2.Locarraypos.getD pid []).length = refLocLen results k pid) :
    AInv results (k + 1) (applyDocMap s2 k dm fl) := by
  subst hdm
  subst hfl
  set fm := (dictSegment results).FieldsMap with hfmdef
  set r := results.getD k emptyResult with hrdef
  obtain ⟨hwf1, hwf2⟩ := hwf r (getD_mem hk emptyResult)
  have hkeys : (((collate fm r).1).map Prod.fst).Nodup := collate_keys_nodup fm r
  have htkeys : ∀ p ∈ (collate fm r).1, ((p.2 : TokenFrequencies).map Prod.fst).Nodup :=
    collStep_vals_nodup _ _ (by simp) (docTriples_tf_nodup hwf1 hwf2)
  have hlook : ∀ p ∈ (collate fm r).1, ∀ q ∈ (p.2 : TokenFrequencies),
      ∃ o, lookupA ((dictSegment results).Dicts.getD p.1 [])
        (q : String × TokenFreq).1 = some o ∧ o - 1 < (pairScan results).length := by
    intro p hp q hq
    have hdtf := collate_mem_lookup hwf1 hwf2 hp hq
    obtain ⟨o, ho, _, hoP, _, _, _⟩ := dict_lookup_of_contrib results hk (by rw [hdtf]; rfl)
    exact ⟨o, ho, hoP⟩
  have hinjj : ∀ p1 ∈ (collate fm r).1, ∀ q1 ∈ (p1.2 : TokenFrequencies),
      ∀ p2 ∈ (collate fm r).1, ∀ q2 ∈ (p2.2 : TokenFrequencies), ∀ o1 o2,
      lookupA ((dictSegment results).Dicts.getD p1.1 []) (q1 : String × TokenFreq).1 = some o1 →
      lookupA ((dictSegment results).Dicts.getD p2.1 []) (q2 : String × TokenFreq).1 = some o2 →
      o1 - 1 = o2 - 1 → p1.1 = p2.1 ∧ (q1 : String × TokenFreq).1 = q2.1 := by
    intro p1 h1 q1 hq1 p2 h2 q2 hq2 o1 o2 e1 e2 he
    have d1 := collate_mem_lookup hwf1 hwf2 h1 hq1
    have d2 := collate_mem_lookup hwf1 hwf2 h2 hq2
    obtain ⟨o1', ho1, _, hoP1, hpair1, hfid1, _⟩ :=
      dict_lookup_of_contrib results hk (by rw [d1]; rfl)
    obtain ⟨o2', ho2, _, hoP2, hpair2, hfid2, _⟩ :=
      dict_lookup_of_contrib results hk (by rw [d2]; rfl)
    have e1' : o1' = o1 := by
      rw [e1] at ho1
      injection ho1 with hh
      exact hh.symm
    have e2' : o2' = o2 := by
      rw [e2] at ho2
      injection ho2 with hh
      exact hh.symm
    rw [e1'] at hpair1 hfid1
    rw [e2'] at hpair2 hfid2
    constructor
    · rw [← hfid1, ← hfid2, he]
    · have hp12 : pairAt results (o1 - 1) = pairAt results (o2 - 1) := by rw [he]
      rw [hpair1, hpair2] at hp12
      injection hp12 with h1' h2'
  obtain ⟨wF, preF, sF1, sF2, sF3, htouchF, huntouchF⟩ :=
    applyDocMap_spec hw k (collate fm r).1 (collate fm r).2 hkeys htkeys hlook hinjj
  have harr : ∀ pid, pid < (pairScan results).length →
      (applyDocMap s2 k (collate fm r).1 (collate fm r).2).Postings.getD pid [] =
          refDocs results (k + 1) pid ∧
        (applyDocMap s2 k (collate fm r).1 (collate fm r).2).Freqs.getD pid [] =
          refFreqs results (k + 1) pid ∧
        (applyDocMap s2 k (collate fm r).1 (collate fm r).2).Norms.getD pid [] =
          refNorms results (k + 1) pid ∧
        (applyDocMap s2 k (collate fm r).1 (collate fm r).2).PostingsLocs.getD pid [] =
          refPostingsLocs results (k + 1) pid ∧
        ((applyDocMap s2 k (collate fm r).1 (collate fm r).2).Locfields.getD pid []).length =
          refLocLen results (k + 1) pid ∧
        ((applyDocMap s2 k (collate fm r).1 (collate fm r).2).Locstarts.getD pid []).length =
          refLocLen results (k + 1) pid ∧
        ((applyDocMap s2 k (collate fm r).1 (collate fm r).2).Locends.getD pid []).length =
          refLocLen results (k + 1) pid ∧
        ((applyDocMap s2 k (collate fm r).1 (collate fm r).2).Locpos.getD pid []).length =
          refLocLen results (k + 1) pid ∧
        ((applyDocMap s2 k (collate fm r).1 (collate fm r).2).Locarraypos.getD pid []).length =
          refLocLen results (k + 1) pid := by
    intro pid hpid
    by_cases hc : (contribAt results k pid).isSome
    · have hlk := contrib_pid hk hpid hc
      have hc' : (docTermFreq fm r (fidAt results pid) (pairAt results pid).2).isSome := hc
      obtain ⟨tf, q, htf, hq, hdq⟩ := docTermFreq_parts hc'
      have hmem1 : (fidAt results pid, tf) ∈ (collate fm r).1 := mem_of_lookupA htf
      have hmem2 : ((pairAt results pid).2, q) ∈ tf := mem_of_lookupA hq
      have ht := htouchF (fidAt results pid, tf) hmem1 ((pairAt results pid).2, q) hmem2
        (pid + 1) hlk
      simp only [Nat.add_sub_cancel] at ht
      obtain ⟨t1, t2, t3, t4, t5, t6, t7, t8, t9⟩ := ht
      have hcq : contribAt results k pid = some q := hdq
      have hcl : contribLocsAt results k pid = q.locations := by
        unfold contribLocsAt
        rw [hcq]
        rfl
      refine ⟨?_, ?_, ?_, ?_, ?_, ?_, ?_, ?_, ?_⟩
      · rw [t1, hPo pid hpid, bmAdd_gt (refDocs_lt results k pid), refDocs_succ, if_pos hc]
      · rw [t2, hFr pid hpid]
        unfold refFreqs
        rw [refDocs_succ, if_pos hc, List.map_append]
        simp [hcq]
      · rw [t3, hNo pid hpid]
        unfold refNorms
        rw [refDocs_succ, if_pos hc, List.map_append]
        simp [docFieldLen, hfmdef, hrdef]
      · rw [t4, refPostingsLocs_succ]
        by_cases hq0 : q.locations.isEmpty
        · rw [if_pos hq0, hPL pid hpid]
          simp [hcl, hq0]
        · rw [if_neg hq0, hPL pid hpid, bmAdd_gt (refPostingsLocs_lt results k pid)]
          simp [hcl, hq0, hc]
      · rw [t5, hLf pid hpid]
        unfold refLocLen
        rw [refDocs_succ, if_pos hc, List.map_append, List.sum_append]
        simp [hcl]
      · rw [t6, hLs pid hpid]
        unfold refLocLen
        rw [refDocs_succ, if_pos hc, List.map_append, List.sum_append]
        simp [hcl]
      · rw [t7, hLe pid hpid]
        unfold refLocLen
        rw [refDocs_succ, if_pos hc, List.map_append, List.sum_append]
        simp [hcl]
      · rw [t8, hLp pid hpid]
        unfold refLocLen
        rw [refDocs_succ, if_pos hc, List.map_append, List.sum_append]
        simp [hcl]
      · rw [t9, hLap pid hpid]
        unfold refLocLen
        rw [refDocs_succ, if_pos hc, List.map_append, List.sum_append]
        simp [hcl]
    · have hcf : (contribAt results k pid).isSome = false := by
        simpa using hc
      have hno9 : ∀ p ∈ (collate fm r).1, ∀ q ∈ (p.2 : TokenFrequencies), ∀ o,
          lookupA ((dictSegment results).Dicts.getD p.1 [])
            (q : String × TokenFreq).1 = some o → o - 1 ≠ pid := by
        intro p hp q hq o ho heq
        have hdtf := collate_mem_lookup hwf1 hwf2 hp hq
        obtain ⟨o', ho', _, hoP', hpair', hfid', _⟩ :=
          dict_lookup_of_contrib results hk (by rw [hdtf]; rfl)
        have hoo : o' = o := by
          rw [ho] at ho'
          injection ho' with hh
          exact hh.symm
        subst hoo
        apply hc
        show (contribAt results k pid).isSome = true
        rw [← heq]
        unfold contribAt
        rw [hfid', hpair']
        show (docTermFreq fm r p.1 (q : String × TokenFreq).1).isSome = true
        rw [hdtf]
        rfl
      obtain ⟨u1, u2, u3, u4, u5, u6, u7, u8, u9⟩ := huntouchF pid hpid hno9
      refine ⟨?_, ?_, ?_, ?_, ?_, ?_, ?_, ?_, ?_⟩
      · rw [u1, hPo pid hpid, refDocs_succ, if_neg hc, List.append_nil]
      · rw [u2, hFr pid hpid]
        unfold refFreqs
        rw [refDocs_succ, if_neg hc, List.append_nil]
      · rw [u3, hNo pid hpid]
        unfold refNorms
        rw [refDocs_succ, if_neg hc, List.append_nil]
      · rw [u4, hPL pid hpid, refPostingsLocs_succ]
        simp [hcf]
      · rw [u5, hLf pid hpid]
        unfold refLocLen
        rw [refDocs_succ, if_neg hc, List.append_nil]
      · rw [u6, hLs pid hpid]
        unfold refLocLen
        rw [refDocs_succ, if_neg hc, List.append_nil]
      · rw [u7, hLe pid hpid]
        unfold refLocLen
        rw [refDocs_succ, if_neg hc, List.append_nil]
      · rw [u8, hLp pid hpid]
        unfold refLocLen
        rw [refDocs_succ, if_neg hc, List.append_nil]
      · rw [u9, hLap pid hpid]
        unfold refLocLen
        rw [refDocs_succ, if_neg hc, List.append_nil]
  exact
    { fmPre := hpre.trans preF
      dicts := fun i => wF.dicts i
      dictsLen := wF.dlen
      storedLen := by rw [sF1]; exact hsl
      storedTLen := by rw [sF2]; exact hstl
      storedPLen := by rw [sF3]; exact hspl
      stored := fun d hd fid => by rw [sF1]; exact hsk d hd fid
      storedT := fun d hd fid => by rw [sF2]; exact hstk d hd fid
      storedP := fun d hd fid => by rw [sF3]; exact hspk d hd fid
      plen := wF.plen
      pllen := wF.pllen
      flen := wF.flen
      nlen := wF.nlen
      lflen := wF.lf
      lslen := wF.ls
      lelen := wF.le
      lplen := wF.lp
      laplen := wF.lap
      postings := fun pid hpid => (harr pid hpid).1
      freqs := fun pid hpid => (harr pid hpid).2.1
      norms := fun pid hpid => (harr pid hpid).2.2.1
      postingsLocs := fun pid hpid => (harr pid hpid).2.2.2.1
      locfields := fun pid hpid => (harr pid hpid).2.2.2.2.1
      locstarts := fun pid hpid => (harr pid hpid).2.2.2.2.2.1
      locends := fun pid hpid => (harr pid hpid).2.2.2.2.2.2.1
      locpos := fun pid hpid => (harr pid hpid).2.2.2.2.2.2.2.1
      locarraypos := fun pid hpid => (harr pid hpid).2.2.2.2.2.2.2.2 }

theorem processDocument_AInv {results : List AnalysisResult} {k : Nat} {s : Segment}
    (hwf : WFResults results) (hk : k < results.length) (ha : AInv results k s) :
    AInv results (k + 1) (s.processDocument (results.getD k emptyResult)) := by
  have hnames := result_names_mem (getD_mem hk emptyResult)
  have hcreg0 : ∀ f ∈ (results.getD k emptyResult).document.compositeFields,
      (lookupA (dictSegment results).FieldsMap f.name).isSome :=
    fun f hf => dictSegment_registers results _ (hnames.1 f hf)
  have hrreg0 : ∀ g ∈ (results.getD k emptyResult).document.fields,
      (lookupA (dictSegment results).FieldsMap g.name).isSome :=
    fun g hg => dictSegment_registers results _ (hnames.2 g hg)
  have hcreg : ∀ f ∈ (results.getD k emptyResult).document.compositeFields,
      (lookupA s.FieldsMap f.name).isSome :=
    fun f hf => lookupA_isSome_mono ha.fmPre (hcreg0 f hf)
  have hrreg : ∀ g ∈ (results.getD k emptyResult).document.fields,
      (lookupA s.FieldsMap g.name).isSome :=
    fun g hg => lookupA_isSome_mono ha.fmPre (hrreg0 g hg)
  have hdocNum : (s.addDocument).1 = k := ha.storedLen
  have hpd : s.processDocument (results.getD k emptyResult) =
      applyDocMap
        (docRegulars
          (docComposites ⟨(s.addDocument).2, [], []⟩
            (results.getD k emptyResult).document.compositeFields)
          (s.addDocument).1 (results.getD k emptyResult).document.fields
          (results.getD k emptyResult).length (results.getD k emptyResult).analyzed).seg
        (s.addDocument).1
        (docRegulars
          (docComposites ⟨(s.addDocument).2, [], []⟩
            (results.getD k emptyResult).document.compositeFields)
          (s.addDocument).1 (results.getD k emptyResult).document.fields
          (results.getD k emptyResult).length (results.getD k emptyResult).analyzed).docMap
        (docRegulars
          (docComposites ⟨(s.addDocument).2, [], []⟩
            (results.getD k emptyResult).document.compositeFields)
          (s.addDocument).1 (results.getD k emptyResult).document.fields
          (results.getD k emptyResult).length (results.getD k emptyResult).analyzed).fieldLens :=
    rfl
  rw [hpd, hdocNum]
  set st1 := docComposites ⟨(s.addDocument).2, [], []⟩
    (results.getD k emptyResult).document.compositeFields with hst1def
  set st2 := docRegulars st1 k (results.getD k emptyResult).document.fields
    (results.getD k emptyResult).length (results.getD k emptyResult).analyzed with hst2def
  have hseg1 : st1.seg = (s.addDocument).2 := (docComposites_spec _ _ hcreg).1
  have hcoll1 : (st1.docMap, st1.fieldLens) =
      ((results.getD k emptyResult).document.compositeFields.map (fun f =>
        (lookupFid s.FieldsMap f.name, f.analyzeLen, f.analyzeTf))).foldl
        collStep ([], []) := (docComposites_spec _ _ hcreg).2
  have hfm1 : st1.seg.FieldsMap = s.FieldsMap := by
    rw [hseg1]
    rfl
  have hrreg1 : ∀ g ∈ (results.getD k emptyResult).document.fields,
      (lookupA st1.seg.FieldsMap g.name).isSome := by
    intro g hg
    rw [hfm1]
    exact hrreg g hg
  have hfm2 : st2.seg.FieldsMap = s.FieldsMap := by
    rw [hst2def, docRegulars_FieldsMapF st1 k _ _ _ hrreg1, hfm1]
  have hdicts2 : st2.seg.Dicts = s.Dicts := by
    rw [hst2def, docRegulars_DictsF st1 k _ _ _ hrreg1, hseg1]
    rfl
  have hpost2 : st2.seg.Postings = s.Postings := by
    rw [hst2def, docRegulars_PostingsF st1 k _ _ _ hrreg1, hseg1]
    rfl
  have hpl2 : st2.seg.PostingsLocs = s.PostingsLocs := by
    rw [hst2def, docRegulars_PostingsLocsF st1 k _ _ _ hrreg1, hseg1]
    rfl
  have hfr2 : st2.seg.Freqs = s.Freqs := by
    rw [hst2def, docRegulars_FreqsF st1 k _ _ _ hrreg1, hseg1]
    rfl
  have hn2 : st2.seg.Norms = s.Norms := by
    rw [hst2def, docRegulars_NormsF st1 k _ _ _ hrreg1, hseg1]
    rfl
  have hlf2 : st2.seg.Locfields = s.Locfields := by
    rw [hst2def, docRegulars_LocfieldsF st1 k _ _ _ hrreg1, hseg1]
    rfl
  have hls2 : st2.seg.Locstarts = s.Locstarts := by
    rw [hst2def, docRegulars_LocstartsF st1 k _ _ _ hrreg1, hseg1]
    rfl
  have hle2 : st2.seg.Locends = s.Locends := by
    rw [hst2def, docRegulars_LocendsF st1 k _ _ _ hrreg1, hseg1]
    rfl
  have hlp2 : st2.seg.Locpos = s.Locpos := by
    rw [hst2def, docRegulars_LocposF st1 k _ _ _ hrreg1, hseg1]
    rfl
  have hlap2 : st2.seg.Locarraypos = s.Locarraypos := by
    rw [hst2def, docRegulars_LocarrayposF st1 k _ _ _ hrreg1, hseg1]
    rfl
  have hsl2 : st2.seg.Stored.length = k + 1 := by
    rw [hst2def, docRegulars_StoredLen st1 k _ _ _ hrreg1, hseg1]
    show (s.Stored ++ [[]]).length = k + 1
    simp [ha.storedLen]
  have hstl2 : st2.seg.StoredTypes.length = k + 1 := by
    rw [hst2def, docRegulars_StoredTypesLen st1 k _ _ _ hrreg1, hseg1]
    show (s.StoredTypes ++ [[]]).length = k + 1
    simp [ha.storedTLen]
  have hspl2 : st2.seg.StoredPos.length = k + 1 := by
    rw [hst2def, docRegulars_StoredPosLen st1 k _ _ _ hrreg1, hseg1]
    show (s.StoredPos ++ [[]]).length = k + 1
    simp [ha.storedPLen]
  have hcoll2 : (st2.docMap, st2.fieldLens) =
      collate (dictSegment results).FieldsMap (results.getD k emptyResult) := by
    have h2 := docRegulars_collate st1 k (results.getD k emptyResult).document.fields
      (results.getD k emptyResult).length (results.getD k emptyResult).analyzed hrreg1
    rw [hfm1] at h2
    have h3 : (st2.docMap, st2.fieldLens) =
        (regTriples s.FieldsMap (results.getD k emptyResult).document.fields
          (results.getD k emptyResult).length (results.getD k emptyResult).analyzed).foldl
          collStep (st1.docMap, st1.fieldLens) := by
      rw [hst2def]
      exact h2
    rw [h3, hcoll1, ← List.foldl_append]
    show _ = (docTriples (dictSegment results).FieldsMap
      (results.getD k emptyResult)).foldl collStep ([], [])
    rw [← docTriples_congr ha.fmPre _ hcreg0 hrreg0]
    rfl
  have hdm2 : st2.docMap =
      (collate (dictSegment results).FieldsMap (results.getD k emptyResult)).1 :=
    congrArg Prod.fst hcoll2
  have hfl2 : st2.fieldLens =
      (collate (dictSegment results).FieldsMap (results.getD k emptyResult)).2 :=
    congrArg Prod.snd hcoll2
  have hw2 : WalkOK (dictSegment results).Dicts (pairScan results).length st2.seg :=
    { dicts := fun i => by rw [hdicts2]; exact ha.dicts i
      dlen := by rw [hdicts2]; exact ha.dictsLen
      plen := by rw [hpost2]; exact ha.plen
      pllen := by rw [hpl2]; exact ha.pllen
      flen := by rw [hfr2]; exact ha.flen
      nlen := by rw [hn2]; exact ha.nlen
      lf := by rw [hlf2]; exact ha.lflen
      ls := by rw [hls2]; exact ha.lslen
      le := by rw [hle2]; exact ha.lelen
      lp := by rw [hlp2]; exact ha.lplen
      lap := by rw [hlap2]; exact ha.laplen }
  have hpre2 : (dictSegment results).FieldsMap <+: st2.seg.FieldsMap := by
    rw [hfm2]
    exact ha.fmPre
  have hsk : ∀ d, d < k + 1 → ∀ fid, (lookupA (st2.seg.Stored.getD d []) fid).getD [] =
      storedVals (dictSegment results).FieldsMap
        (results.getD d emptyResult).document.fields fid := by
    intro d hd fid
    by_cases hdk : d = k
    · subst hdk
      have hdoc : d < st1.seg.Stored.length := by
        rw [hseg1]
        show d < (s.Stored ++ [[]]).length
        simp [ha.storedLen]
      have hval := docRegulars_StoredVal st1 d (results.getD d emptyResult).document.fields
        (results.getD d emptyResult).length (results.getD d emptyResult).analyzed hrreg1 hdoc fid
      have hempty : st1.seg.Stored.getD d [] = [] := by
        rw [hseg1]
        show (s.Stored ++ [[]]).getD d [] = []
        rw [← ha.storedLen]
        exact getD_append_len s.Stored [] [] []
      rw [hst2def, hval, hempty, hfm1, storedVals_congr ha.fmPre _ fid hrreg0]
      simp [lookupA]
    · have hdk' : d < k := by omega
      have hother := docRegulars_StoredOther st1 k (results.getD k emptyResult).document.fields
        (results.getD k emptyResult).length (results.getD k emptyResult).analyzed hrreg1 d hdk
      have hbelow : st1.seg.Stored.getD d [] = s.Stored.getD d [] := by
        rw [hseg1]
        show (s.Stored ++ [[]]).getD d [] = s.Stored.getD d []
        exact getD_append_lt _ _ _ (by rw [ha.storedLen]; exact hdk') _
      rw [hst2def, hother, hbelow]
      exact ha.stored d hdk' fid
  have hstk : ∀ d, d < k + 1 → ∀ fid, (lookupA (st2.seg.StoredTypes.getD d []) fid).getD [] =
      storedTags (dictSegment results).FieldsMap
        (results.getD d emptyResult).document.fields fid := by
    intro d hd fid
    by_cases hdk : d = k
    · subst hdk
      have hdoc : d < st1.seg.StoredTypes.length := by
        rw [hseg1]
        show d < (s.StoredTypes ++ [[]]).length
        simp [ha.storedTLen]
      have hval := docRegulars_StoredTag st1 d (results.getD d emptyResult).document.fields
        (results.getD d emptyResult).length (results.getD d emptyResult).analyzed hrreg1 hdoc fid
      have hempty : st1.seg.StoredTypes.getD d [] = [] := by
        rw [hseg1]
        show (s.StoredTypes ++ [[]]).getD d [] = []
        rw [← ha.storedTLen]
        exact getD_append_len s.StoredTypes [] [] []
      rw [hst2def, hval, hempty, hfm1, storedTags_congr ha.fmPre _ fid hrreg0]
      simp [lookupA]
    · have hdk' : d < k := by omega
      have hother := docRegulars_StoredTypesOther st1 k
        (results.getD k emptyResult).document.fields
        (results.getD k emptyResult).length (results.getD k emptyResult).analyzed hrreg1 d hdk
      have hbelow : st1.seg.StoredTypes.getD d [] = s.StoredTypes.getD d [] := by
        rw [hseg1]
        show (s.StoredTypes ++ [[]]).getD d [] = s.StoredTypes.getD d []
        exact getD_append_lt _ _ _ (by rw [ha.storedTLen]; exact hdk') _
      rw [hst2def, hother, hbelow]
      exact ha.storedT d hdk' fid
  have hspk : ∀ d, d < k + 1 → ∀ fid, (lookupA (st2.seg.StoredPos.getD d []) fid).getD [] =
      storedPoss (dictSegment results).FieldsMap
        (results.getD d emptyResult).document.fields fid := by
    intro d hd fid
    by_cases hdk : d = k
    · subst hdk
      have hdoc : d < st1.seg.StoredPos.length := by
        rw [hseg1]
        show d < (s.StoredPos ++ [[]]).length
        simp [ha.storedPLen]
      have hval := docRegulars_StoredPoss st1 d (results.getD d emptyResult).document.fields
        (results.getD d emptyResult).length (results.getD d emptyResult).analyzed hrreg1 hdoc fid
      have hempty : st1.seg.StoredPos.getD d [] = [] := by
        rw [hseg1]
        show (s.StoredPos ++ [[]]).getD d [] = []
        rw [← ha.storedPLen]
        exact getD_append_len s.StoredPos [] [] []
      rw [hst2def, hval, hempty, hfm1, storedPoss_congr ha.fmPre _ fid hrreg0]
      simp [lookupA]
    · have hdk' : d < k := by omega
      have hother := docRegulars_StoredPosOther st1 k
        (results.getD k emptyResult).document.fields
        (results.getD k emptyResult).length (results.getD k emptyResult).analyzed hrreg1 d hdk
      have hbelow : st1.seg.StoredPos.getD d [] = s.StoredPos.getD d [] := by
        rw [hseg1]
        show (s.StoredPos ++ [[]]).getD d [] = s.StoredPos.getD d []
        exact getD_append_lt _ _ _ (by rw [ha.storedPLen]; exact hdk') _
      rw [hst2def, hother, hbelow]
      exact ha.storedP d hdk' fid
  exact assembleDoc_AInv hwf hk hdm2 hfl2 hw2 hpre2 hsl2 hstl2 hspl2 hsk hstk hspk
    (fun pid hpid => by rw [hpost2]; exact ha.postings pid hpid)
    (fun pid hpid => by rw [hfr2]; exact ha.freqs pid hpid)
    (fun pid hpid => by rw [hn2]; exact ha.norms pid hpid)
    (fun pid hpid => by rw [hpl2]; exact ha.postingsLocs pid hpid)
    (fun pid hpid => by rw [hlf2]; exact ha.locfields pid hpid)
    (fun pid hpid => by rw [hls2]; exact ha.locstarts pid hpid)
    (fun pid hpid => by rw [hle2]; exact ha.locends pid hpid)
    (fun pid hpid => by rw [hlp2]; exact ha.locpos pid hpid)
    (fun pid hpid => by rw [hlap2]; exact ha.locarraypos pid hpid)

theorem getD_replicate_self {β : Type} (d : β) : ∀ (n i : Nat),
    (List.replicate n d).getD i d = d
  | 0, 0 => rfl
  | 0, _ + 1 => rfl
  | _ + 1, 0 => rfl
  | n + 1, i + 1 => by simpa [List.replicate] using getD_replicate_self d n i

theorem AInv_base (results : List AnalysisResult) : AInv results 0 (dictSegment results) := by
  obtain ⟨a1, a2, a3, a4, a5, a6, a7, a8, a9⟩ := dictSegment_arrays results
  obtain ⟨s1, s2, s3⟩ := dictSegment_stored results
  refine
    { fmPre := List.prefix_refl _
      dicts := fun i => rfl
      dictsLen := Nat.le_refl _
      storedLen := by rw [s1]; rfl
      storedTLen := by rw [s2]; rfl
      storedPLen := by rw [s3]; rfl
      stored := fun d hd => absurd hd (by omega)
      storedT := fun d hd => absurd hd (by omega)
      storedP := fun d hd => absurd hd (by omega)
      plen := by rw [a1]; exact List.length_replicate _ _
      pllen := by rw [a2]; exact List.length_replicate _ _
      flen := by rw [a3]; exact List.length_replicate _ _
      nlen := by rw [a4]; exact List.length_replicate _ _
      lflen := by rw [a5]; exact List.length_replicate _ _
      lslen := by rw [a6]; exact List.length_replicate _ _
      lelen := by rw [a7]; exact List.length_replicate _ _
      lplen := by rw [a8]; exact List.length_replicate _ _
      laplen := by rw [a9]; exact List.length_replicate _ _
      postings := fun pid _ => by rw [a1, getD_replicate_self]; rfl
      freqs := fun pid _ => by rw [a3, getD_replicate_self]; rfl
      norms := fun pid _ => by rw [a4, getD_replicate_self]; rfl
      postingsLocs := fun pid _ => by rw [a2, getD_replicate_self]; rfl
      locfields := fun pid _ => by rw [a5, getD_replicate_self]; rfl
      locstarts := fun pid _ => by rw [a6, getD_replicate_self]; rfl
      locends := fun pid _ => by rw [a7, getD_replicate_self]; rfl
      locpos := fun pid _ => by rw [a8, getD_replicate_self]; rfl
      locarraypos := fun pid _ => by rw [a9, getD_replicate_self]; rfl }

theorem buildUpTo_succ {results : List AnalysisResult} {k : Nat} (hk : k < results.length) :
    buildUpTo results (k + 1) =
      (buildUpTo results k).processDocument (results.getD k emptyResult) := by
  unfold buildUpTo
  rw [List.take_succ, List.foldl_append]
  have hx : results[k]?.toList = [results.getD k emptyResult] := by
    rw [List.getElem?_eq_getElem hk]
    simp [List.getD, List.getElem?_eq_getElem hk]
  rw [hx]
  rfl

theorem buildUpTo_AInv (results : List AnalysisResult) (hwf : WFResults results) :
    ∀ k, k ≤ results.length → AInv results k (buildUpTo results k) := by
  intro k
  induction k with
  | zero =>
    intro _
    exact AInv_base results
  | succ j ih =>
    intro hj
    have hjlt : j < results.length := by omega
    rw [buildUpTo_succ hjlt]
    exact processDocument_AInv hwf hjlt (ih (by omega))

theorem final_AInv (results : List AnalysisResult) (hwf : WFResults results) :
    AInv results results.length (NewFromAnalyzedDocs results) := by
  have h : AInv results results.length (buildUpTo results results.length) :=
    buildUpTo_AInv results hwf results.length (Nat.le_refl _)
  have hb : buildUpTo results results.length =
      results.foldl Segment.processDocument (dictSegment results) := by
    unfold buildUpTo
    rw [List.take_length]
  rw [hb] at h
  exact
    { fmPre := h.fmPre
      dicts := h.dicts
      dictsLen := h.dictsLen
      storedLen := h.storedLen
      storedTLen := h.storedTLen
      storedPLen := h.storedPLen
      stored := h.stored
      storedT := h.storedT
      storedP := h.storedP
      plen := h.plen
      pllen := h.pllen
      flen := h.flen
      nlen := h.nlen
      lflen := h.lflen
      lslen := h.lslen
      lelen := h.lelen
      lplen := h.lplen
      laplen := h.laplen
      postings := h.postings
      freqs := h.freqs
      norms := h.norms
      postingsLocs := h.postingsLocs
      locfields := h.locfields
      locstarts := h.locstarts
      locends := h.locends
      locpos := h.locpos
      locarraypos := h.locarraypos }

theorem getD_map_lt {α β : Type} (f : α → β) : ∀ (l : List α) (i : Nat), i < l.length →
    ∀ (d : β) (d' : α), (l.map f).getD i d = f (l.getD i d')
  | [], i, hi, _, _ => by simp at hi
  | x :: rest, 0, _, d, d' => rfl
  | x :: rest, i + 1, hi, d, d' => by
    simpa using getD_map_lt f rest i (by simpa using hi) d d'

theorem refPostingsLocs_sub {results : List AnalysisResult} {k pid : Nat} :
    ∀ d ∈ refPostingsLocs results k pid,
      d ∈ refDocs results k pid ∧ (contribLocsAt results d pid).isEmpty = false := by
  intro d hd
  obtain ⟨hr, hcond⟩ := List.mem_filter.mp hd
  simp only [Bool.and_eq_true, Bool.not_eq_true'] at hcond
  exact ⟨List.mem_filter.mpr ⟨hr, hcond.1⟩, hcond.2⟩

theorem regTriples_len_sum (fm : List (String × Nat)) (fs : List RegularField)
    (lens : List Nat) (tfs : List TokenFrequencies) (f : Nat) :
    (((regTriples fm fs lens tfs).filter (fun t => t.1 = f)).map (fun t => t.2.1)).sum =
      lenSumRegs fm fs lens f := by
  induction fs generalizing lens tfs with
  | nil => rfl
  | cons g rest ih =>
    simp only [regTriples, lenSumRegs, List.filter_cons]
    by_cases hg : lookupFid fm g.name = f
    · simp [hg, ih]
    · simp [hg, ih]

theorem docFieldLen_eq_totalFieldLen (fm : List (String × Nat)) (r : AnalysisResult) (f : Nat) :
    docFieldLen fm r f = totalFieldLen fm r f := by
  unfold docFieldLen
  show (lookupA ((docTriples fm r).foldl collStep ([], [])).2 f).getD 0 = totalFieldLen fm r f
  rw [collate_lens]
  show 0 + _ = _
  rw [Nat.zero_add]
  unfold docTriples totalFieldLen
  rw [List.filter_append, List.map_append, List.sum_append, List.filter_map, List.map_map,
    regTriples_len_sum]
  rfl

/-- **C6** (dictionary-pass postcondition).  After `initializeDict` returns: the
batch's distinct (field name, term) pairs are exactly the entries of the
first-appearance scan `pairScan` (duplicate-free, so `P` is the number of
distinct pairs); each of the nine postings-parallel arrays holds exactly `P`
slots, every slot an empty bitmap or empty sequence; and no document-level
state has been written (`Stored`, `StoredTypes`, `StoredPos` are all empty, so
the document count `len(Stored)` is zero). -/
theorem C6_dict_pass_postcondition (results : List AnalysisResult) :
    (pairScan results).Nodup ∧
    (∀ p, p ∈ pairScan results ↔ p ∈ batchPairs results) ∧
    (dictSegment results).Postings = List.replicate (pairScan results).length [] ∧
    (dictSegment results).PostingsLocs = List.replicate (pairScan results).length [] ∧
    (dictSegment results).Freqs = List.replicate (pairScan results).length [] ∧
    (dictSegment results).Norms = List.replicate (pairScan results).length [] ∧
    (dictSegment results).Locfields = List.replicate (pairScan results).length [] ∧
    (dictSegment results).Locstarts = List.replicate (pairScan results).length [] ∧
    (dictSegment results).Locends = List.replicate (pairScan results).length [] ∧
    (dictSegment results).Locpos = List.replicate (pairScan results).length [] ∧
    (dictSegment results).Locarraypos = List.replicate (pairScan results).length [] ∧
    (dictSegment results).Stored = [] ∧
    (dictSegment results).StoredTypes = [] ∧
    (dictSegment results).StoredPos = [] := by
  obtain ⟨a1, a2, a3, a4, a5, a6, a7, a8, a9⟩ := dictSegment_arrays results
  obtain ⟨s1, s2, s3⟩ := dictSegment_stored results
  exact ⟨(dictSegment_inv results).nodup, fun p => mem_pairScan,
    a1, a2, a3, a4, a5, a6, a7, a8, a9, s1, s2, s3⟩

/-- **C2** (dictionary-lookup safety during assembly).  For a well-formed batch
(the embedding fixes one analysis per field, so both passes scan the same
data: each composite's `Analyze` is the pure pair `analyzeLen`/`analyzeTf`),
every (field id, term) pair walked during assembly of document `d` — i.e.
every entry of the collated `docMap` — is present in the dictionary built by
the first pass: the lookup returns `some o` with `1 ≤ o`, so the missing
value 0 never arises, the uint64 underflow `pid = 0 - 1` is unreachable, and
the posting index `o - 1` is within the bounds of the postings arrays of the
segment being updated. -/
theorem C2_dictionary_lookup_safety (results : List AnalysisResult) (hwf : WFResults results)
    (d : Nat) (hd : d < results.length) :
    ∀ p ∈ (collate (dictSegment results).FieldsMap (results.getD d emptyResult)).1,
      ∀ q ∈ (p.2 : TokenFrequencies),
      ∃ o, lookupA ((dictSegment results).Dicts.getD p.1 [])
          (q : String × TokenFreq).1 = some o ∧ 1 ≤ o ∧
        o - 1 < (buildUpTo results d).Postings.length := by
  intro p hp q hq
  obtain ⟨hwf1, hwf2⟩ := hwf _ (getD_mem hd emptyResult)
  have hdtf := collate_mem_lookup hwf1 hwf2 hp hq
  obtain ⟨o, ho, h1, hoP, _, _, _⟩ := dict_lookup_of_contrib results hd (by rw [hdtf]; rfl)
  refine ⟨o, ho, h1, ?_⟩
  rw [(buildUpTo_AInv results hwf d (Nat.le_of_lt hd)).plen]
  exact hoP

theorem C2_dictionary_lookup_safety_witness :
    WFResults [wdoc0, wdoc1] ∧ 1 < ([wdoc0, wdoc1] : List AnalysisResult).length ∧
    (∀ p ∈ (collate (dictSegment [wdoc0, wdoc1]).FieldsMap
        (([wdoc0, wdoc1] : List AnalysisResult).getD 1 emptyResult)).1,
      ∀ q ∈ (p.2 : TokenFrequencies),
      ∃ o, lookupA ((dictSegment [wdoc0, wdoc1]).Dicts.getD p.1 [])
          (q : String × TokenFreq).1 = some o ∧ 1 ≤ o ∧
        o - 1 < (buildUpTo [wdoc0, wdoc1] 1).Postings.length) :=
  ⟨by decide, by decide, C2_dictionary_lookup_safety [wdoc0, wdoc1] (by decide) 1 (by decide)⟩

/-- **C5** (posting-ordinal assignment).  The dictionary built by the first
pass maps the term of any registered field id exactly to one plus the
first-appearance index of its (field name, term) pair in `pairScan` — the
scan that walks documents in batch order and, within a document, composite
fields before regular fields.  Hence ordinals are 1-based (the first pair
scanned gets ordinal 1), and subtracting 1 from a present ordinal — as
`processDocument` does to index the postings arrays — recovers exactly the
0-based first-appearance position. -/
theorem C5_ordinal_assignment (results : List AnalysisResult) (fid : Nat)
    (hfid : fid < (dictSegment results).FieldsInv.length) (term : String) :
    lookupA ((dictSegment results).Dicts.getD fid []) term =
      (idxOfA (pairScan results) ((dictSegment results).FieldsInv.getD fid "", term)).map
        (· + 1) ∧
    (lookupA ((dictSegment results).Dicts.getD fid []) term).map (· - 1) =
      idxOfA (pairScan results) ((dictSegment results).FieldsInv.getD fid "", term) := by
  have h := (dictSegment_inv results).dict fid hfid term
  refine ⟨h, ?_⟩
  rw [h]
  cases idxOfA (pairScan results) ((dictSegment results).FieldsInv.getD fid "", term) with
  | none => rfl
  | some j => simp

theorem C5_ordinal_assignment_witness :
    1 < (dictSegment [wdoc0, wdoc1]).FieldsInv.length ∧
    (lookupA ((dictSegment [wdoc0, wdoc1]).Dicts.getD 1 []) "cat" =
      (idxOfA (pairScan [wdoc0, wdoc1])
        ((dictSegment [wdoc0, wdoc1]).FieldsInv.getD 1 "", "cat")).map (· + 1) ∧
    (lookupA ((dictSegment [wdoc0, wdoc1]).Dicts.getD 1 []) "cat").map (· - 1) =
      idxOfA (pairScan [wdoc0, wdoc1])
        ((dictSegment [wdoc0, wdoc1]).FieldsInv.getD 1 "", "cat")) :=
  ⟨by decide, C5_ordinal_assignment [wdoc0, wdoc1] 1 (by decide) "cat"⟩

/-- **C1** (alignment invariant).  In the built segment, for every posting
ordinal `pid`: the frequency sequence and the norm sequence have exactly as
many entries as the membership bitmap has members; the bitmap is strictly
increasing (so its `K`-th element is its `K`-th smallest member); and the
`K`-th smallest member `d` of the bitmap is precisely the document whose
collated contribution supplies the `K`-th frequency entry and the `K`-th
norm entry. -/
theorem C1_alignment_invariant (results : List AnalysisResult) (hwf : WFResults results) :
    ∀ pid, pid < (pairScan results).length →
      ((NewFromAnalyzedDocs results).Freqs.getD pid []).length =
        ((NewFromAnalyzedDocs results).Postings.getD pid []).length ∧
      ((NewFromAnalyzedDocs results).Norms.getD pid []).length =
        ((NewFromAnalyzedDocs results).Postings.getD pid []).length ∧
      List.Pairwise (· < ·) ((NewFromAnalyzedDocs results).Postings.getD pid []) ∧
      ∀ K, K < ((NewFromAnalyzedDocs results).Postings.getD pid []).length →
        ((NewFromAnalyzedDocs results).Freqs.getD pid []).getD K 0 =
          ((contribAt results
              (((NewFromAnalyzedDocs results).Postings.getD pid []).getD K 0) pid).getD
            { frequency := 0, locations := [] }).frequency ∧
        ((NewFromAnalyzedDocs results).Norms.getD pid []).getD K { ofLen := 0 } =
          NormVal.mk (docFieldLen (dictSegment results).FieldsMap
            (results.getD (((NewFromAnalyzedDocs results).Postings.getD pid []).getD K 0)
              emptyResult) (fidAt results pid)) := by
  intro pid hpid
  have h := final_AInv results hwf
  have hp := h.postings pid hpid
  have hf := h.freqs pid hpid
  have hn := h.norms pid hpid
  refine ⟨?_, ?_, ?_, ?_⟩
  · rw [hp, hf]
    unfold refFreqs
    simp
  · rw [hp, hn]
    unfold refNorms
    simp
  · rw [hp]
    unfold refDocs
    exact (List.pairwise_lt_range _).filter _
  · intro K hK
    rw [hp] at hK ⊢
    rw [hf, hn]
    refine ⟨?_, ?_⟩
    · unfold refFreqs
      rw [getD_map_lt _ _ _ hK _ 0]
    · unfold refNorms
      rw [getD_map_lt _ _ _ hK _ 0]

theorem C1_alignment_invariant_witness :
    WFResults [wdoc0, wdoc1] ∧
    (∀ pid, pid < (pairScan [wdoc0, wdoc1]).length →
      ((NewFromAnalyzedDocs [wdoc0, wdoc1]).Freqs.getD pid []).length =
        ((NewFromAnalyzedDocs [wdoc0, wdoc1]).Postings.getD pid []).length ∧
      ((NewFromAnalyzedDocs [wdoc0, wdoc1]).Norms.getD pid []).length =
        ((NewFromAnalyzedDocs [wdoc0, wdoc1]).Postings.getD pid []).length ∧
      List.Pairwise (· < ·) ((NewFromAnalyzedDocs [wdoc0, wdoc1]).Postings.getD pid []) ∧
      ∀ K, K < ((NewFromAnalyzedDocs [wdoc0, wdoc1]).Postings.getD pid []).length →
        ((NewFromAnalyzedDocs [wdoc0, wdoc1]).Freqs.getD pid []).getD K 0 =
          ((contribAt [wdoc0, wdoc1]
              (((NewFromAnalyzedDocs [wdoc0, wdoc1]).Postings.getD pid []).getD K 0) pid).getD
            { frequency := 0, locations := [] }).frequency ∧
        ((NewFromAnalyzedDocs [wdoc0, wdoc1]).Norms.getD pid []).getD K { ofLen := 0 } =
          NormVal.mk (docFieldLen (dictSegment [wdoc0, wdoc1]).FieldsMap
            (([wdoc0, wdoc1] : List AnalysisResult).getD
              (((NewFromAnalyzedDocs [wdoc0, wdoc1]).Postings.getD pid []).getD K 0)
              emptyResult) (fidAt [wdoc0, wdoc1] pid))) :=
  ⟨by decide, C1_alignment_invariant [wdoc0, wdoc1] (by decide)⟩

/-- **C7** (norm correctness).  For every posting ordinal of the built
segment and every position `K` of its norm sequence, the entry equals the
norm weight of the `K`-th contributing document for the posting's field:
`NormVal.mk L`, the embedding of `float32(1.0 / math.Sqrt(float64(L)))` —
a pure function of `L` — where `L` is the document's total token length for
that field id, accumulated over all composite and regular fields of the
document that collate to it. -/
theorem C7_norm_correctness (results : List AnalysisResult) (hwf : WFResults results) :
    ∀ pid, pid < (pairScan results).length →
      ∀ K, K < ((NewFromAnalyzedDocs results).Norms.getD pid []).length →
        ((NewFromAnalyzedDocs results).Norms.getD pid []).getD K { ofLen := 0 } =
          NormVal.mk (totalFieldLen (dictSegment results).FieldsMap
            (results.getD (((NewFromAnalyzedDocs results).Postings.getD pid []).getD K 0)
              emptyResult) (fidAt results pid)) := by
  intro pid hpid K hK
  have h := final_AInv results hwf
  rw [h.norms pid hpid] at hK ⊢
  rw [h.postings pid hpid]
  unfold refNorms at hK ⊢
  rw [List.length_map] at hK
  rw [getD_map_lt _ _ _ hK _ 0, docFieldLen_eq_totalFieldLen]

theorem C7_norm_correctness_witness :
    WFResults [wdoc0, wdoc1] ∧
    (∀ pid, pid < (pairScan [wdoc0, wdoc1]).length →
      ∀ K, K < ((NewFromAnalyzedDocs [wdoc0, wdoc1]).Norms.getD pid []).length →
        ((NewFromAnalyzedDocs [wdoc0, wdoc1]).Norms.getD pid []).getD K { ofLen := 0 } =
          NormVal.mk (totalFieldLen (dictSegment [wdoc0, wdoc1]).FieldsMap
            (([wdoc0, wdoc1] : List AnalysisResult).getD
              (((NewFromAnalyzedDocs [wdoc0, wdoc1]).Postings.getD pid []).getD K 0)
              emptyResult) (fidAt [wdoc0, wdoc1] pid))) :=
  ⟨by decide, C7_norm_correctness [wdoc0, wdoc1] (by decide)⟩

/-- **C8** (stored value round-trip).  The built segment has one stored-row
triple per document, and for every document number `d` and field id `fid`
the rows at `(d, fid)` are exactly the raw value bytes, type tags, and
array-position paths of the document's stored regular fields collating to
`fid`, in the order the fields appeared within the document (repeated field
ids append, never overwrite — `storedVals`/`storedTags`/`storedPoss` collect
them in field order by construction). -/
theorem C8_stored_roundtrip (results : List AnalysisResult) (hwf : WFResults results) :
    (NewFromAnalyzedDocs results).Stored.length = results.length ∧
    (NewFromAnalyzedDocs results).StoredTypes.length = results.length ∧
    (NewFromAnalyzedDocs results).StoredPos.length = results.length ∧
    ∀ d, d < results.length → ∀ fid,
      (lookupA ((NewFromAnalyzedDocs results).Stored.getD d []) fid).getD [] =
        storedVals (dictSegment results).FieldsMap
          (results.getD d emptyResult).document.fields fid ∧
      (lookupA ((NewFromAnalyzedDocs results).StoredTypes.getD d []) fid).getD [] =
        storedTags (dictSegment results).FieldsMap
          (results.getD d emptyResult).document.fields fid ∧
      (lookupA ((NewFromAnalyzedDocs results).StoredPos.getD d []) fid).getD [] =
        storedPoss (dictSegment results).FieldsMap
          (results.getD d emptyResult).document.fields fid := by
  have h := final_AInv results hwf
  exact ⟨h.storedLen, h.storedTLen, h.storedPLen,
    fun d hd fid => ⟨h.stored d hd fid, h.storedT d hd fid, h.storedP d hd fid⟩⟩

theorem C8_stored_roundtrip_witness :
    WFResults [wdoc0, wdoc1] ∧
    ((NewFromAnalyzedDocs [wdoc0, wdoc1]).Stored.length =
        ([wdoc0, wdoc1] : List AnalysisResult).length ∧
      (NewFromAnalyzedDocs [wdoc0, wdoc1]).StoredTypes.length =
        ([wdoc0, wdoc1] : List AnalysisResult).length ∧
      (NewFromAnalyzedDocs [wdoc0, wdoc1]).StoredPos.length =
        ([wdoc0, wdoc1] : List AnalysisResult).length ∧
      ∀ d, d < ([wdoc0, wdoc1] : List AnalysisResult).length → ∀ fid,
        (lookupA ((NewFromAnalyzedDocs [wdoc0, wdoc1]).Stored.getD d []) fid).getD [] =
          storedVals (dictSegment [wdoc0, wdoc1]).FieldsMap
            (([wdoc0, wdoc1] : List AnalysisResult).getD d emptyResult).document.fields fid ∧
        (lookupA ((NewFromAnalyzedDocs [wdoc0, wdoc1]).StoredTypes.getD d []) fid).getD [] =
          storedTags (dictSegment [wdoc0, wdoc1]).FieldsMap
            (([wdoc0, wdoc1] : List AnalysisResult).getD d emptyResult).document.fields fid ∧
        (lookupA ((NewFromAnalyzedDocs [wdoc0, wdoc1]).StoredPos.getD d []) fid).getD [] =
          storedPoss (dictSegment [wdoc0, wdoc1]).FieldsMap
            (([wdoc0, wdoc1] : List AnalysisResult).getD d emptyResult).document.fields fid) :=
  ⟨by decide, C8_stored_roundtrip [wdoc0, wdoc1] (by decide)⟩

/-- **C10** (location-data consistency, implicit).  After assembling any
prefix of `k` documents, for every posting ordinal: the five location
sequences have equal length, and every member of the location-membership
bitmap is also a member of the document-membership bitmap — a document
number enters `PostingsLocs` only in the step that enters it into
`Postings`, and only when its collated token frequency carries at least one
location record. -/
theorem C10_location_consistency (results : List AnalysisResult) (hwf : WFResults results)
    (k : Nat) (hk : k ≤ results.length) :
    ∀ pid, pid < (pairScan results).length →
      (((buildUpTo results k).Locfields.getD pid []).length =
          ((buildUpTo results k).Locstarts.getD pid []).length ∧
        ((buildUpTo results k).Locstarts.getD pid []).length =
          ((buildUpTo results k).Locends.getD pid []).length ∧
        ((buildUpTo results k).Locends.getD pid []).length =
          ((buildUpTo results k).Locpos.getD pid []).length ∧
        ((buildUpTo results k).Locpos.getD pid []).length =
          ((buildUpTo results k).Locarraypos.getD pid []).length) ∧
      ∀ d ∈ (buildUpTo results k).PostingsLocs.getD pid [],
        d ∈ (buildUpTo results k).Postings.getD pid [] ∧
          (contribLocsAt results d pid).isEmpty = false := by
  intro pid hpid
  have h := buildUpTo_AInv results hwf k hk
  refine ⟨⟨?_, ?_, ?_, ?_⟩, ?_⟩
  · rw [h.locfields pid hpid, h.locstarts pid hpid]
  · rw [h.locstarts pid hpid, h.locends pid hpid]
  · rw [h.locends pid hpid, h.locpos pid hpid]
  · rw [h.locpos pid hpid, h.locarraypos pid hpid]
  · intro d hd
    rw [h.postingsLocs pid hpid] at hd
    rw [h.postings pid hpid]
    exact refPostingsLocs_sub d hd

theorem C10_location_consistency_witness :
    WFResults [wdoc0, wdoc1] ∧ 1 ≤ ([wdoc0, wdoc1] : List AnalysisResult).length ∧
    (∀ pid, pid < (pairScan [wdoc0, wdoc1]).length →
      (((buildUpTo [wdoc0, wdoc1] 1).Locfields.getD pid []).length =
          ((buildUpTo [wdoc0, wdoc1] 1).Locstarts.getD pid []).length ∧
        ((buildUpTo [wdoc0, wdoc1] 1).Locstarts.getD pid []).length =
          ((buildUpTo [wdoc0, wdoc1] 1).Locends.getD pid []).length ∧
        ((buildUpTo [wdoc0, wdoc1] 1).Locends.getD pid []).length =
          ((buildUpTo [wdoc0, wdoc1] 1).Locpos.getD pid []).length ∧
        ((buildUpTo [wdoc0, wdoc1] 1).Locpos.getD pid []).length =
          ((buildUpTo [wdoc0, wdoc1] 1).Locarraypos.getD pid []).length) ∧
      ∀ d ∈ (buildUpTo [wdoc0, wdoc1] 1).PostingsLocs.getD pid [],
        d ∈ (buildUpTo [wdoc0, wdoc1] 1).Postings.getD pid [] ∧
          (contribLocsAt [wdoc0, wdoc1] d pid).isEmpty = false) :=
  ⟨by decide, by decide, C10_location_consistency [wdoc0, wdoc1] (by decide) 1 (by decide)⟩

theorem getOrDefineField_regPair (s : Segment) (name : String) :
    ((s.getOrDefineField name).2.FieldsMap, (s.getOrDefineField name).2.FieldsInv) =
      regPairStep (s.FieldsMap, s.FieldsInv) name := by
  unfold Segment.getOrDefineField regPairStep
  cases hl : lookupA s.FieldsMap name <;> simp [hl]

theorem dictProcessField_regPair (s : Segment) (n fid : Nat) (tf : TokenFrequencies) :
    ((dictProcessField s n fid tf).2.FieldsMap, (dictProcessField s n fid tf).2.FieldsInv) =
      (s.FieldsMap, s.FieldsInv) := by
  induction tf generalizing s n with
  | nil => rfl
  | cons p rest ih =>
    obtain ⟨term, q⟩ := p
    simp only [dictProcessField]
    rw [ih]
    obtain ⟨h1, h2, _⟩ := dictAddTerm_frame s n fid term
    rw [h1, h2]

theorem dictComposites_regPair (s : Segment) (n : Nat) (fs : List CompositeField) :
    ((dictComposites s n fs).2.FieldsMap, (dictComposites s n fs).2.FieldsInv) =
      (fs.map CompositeField.name).foldl regPairStep (s.FieldsMap, s.FieldsInv) := by
  induction fs generalizing s n with
  | nil => rfl
  | cons f rest ih =>
    simp only [dictComposites, List.map_cons, List.foldl_cons]
    rw [ih, dictProcessField_regPair, getOrDefineField_regPair]

theorem dictRegulars_regPair (s : Segment) (n : Nat) (fs : List RegularField)
    (tfs : List TokenFrequencies) :
    ((dictRegulars s n fs tfs).2.FieldsMap, (dictRegulars s n fs tfs).2.FieldsInv) =
      (fs.map RegularField.name).foldl regPairStep (s.FieldsMap, s.FieldsInv) := by
  induction fs generalizing s n tfs with
  | nil => rfl
  | cons f rest ih =>
    simp only [dictRegulars, List.map_cons, List.foldl_cons]
    rw [ih, dictProcessField_regPair, getOrDefineField_regPair]

theorem dictResults_regPair (s : Segment) (n : Nat) (results : List AnalysisResult) :
    ((dictResults s n results).2.FieldsMap, (dictResults s n results).2.FieldsInv) =
      (batchNames results).foldl regPairStep (s.FieldsMap, s.FieldsInv) := by
  induction results generalizing s n with
  | nil => rfl
  | cons r rest ih =>
    simp only [dictResults]
    rw [ih, dictRegulars_regPair, dictComposites_regPair]
    have hb : batchNames (r :: rest) =
        (r.document.compositeFields.map CompositeField.name ++
          r.document.fields.map RegularField.name) ++ batchNames rest := rfl
    rw [hb, List.foldl_append, List.foldl_append]

theorem dictSegment_regPair (results : List AnalysisResult) :
    ((dictSegment results).FieldsMap, (dictSegment results).FieldsInv) =
      (batchNames results).foldl regPairStep
        (baseSegment.FieldsMap, baseSegment.FieldsInv) :=
  dictResults_regPair baseSegment 0 results

/-- **C3** (determinism, corrected).  The two-run determinism claim fails
for posting ordinals: Go randomises map iteration in `initializeDict`'s term
loop, and the counterexample shows that permuting one token-frequency map's
iteration order permutes the assigned ordinals.  The amended claim states
what the code does guarantee.  Field-id assignment is deterministic in the
ordered field-name sequence alone: two batches with equal `batchNames` —
whatever their token maps or iteration orders — produce identical
`FieldsMap` and `FieldsInv` after the dictionary pass, the registry evolving
as the pure fold of `regPairStep` over the names.  Posting ordinals are
deterministic given the iteration orders: when the first-appearance scans
also coincide, every registered field's dictionary lookup coincides. -/
theorem C3_determinism_of_order (results1 results2 : List AnalysisResult)
    (hn : batchNames results1 = batchNames results2) :
    (dictSegment results1).FieldsMap = (dictSegment results2).FieldsMap ∧
    (dictSegment results1).FieldsInv = (dictSegment results2).FieldsInv ∧
    (pairScan results1 = pairScan results2 →
      ∀ fid, fid < (dictSegment results1).FieldsInv.length → ∀ term,
        lookupA ((dictSegment results1).Dicts.getD fid []) term =
          lookupA ((dictSegment results2).Dicts.getD fid []) term) := by
  have h1 := dictSegment_regPair results1
  have h2 := dictSegment_regPair results2
  rw [hn] at h1
  have hpair : ((dictSegment results1).FieldsMap, (dictSegment results1).FieldsInv) =
      ((dictSegment results2).FieldsMap, (dictSegment results2).FieldsInv) :=
    h1.trans h2.symm
  have hfm : (dictSegment results1).FieldsMap = (dictSegment results2).FieldsMap :=
    congrArg Prod.fst hpair
  have hfi : (dictSegment results1).FieldsInv = (dictSegment results2).FieldsInv :=
    congrArg Prod.snd hpair
  refine ⟨hfm, hfi, ?_⟩
  intro hscan fid hfid term
  rw [(dictSegment_inv results1).dict fid hfid term,
    (dictSegment_inv results2).dict fid (by rw [← hfi]; exact hfid) term, hscan, hfi]

theorem C3_determinism_of_order_witness :
    batchNames [cdocA] = batchNames [cdocB] ∧
    ((dictSegment [cdocA]).FieldsMap = (dictSegment [cdocB]).FieldsMap ∧
      (dictSegment [cdocA]).FieldsInv = (dictSegment [cdocB]).FieldsInv ∧
      (pairScan [cdocA] = pairScan [cdocB] →
        ∀ fid, fid < (dictSegment [cdocA]).FieldsInv.length → ∀ term,
          lookupA ((dictSegment [cdocA]).Dicts.getD fid []) term =
            lookupA ((dictSegment [cdocB]).Dicts.getD fid []) term)) :=
  ⟨by decide, C3_determinism_of_order [cdocA] [cdocB] (by decide)⟩

/-- Counterexample to the original **C3**: the two batches hold the same
single document and the same body token-frequency map as a finite map — the
association lists are permutations of one another with duplicate-free keys,
so they agree at every term — and differ only in iteration order, which Go
randomises between runs.  One run assigns term "a" of field id 1 the
posting ordinal 1, the other assigns it ordinal 2. -/
theorem C3_determinism_counterexample :
    cdocA.document = cdocB.document ∧
    cdocA.length = cdocB.length ∧
    (cdocA.analyzed.getD 0 []).Perm (cdocB.analyzed.getD 0 []) ∧
    ((cdocA.analyzed.getD 0 []).map Prod.fst).Nodup ∧
    lookupA ((dictSegment [cdocA]).Dicts.getD 1 []) "a" = some 1 ∧
    lookupA ((dictSegment [cdocB]).Dicts.getD 1 []) "a" = some 2 :=
  ⟨rfl, rfl, by decide, by decide, by decide, by decide⟩
